import Mathlib

/-!
# SimpleTracker (tracker.js): IoU matching with persistent identities

A shallow embedding of `src/tracker.js`.

JavaScript numbers are IEEE 754 doubles.  The values that `iou` computes are modelled by
the type `F64`: `NaN`, the two infinities, and the finite doubles as exact rationals,
with every `+`, `-`, `*` and `/` rounded to nearest, ties to even, overflowing to an
infinity from `2 ^ 1024` on and underflowing gradually.  The sign of a zero is not kept:
`Math.max`, `=== 0`, `<` and the sign of the comparator treat both zeros alike, and the
only division of the program is guarded by `union === 0`.  Box coordinates, scores and
the three configuration values are finite numbers, kept as exact rationals; counters
(ids, ages, hits, frame indices) are integers.

`Array.prototype.sort` runs the comparator of the source.  The object state of a
`SimpleTracker` is passed explicitly: `update` returns the new state together with the
array it returns in JavaScript.
-/

namespace Tracker

/-- A JavaScript number: an IEEE 754 double, up to the sign of zero.  `fin q` is the finite
value `q`; the operations below only produce values `fin q` that are doubles. -/
inductive F64 where
  | nan : F64
  | posInf : F64
  | negInf : F64
  | fin (q : ℚ) : F64
deriving DecidableEq

namespace F64

/-- Auxiliary for `natLog2`, by recursion on fuel. -/
def log2Aux : Nat → Nat → Nat
  | 0, _ => 0
  | fuel + 1, n => if n < 2 then 0 else log2Aux fuel (n / 2) + 1

/-- The exponent of the highest set bit: `⌊log₂ n⌋` for `n ≥ 1`. -/
def natLog2 (n : Nat) : Nat := log2Aux n n

/-- The binary exponent `⌊log₂ q⌋` of a positive rational:
`2 ^ expOf q ≤ q < 2 ^ (expOf q + 1)` (`expOf_spec` below). -/
def expOf (q : ℚ) : ℤ :=
  if 1 ≤ q then (natLog2 ⌊q⌋₊ : ℤ)
  else if ⌈q⁻¹⌉₊ ≤ 1 then 0 else -((natLog2 (⌈q⁻¹⌉₊ - 1) : ℤ) + 1)

/-- Rounding of a rational to the nearest integer, ties to the even one. -/
def rne (x : ℚ) : ℤ :=
  if x - ⌊x⌋ < 1 / 2 then ⌊x⌋
  else if 1 / 2 < x - ⌊x⌋ then ⌊x⌋ + 1
  else if ⌊x⌋ % 2 = 0 then ⌊x⌋ else ⌊x⌋ + 1

/-- The exponent of the binade used to round a positive rational: `⌊log₂ q⌋`, and
`-1022` in the subnormal range. -/
def expC (q : ℚ) : ℤ := max (expOf q) (-1022)

/-- The spacing of the doubles around a positive rational `q`: `2 ^ (e - 52)` with
`e = expC q`, which is `2 ^ (-1074)` in the subnormal range. -/
def ulp (q : ℚ) : ℚ := (2 : ℚ) ^ (expC q - 52)

/-- The double nearest to a positive rational, ties to even, before the overflow check:
a multiple of the spacing within half a spacing of `q` (`roundPos_near` below), and `q`
itself when `q` is a double (`roundPos_of_rep`). -/
def roundPos (q : ℚ) : ℚ := rne (q / ulp q) * ulp q

/-- Rounding of an exact result to a double: round to nearest, ties to even, with
overflow to an infinity from `2 ^ 1024` on. -/
def round (q : ℚ) : F64 :=
  if q = 0 then fin 0
  else if 0 < q then
    (if (2 : ℚ) ^ (1024 : ℕ) ≤ roundPos q then posInf else fin (roundPos q))
  else
    (if (2 : ℚ) ^ (1024 : ℕ) ≤ roundPos (-q) then negInf else fin (-roundPos (-q)))

/-- The operator `+` on numbers. -/
def add : F64 → F64 → F64
  | nan, _ => nan
  | _, nan => nan
  | posInf, negInf => nan
  | negInf, posInf => nan
  | posInf, _ => posInf
  | _, posInf => posInf
  | negInf, _ => negInf
  | _, negInf => negInf
  | fin a, fin b => round (a + b)

/-- The operator `-` on numbers. -/
def sub : F64 → F64 → F64
  | nan, _ => nan
  | _, nan => nan
  | posInf, posInf => nan
  | negInf, negInf => nan
  | posInf, _ => posInf
  | _, negInf => posInf
  | negInf, _ => negInf
  | _, posInf => negInf
  | fin a, fin b => round (a - b)

/-- The operator `*` on numbers. -/
def mul : F64 → F64 → F64
  | nan, _ => nan
  | _, nan => nan
  | posInf, posInf => posInf
  | negInf, negInf => posInf
  | posInf, negInf => negInf
  | negInf, posInf => negInf
  | posInf, fin b => if b = 0 then nan else if 0 < b then posInf else negInf
  | negInf, fin b => if b = 0 then nan else if 0 < b then negInf else posInf
  | fin a, posInf => if a = 0 then nan else if 0 < a then posInf else negInf
  | fin a, negInf => if a = 0 then nan else if 0 < a then negInf else posInf
  | fin a, fin b => round (a * b)

/-- The operator `/` on numbers, for a divisor that is not zero.  With a zero divisor
the sign of the result would depend on the sign of the zero, which this type does not
keep; `iou` guards its only division with `union === 0`. -/
def div : F64 → F64 → F64
  | nan, _ => nan
  | _, nan => nan
  | posInf, posInf => nan
  | posInf, negInf => nan
  | negInf, posInf => nan
  | negInf, negInf => nan
  | posInf, fin b => if 0 ≤ b then posInf else negInf
  | negInf, fin b => if 0 ≤ b then negInf else posInf
  | fin _, posInf => fin 0
  | fin _, negInf => fin 0
  | fin a, fin b => if b = 0 then nan else round (a / b)

/-- The function `Math.max` on two numbers. -/
def mathMax : F64 → F64 → F64
  | nan, _ => nan
  | _, nan => nan
  | posInf, _ => posInf
  | _, posInf => posInf
  | negInf, b => b
  | a, negInf => a
  | fin a, fin b => fin (Max.max a b)

/-- The operator `<` on numbers: false as soon as one side is `NaN`. -/
def lt : F64 → F64 → Bool
  | nan, _ => false
  | _, nan => false
  | posInf, _ => false
  | _, posInf => true
  | negInf, negInf => false
  | negInf, _ => true
  | fin _, negInf => false
  | fin a, fin b => decide (a < b)

/-- The operator `<=` on numbers: false as soon as one side is `NaN`. -/
def le : F64 → F64 → Bool
  | nan, _ => false
  | _, nan => false
  | negInf, _ => true
  | _, posInf => true
  | posInf, _ => false
  | _, negInf => false
  | fin a, fin b => decide (a ≤ b)

/-- The test `x === 0`. -/
def isZero : F64 → Bool
  | fin q => decide (q = 0)
  | _ => false

/-- The finite doubles: `m * 2 ^ e` with `|m| < 2 ^ 53` and `e ≥ -1074`; the upper end
of the range is enforced by the overflow check of `round`. -/
def Rep (v : ℚ) : Prop := ∃ (m e : ℤ), -1074 ≤ e ∧ |m| < 2 ^ 53 ∧ v = m * (2 : ℚ) ^ e

end F64

/-- A detection box `{x1,y1,x2,y2,score,label}`; no ordering of the corners is enforced.
The coordinates are finite numbers, kept as exact rationals (every finite double is
one); `NaN` and infinite coordinates are outside the model. -/
structure Box where
  x1 : ℚ
  y1 : ℚ
  x2 : ℚ
  y2 : ℚ
  score : ℚ
  label : String
deriving DecidableEq

/-- Function `iou(boxA, boxB)` of tracker.js, line by line, in double arithmetic:
`Math.max` and `Math.min` of two finite numbers are exact, every `-`, `*`, `+` and `/`
rounds. -/
def iou (boxA boxB : Box) : F64 :=
  let xA := max boxA.x1 boxB.x1
  let yA := max boxA.y1 boxB.y1
  let xB := min boxA.x2 boxB.x2
  let yB := min boxA.y2 boxB.y2
  let interW := F64.mathMax (F64.fin 0) (F64.sub (F64.fin xB) (F64.fin xA))
  let interH := F64.mathMax (F64.fin 0) (F64.sub (F64.fin yB) (F64.fin yA))
  let interArea := F64.mul interW interH
  let boxAArea := F64.mul (F64.sub (F64.fin boxA.x2) (F64.fin boxA.x1))
    (F64.sub (F64.fin boxA.y2) (F64.fin boxA.y1))
  let boxBArea := F64.mul (F64.sub (F64.fin boxB.x2) (F64.fin boxB.x1))
    (F64.sub (F64.fin boxB.y2) (F64.fin boxB.y1))
  let union := F64.sub (F64.add boxAArea boxBArea) interArea
  if union.isZero then F64.fin 0 else F64.div interArea union

/-- The local `interW` of `iou`: the intersection width, clamped at 0. -/
def interW (a b : Box) : F64 :=
  F64.mathMax (F64.fin 0) (F64.sub (F64.fin (min a.x2 b.x2)) (F64.fin (max a.x1 b.x1)))

/-- The local `interH` of `iou`: the intersection height, clamped at 0. -/
def interH (a b : Box) : F64 :=
  F64.mathMax (F64.fin 0) (F64.sub (F64.fin (min a.y2 b.y2)) (F64.fin (max a.y1 b.y1)))

/-- The local `interArea` of `iou`. -/
def interArea (a b : Box) : F64 := F64.mul (interW a b) (interH a b)

/-- The width `x2 - x1` of a box as `iou` computes it, not clamped. -/
def sideW (a : Box) : F64 := F64.sub (F64.fin a.x2) (F64.fin a.x1)

/-- The height `y2 - y1` of a box as `iou` computes it, not clamped. -/
def sideH (a : Box) : F64 := F64.sub (F64.fin a.y2) (F64.fin a.y1)

/-- The locals `boxAArea` and `boxBArea` of `iou`: the product of the unclamped sides. -/
def boxArea (a : Box) : F64 := F64.mul (sideW a) (sideH a)

/-- The local `union` of `iou`. -/
def unionArea (a b : Box) : F64 :=
  F64.sub (F64.add (boxArea a) (boxArea b)) (interArea a b)

/-- The last line of `iou`: 0 when the union is zero, the quotient otherwise. -/
def guardedDiv (inter union : F64) : F64 :=
  if union.isZero then F64.fin 0 else F64.div inter union

/-- The area of a box with its width and its height clamped at 0 before they are
multiplied, as section 4.1 of the specification words it, in double arithmetic. -/
def clampedArea (a : Box) : F64 :=
  F64.mul (F64.mathMax (F64.fin 0) (sideW a)) (F64.mathMax (F64.fin 0) (sideH a))

/-- The reference IoU in the words of the specification: intersection area over the sum
of the two clamped areas minus the intersection area, and 0 when that denominator is 0. -/
def iouClamped (a b : Box) : F64 :=
  guardedDiv (interArea a b) (F64.sub (F64.add (clampedArea a) (clampedArea b)) (interArea a b))

/-- Whether a number is finite: neither `NaN` nor an infinity. -/
def F64.isFinite : F64 → Bool
  | F64.fin _ => true
  | _ => false

/-- A track object `{id, bbox, age, hits, lastSeenFrame}`. -/
structure Track where
  id : ℤ
  bbox : Box
  age : ℤ
  hits : ℤ
  lastSeenFrame : ℤ
deriving DecidableEq

/-- The fields of a `SimpleTracker` instance. -/
structure SimpleTracker where
  iouThreshold : ℚ
  maxAge : ℚ
  minHits : ℚ
  tracks : List Track
  _nextId : ℤ
  _frameCount : ℤ
deriving DecidableEq

/-- An entry `{id, bbox, confirmed, age}` of the array that `update` returns. -/
structure Output where
  id : ℤ
  bbox : Box
  confirmed : Bool
  age : ℤ
deriving DecidableEq

/-- An entry `{i, j, val}` of the local array `pairs` in `update`. -/
structure Pair where
  i : Nat
  j : Nat
  val : F64
deriving DecidableEq

/-- The bookkeeping of the matching pass: the array `matches` (here `matched`) and the two sets
`unmatchedTracks`, `unmatchedDetections`, each kept in insertion order. -/
structure MatchState where
  matched : List (Nat × Nat)
  unmatchedTracks : List Nat
  unmatchedDetections : List Nat
deriving DecidableEq

/-- The constructor: it stores the three options as given and starts with no
tracks, `_nextId = 1` and `_frameCount = 0`. -/
def SimpleTracker.new (iouThreshold maxAge minHits : ℚ) : SimpleTracker :=
  { iouThreshold := iouThreshold, maxAge := maxAge, minHits := minHits,
    tracks := [], _nextId := 1, _frameCount := 0 }

/-- The literal `0.3` of the constructor: the double nearest to 3/10, which is
`5404319552844595 / 2 ^ 54`. -/
def defaultIouThreshold : ℚ := 5404319552844595 / 18014398509481984

/-- The constructor called without options: `iouThreshold = 0.3`, `maxAge = 30`,
`minHits = 1`. -/
def SimpleTracker.newDefault : SimpleTracker := SimpleTracker.new defaultIouThreshold 30 1

/-- Method `_createTrack(bbox)`: pushes a track with the next id (post-increment). -/
def SimpleTracker._createTrack (self : SimpleTracker) (bbox : Box) : SimpleTracker :=
  { self with
    tracks := self.tracks ++
      [{ id := self._nextId, bbox := bbox, age := 0, hits := 1,
         lastSeenFrame := self._frameCount }],
    _nextId := self._nextId + 1 }

/-- The predicate of the filter in `_removeStaleTracks`. -/
def keepTrack (frameCount : ℤ) (maxAge : ℚ) (t : Track) : Bool :=
  decide (((frameCount - t.lastSeenFrame : ℤ) : ℚ) ≤ maxAge)

/-- Method `_removeStaleTracks()`. -/
def SimpleTracker._removeStaleTracks (self : SimpleTracker) : SimpleTracker :=
  { self with tracks := self.tracks.filter (keepTrack self._frameCount self.maxAge) }

/-- The local `iouMatrix` of `update`: one row per track, one column per detection. -/
def iouMatrix (tracks : List Track) (detections : List Box) : List (List F64) :=
  tracks.map fun t => detections.map fun d => iou t.bbox d

/-- The local `pairs` of `update` before sorting: every cell of the matrix, row by row. -/
def allPairs (m : List (List F64)) : List Pair :=
  m.enum.flatMap fun r => r.2.enum.map fun c => { i := r.1, j := c.1, val := c.2 }

/-- The comparator `(a,b)=>b.val - a.val` passed to `pairs.sort`. -/
def cmpPairs (a b : Pair) : F64 := F64.sub b.val a.val

/-- The call `pairs.sort((a,b)=>b.val - a.val)`, driven by the comparator: `a` is put
before `b` unless the comparator returns a number above 0, so that a result of `NaN`
counts as 0, as `SortCompare` of ECMAScript prescribes.  While no `val` is `NaN` the
comparator is consistent and this is the stable sort by descending `val` that ECMAScript
2019 prescribes (`sortPairs_eq_stable` below).  With a `NaN` among the values the
comparator is not consistent and the standard leaves the order to the engine; the model
then takes the order of an insertion sort that runs the comparator, which leaves a list
as it is when the comparator returns no number above 0 for an element and its
successor. -/
def sortPairs (pairs : List Pair) : List Pair :=
  pairs.insertionSort fun a b => F64.lt (F64.fin 0) (cmpPairs a b) = false

/-- The loop `for (const p of pairs)` of `update`, with its `break`; the test
`p.val < this.iouThreshold` is false when `p.val` is `NaN`. -/
def greedyLoop (iouThreshold : ℚ) : List Pair → MatchState → MatchState
  | [], s => s
  | p :: ps, s =>
    if F64.lt p.val (F64.fin iouThreshold) = true then s
    else if p.i ∈ s.unmatchedTracks ∧ p.j ∈ s.unmatchedDetections then
      greedyLoop iouThreshold ps
        { matched := s.matched ++ [(p.i, p.j)],
          unmatchedTracks := s.unmatchedTracks.erase p.i,
          unmatchedDetections := s.unmatchedDetections.erase p.j }
    else greedyLoop iouThreshold ps s

/-- The matching part of `update` (source lines 50 to 83). -/
def greedyMatch (self : SimpleTracker) (detections : List Box) : MatchState :=
  let init : MatchState :=
    { matched := [],
      unmatchedTracks := List.range self.tracks.length,
      unmatchedDetections := List.range detections.length }
  if 0 < self.tracks.length ∧ 0 < detections.length then
    greedyLoop self.iouThreshold
      (sortPairs (allPairs (iouMatrix self.tracks detections))) init
  else init

/-- The body of the loop over `matches`: the matched track takes the detection. -/
def touchTrack (frameCount : ℤ) (det : Box) (tr : Track) : Track :=
  { tr with bbox := det, hits := tr.hits + 1, lastSeenFrame := frameCount }

/-- One iteration of the loop `for (const [tIdx, dIdx] of matches)` of `update`.  The
indices that the matching pass produces are in range (`greedyMatch_perm` below); an index
out of range leaves the list as it is. -/
def applyMatch (frameCount : ℤ) (detections : List Box) (tracks : List Track)
    (m : Nat × Nat) : List Track :=
  match detections[m.2]? with
  | some det => tracks.modify (touchTrack frameCount det) m.1
  | none => tracks

/-- The loop `for (const [tIdx, dIdx] of matches)` of `update`. -/
def applyMatches (frameCount : ℤ) (detections : List Box) (tracks : List Track)
    (ms : List (Nat × Nat)) : List Track :=
  ms.foldl (applyMatch frameCount detections) tracks

/-- The loop `for (const dIdx of unmatchedDetections)` of `update`; the set holds
detection indices only, so the lookup succeeds. -/
def createTracks (self : SimpleTracker) (detections : List Box) (unmatched : List Nat) :
    SimpleTracker :=
  unmatched.foldl (fun s dIdx =>
    match detections[dIdx]? with
    | some det => s._createTrack det
    | none => s) self

/-- The body of the aging loop of `update`. -/
def ageTrack (frameCount : ℤ) (tr : Track) : Track :=
  if tr.lastSeenFrame ≠ frameCount then { tr with age := tr.age + 1 }
  else { tr with age := 0 }

/-- The state of `update` after the aging loop and before `_removeStaleTracks`. -/
def agedState (self : SimpleTracker) (detections : List Box) : SimpleTracker :=
  let s1 : SimpleTracker := { self with _frameCount := self._frameCount + 1 }
  let ms := greedyMatch s1 detections
  let s2 : SimpleTracker :=
    { s1 with tracks := applyMatches s1._frameCount detections s1.tracks ms.matched }
  let s3 := createTracks s2 detections ms.unmatchedDetections
  { s3 with tracks := s3.tracks.map (ageTrack s3._frameCount) }

/-- The output loop of `update`. -/
def emit (minHits : ℚ) (tr : Track) : Output :=
  { id := tr.id, bbox := tr.bbox, confirmed := decide (minHits ≤ (tr.hits : ℚ)), age := tr.age }

/-- Method `update(detections)`: the new state and the returned array. -/
def SimpleTracker.update (self : SimpleTracker) (detections : List Box) :
    SimpleTracker × List Output :=
  let s := (agedState self detections)._removeStaleTracks
  (s, s.tracks.map (emit s.minHits))

/-- The tracker after a sequence of `update` calls, one per batch. -/
def run (self : SimpleTracker) (batches : List (List Box)) : SimpleTracker :=
  batches.foldl (fun s d => (s.update d).1) self

/-- The outputs of a sequence of `update` calls, one per batch. -/
def outputs : SimpleTracker → List (List Box) → List (List Output)
  | _, [] => []
  | s, d :: ds => (s.update d).2 :: outputs (s.update d).1 ds

/-- The tracks that `createTracks` pushes for the boxes `ds`, the first with id `nextId`. -/
def newTracks (nextId frameCount : ℤ) : List Box → List Track
  | [] => []
  | d :: ds =>
    { id := nextId, bbox := d, age := 0, hits := 1, lastSeenFrame := frameCount } ::
      newTracks (nextId + 1) frameCount ds

/-- The boxes of the detections left unmatched, in the order of the set. -/
def unmatchedBoxes (detections : List Box) (unmatched : List Nat) : List Box :=
  unmatched.filterMap fun j => detections[j]?

/-- The track indices that the matching pass of `update` matches. -/
def matchedTracks (self : SimpleTracker) (detections : List Box) : List Nat :=
  (greedyMatch self detections).matched.map Prod.fst

/-- How the loop over `matches` may change one track: id and age stay, and the frame of
the last match either stays or becomes the current frame. -/
def TouchRel (frameCount : ℤ) (t t' : Track) : Prop :=
  t'.id = t.id ∧ t'.age = t.age ∧
    (t'.lastSeenFrame = t.lastSeenFrame ∨ t'.lastSeenFrame = frameCount)

/-- The invariant of the states reachable from a fresh tracker: ids strictly increasing
along the list, positive and below the positive `_nextId`; no track seen after the current
frame; and every age equal to the number of frames since the track was last seen. -/
def Inv (s : SimpleTracker) : Prop :=
  (s.tracks.map Track.id).Pairwise (· < ·) ∧ 0 < s._nextId ∧
    ∀ t ∈ s.tracks, 0 < t.id ∧ t.id < s._nextId ∧ t.lastSeenFrame ≤ s._frameCount ∧
      t.age = s._frameCount - t.lastSeenFrame

/-- The state reached from a freshly constructed tracker by one call per batch. -/
def reached (iouThreshold maxAge minHits : ℚ) (batches : List (List Box)) : SimpleTracker :=
  run (SimpleTracker.new iouThreshold maxAge minHits) batches

/-- The detection of scenario A: the box (0,0)-(10,10). -/
def scenarioA : Box := ⟨0, 0, 10, 10, 9 / 10, "person"⟩

/-- The detection of scenario B: the box of scenario A shifted by (1,1). -/
def scenarioB : Box := ⟨1, 1, 11, 11, 17 / 20, "person"⟩

/-- The default tracker after the call of scenario A. -/
def scenarioAState : SimpleTracker := reached defaultIouThreshold 30 1 [[scenarioA]]

/-- Two boxes that overlap in half: (0,0)-(10,10) and (5,0)-(15,10). -/
def gapBoxes : List Box := [⟨0, 0, 10, 10, 1, "a"⟩, ⟨5, 0, 15, 10, 1, "b"⟩]

/-- A batch for the tracks of `gapBoxes`: the first box again, and (-5,0)-(5,10). -/
def gapDetections : List Box := [⟨0, 0, 10, 10, 1, "a"⟩, ⟨-5, 0, 5, 10, 1, "c"⟩]

/-- The default tracker after one call with `gapBoxes`: two tracks, ids 1 and 2. -/
def gapState : SimpleTracker := reached defaultIouThreshold 30 1 [gapBoxes]

/-- The argument of `new SimpleTracker(options)`: `undefined` is a call without argument
or with `undefined`, for which the default `{}` of the parameter is taken; `null` is
`null`; `object` is an options object, each of whose properties `iouThreshold`, `maxAge`
and `minHits` is a number or is missing (`none`). -/
inductive OptionsArg where
  | undefined : OptionsArg
  | null : OptionsArg
  | object (iouThreshold maxAge minHits : Option ℚ) : OptionsArg
deriving DecidableEq

/-- The expression `new SimpleTracker(options)` as a computation that may throw.  The
parameter is the pattern `{ iouThreshold = 0.3, maxAge = 30, minHits = 1 } = {}`:
destructuring `null` throws a `TypeError`, and a missing property takes its default.
The body (source lines 23 to 28) holds six assignments and no test of the values. -/
def SimpleTracker.construct : OptionsArg → Except String SimpleTracker
  | OptionsArg.null => Except.error "TypeError"
  | OptionsArg.undefined => Except.ok SimpleTracker.newDefault
  | OptionsArg.object thr ma mh =>
    Except.ok (SimpleTracker.new (thr.getD defaultIouThreshold) (ma.getD 30) (mh.getD 1))

/-- Tracks (0,0)-(2^600,2^600) and (0,0)-(10,10), created by one call on the default
tracker.  The area of the first overflows to `Infinity`. -/
def hugeBoxes : List Box := [⟨0, 0, 2 ^ 600, 2 ^ 600, 1, "a"⟩, ⟨0, 0, 10, 10, 1, "b"⟩]

/-- A batch for the tracks of `hugeBoxes`: the same two boxes, the small one first. -/
def hugeDetections : List Box := [⟨0, 0, 10, 10, 1, "b"⟩, ⟨0, 0, 2 ^ 600, 2 ^ 600, 1, "a"⟩]

/-- The default tracker after one call with `hugeBoxes`: two tracks, ids 1 and 2. -/
def hugeState : SimpleTracker := reached defaultIouThreshold 30 1 [hugeBoxes]

/-- The value of a finite cell of the IoU matrix, and 0 for the other cells. -/
def F64.toRat : F64 → ℚ
  | F64.fin q => q
  | _ => 0

/-- The test "last seen in frame `frameCount`", which after the matching and creation
loops singles out the tracks matched or created in the current call. -/
def seenIn (frameCount : ℤ) (t : Track) : Bool := decide (t.lastSeenFrame = frameCount)

/-! ## Double arithmetic -/

namespace F64

theorem log2Aux_eq (fuel n : Nat) (h : n ≤ fuel) : log2Aux fuel n = Nat.log 2 n := by
  induction fuel generalizing n with
  | zero =>
    have : n = 0 := by omega
    subst this; simp [log2Aux]
  | succ fuel ih =>
    unfold log2Aux
    split_ifs with h2
    · exact (Nat.log_of_lt h2).symm
    · have h3 : 2 ≤ n := by omega
      rw [ih (n / 2) (by omega)]
      exact (Nat.log_of_one_lt_of_le (by norm_num) h3).symm

theorem natLog2_eq (n : Nat) : natLog2 n = Nat.log 2 n := log2Aux_eq n n (le_refl n)

theorem natLog2_spec (n : Nat) (hn : n ≠ 0) : 2 ^ natLog2 n ≤ n ∧ n < 2 ^ (natLog2 n + 1) := by
  rw [natLog2_eq]
  exact ⟨Nat.pow_log_le_self 2 hn, Nat.lt_pow_succ_log_self (by norm_num) n⟩

/-- The exponent computed by `expOf` brackets the rational between two powers of 2. -/
theorem expOf_spec (q : ℚ) (hq : 0 < q) :
    (2 : ℚ) ^ expOf q ≤ q ∧ q < (2 : ℚ) ^ (expOf q + 1) := by
  unfold expOf
  split_ifs with h1 h2
  · -- 1 ≤ q
    have hn : ⌊q⌋₊ ≠ 0 := by
      have : 1 ≤ ⌊q⌋₊ := Nat.le_floor (by exact_mod_cast h1)
      omega
    obtain ⟨ha, hb⟩ := natLog2_spec _ hn
    constructor
    · rw [zpow_natCast]
      calc (2 : ℚ) ^ natLog2 ⌊q⌋₊ ≤ (⌊q⌋₊ : ℚ) := by exact_mod_cast ha
        _ ≤ q := Nat.floor_le hq.le
    · have : (natLog2 ⌊q⌋₊ : ℤ) + 1 = ((natLog2 ⌊q⌋₊ + 1 : ℕ) : ℤ) := by push_cast; rfl
      rw [this, zpow_natCast]
      calc q < (⌊q⌋₊ : ℚ) + 1 := Nat.lt_floor_add_one q
        _ ≤ (2 : ℚ) ^ (natLog2 ⌊q⌋₊ + 1) := by exact_mod_cast hb
  · -- q < 1 but ⌈q⁻¹⌉₊ ≤ 1: impossible
    exfalso
    push_neg at h1
    have h3 : 1 < q⁻¹ := by
      rw [one_lt_inv₀ hq]; exact h1
    have h4 : q⁻¹ ≤ (⌈q⁻¹⌉₊ : ℚ) := Nat.le_ceil _
    have h5 : (⌈q⁻¹⌉₊ : ℚ) ≤ 1 := by exact_mod_cast h2
    linarith
  · push_neg at h1 h2
    set c := ⌈q⁻¹⌉₊ with hc
    have hm : c - 1 ≠ 0 := by omega
    obtain ⟨ha, hb⟩ := natLog2_spec _ hm
    have hqi : 0 < q⁻¹ := inv_pos.2 hq
    have h4 : q⁻¹ ≤ (c : ℚ) := Nat.le_ceil _
    have h5 : ((c - 1 : ℕ) : ℚ) < q⁻¹ := by
      have := Nat.ceil_lt_add_one hqi.le
      have hc1 : ((c - 1 : ℕ) : ℚ) = (c : ℚ) - 1 := by
        rw [Nat.cast_sub (by omega)]; simp
      rw [hc1]; linarith
    set l := natLog2 (c - 1) with hl
    have e1 : (-((l : ℤ) + 1) + 1) = -(l : ℤ) := by ring
    have hpos : (0 : ℚ) < 2 ^ (l + 1) := by positivity
    have hpos' : (0 : ℚ) < 2 ^ l := by positivity
    constructor
    · -- 2^(-(l+1)) ≤ q
      have : q⁻¹ ≤ (2 : ℚ) ^ (l + 1) := by
        have hb' : (c : ℚ) ≤ (2 : ℚ) ^ (l + 1) := by
          have : c ≤ 2 ^ (l + 1) := by omega
          exact_mod_cast this
        linarith
      have h6 : ((2 : ℚ) ^ (l + 1))⁻¹ ≤ q := by
        rw [inv_le_comm₀ hpos hq]; exact this
      have e2 : (2 : ℚ) ^ (-((l : ℤ) + 1)) = ((2 : ℚ) ^ (l + 1))⁻¹ := by
        rw [zpow_neg]; congr 1
        have : ((l : ℤ) + 1) = ((l + 1 : ℕ) : ℤ) := by push_cast; rfl
        rw [this, zpow_natCast]
      rw [e2]; exact h6
    · rw [e1, zpow_neg, zpow_natCast]
      have : (2 : ℚ) ^ l < q⁻¹ := by
        have ha' : ((2 ^ l : ℕ) : ℚ) ≤ ((c - 1 : ℕ) : ℚ) := by exact_mod_cast ha
        push_cast at ha'
        linarith
      rw [lt_inv_comm₀ hq hpos']
      exact this

theorem two_zpow_pos (e : ℤ) : (0 : ℚ) < 2 ^ e := zpow_pos (by norm_num) e

theorem two_zpow_le {a b : ℤ} (h : a ≤ b) : (2 : ℚ) ^ a ≤ 2 ^ b :=
  zpow_le_zpow_right₀ (by norm_num) h

theorem two_zpow_lt_iff {a b : ℤ} : (2 : ℚ) ^ a < 2 ^ b ↔ a < b :=
  zpow_lt_zpow_iff_right₀ (by norm_num)

/-- The exponent is determined by the bracket. -/
theorem expOf_eq (q : ℚ) (e : ℤ) (h1 : (2 : ℚ) ^ e ≤ q) (h2 : q < (2 : ℚ) ^ (e + 1)) :
    expOf q = e := by
  have hq : 0 < q := lt_of_lt_of_le (two_zpow_pos e) h1
  obtain ⟨a, b⟩ := expOf_spec q hq
  have h3 : (2 : ℚ) ^ e < 2 ^ (expOf q + 1) := lt_of_le_of_lt h1 b
  have h4 : (2 : ℚ) ^ expOf q < 2 ^ (e + 1) := lt_of_le_of_lt a h2
  rw [two_zpow_lt_iff] at h3 h4
  omega

theorem expOf_mono {p q : ℚ} (hp : 0 < p) (hpq : p ≤ q) : expOf p ≤ expOf q := by
  by_contra hcon
  push_neg at hcon
  obtain ⟨a, _⟩ := expOf_spec p hp
  obtain ⟨_, b⟩ := expOf_spec q (lt_of_lt_of_le hp hpq)
  have : (2 : ℚ) ^ (expOf q + 1) ≤ 2 ^ expOf p := two_zpow_le (by omega)
  linarith

/-! ### Rounding to the nearest integer -/

theorem floor_le_rne (x : ℚ) : ⌊x⌋ ≤ rne x := by
  unfold rne; split_ifs <;> omega

theorem rne_le_floor_add_one (x : ℚ) : rne x ≤ ⌊x⌋ + 1 := by
  unfold rne; split_ifs <;> omega

theorem rne_intCast (n : ℤ) : rne (n : ℚ) = n := by
  unfold rne
  simp

theorem rne_mono {x y : ℚ} (h : x ≤ y) : rne x ≤ rne y := by
  have hf : ⌊x⌋ ≤ ⌊y⌋ := Int.floor_le_floor h
  rcases lt_or_eq_of_le hf with hlt | heq
  · calc rne x ≤ ⌊x⌋ + 1 := rne_le_floor_add_one x
      _ ≤ ⌊y⌋ := hlt
      _ ≤ rne y := floor_le_rne y
  · have hxy : x - ⌊x⌋ ≤ y - ⌊y⌋ := by rw [heq]; linarith
    unfold rne
    rw [heq]
    split_ifs <;> first | omega | (exfalso; linarith)

theorem le_rne_of_le {n : ℤ} {x : ℚ} (h : (n : ℚ) ≤ x) : n ≤ rne x := by
  have := rne_mono h
  rwa [rne_intCast] at this

theorem rne_le_of_le {n : ℤ} {x : ℚ} (h : x ≤ (n : ℚ)) : rne x ≤ n := by
  have := rne_mono h
  rwa [rne_intCast] at this

/-! ### Rounding a positive rational -/

theorem ulp_eq (q : ℚ) : ulp q = (2 : ℚ) ^ (expC q - 52) := rfl

theorem ulp_pos (q : ℚ) : 0 < ulp q := two_zpow_pos _

theorem expC_ge (q : ℚ) : -1022 ≤ expC q := le_max_right _ _

theorem expOf_le_expC (q : ℚ) : expOf q ≤ expC q := le_max_left _ _

theorem expC_mono {p q : ℚ} (hp : 0 < p) (hpq : p ≤ q) : expC p ≤ expC q :=
  max_le_max (expOf_mono hp hpq) (le_refl _)

theorem two_zpow_eq_mul (e : ℤ) :
    (2 : ℚ) ^ e = (((2 : ℤ) ^ 52 : ℤ) : ℚ) * 2 ^ (e - 52) := by
  have h : (2 : ℚ) ^ e = 2 ^ (52 : ℤ) * 2 ^ (e - 52) := by
    rw [← zpow_add₀ (by norm_num : (2 : ℚ) ≠ 0)]
    congr 1; ring
  rw [h]; norm_num

theorem two_zpow_succ_eq_mul (e : ℤ) :
    (2 : ℚ) ^ (e + 1) = (((2 : ℤ) ^ 53 : ℤ) : ℚ) * 2 ^ (e - 52) := by
  have h : (2 : ℚ) ^ (e + 1) = 2 ^ (53 : ℤ) * 2 ^ (e - 52) := by
    rw [← zpow_add₀ (by norm_num : (2 : ℚ) ≠ 0)]
    congr 1; ring
  rw [h]; norm_num

theorem lt_pow_expC (q : ℚ) (hq : 0 < q) : q < (2 : ℚ) ^ (expC q + 1) :=
  lt_of_lt_of_le (expOf_spec q hq).2 (two_zpow_le (by have := expOf_le_expC q; omega))

theorem roundPos_nonneg (q : ℚ) (hq : 0 ≤ q) : 0 ≤ roundPos q := by
  unfold roundPos
  apply mul_nonneg _ (ulp_pos q).le
  have : (0 : ℤ) ≤ rne (q / ulp q) :=
    le_rne_of_le (by simpa using div_nonneg hq (ulp_pos q).le)
  exact_mod_cast this

/-- The rounded value does not leave the binade upwards. -/
theorem roundPos_le (q : ℚ) (hq : 0 < q) : roundPos q ≤ (2 : ℚ) ^ (expC q + 1) := by
  unfold roundPos
  have h1 : q / ulp q ≤ (((2 : ℤ) ^ 53 : ℤ) : ℚ) := by
    rw [div_le_iff₀ (ulp_pos q), ulp_eq, ← two_zpow_succ_eq_mul]
    exact (lt_pow_expC q hq).le
  have h2 : rne (q / ulp q) ≤ (2 : ℤ) ^ 53 := rne_le_of_le h1
  have h3 : ((rne (q / ulp q) : ℤ) : ℚ) ≤ (((2 : ℤ) ^ 53 : ℤ) : ℚ) := by exact_mod_cast h2
  calc (rne (q / ulp q) : ℚ) * ulp q ≤ (((2 : ℤ) ^ 53 : ℤ) : ℚ) * ulp q :=
        mul_le_mul_of_nonneg_right h3 (ulp_pos q).le
    _ = (2 : ℚ) ^ (expC q + 1) := by rw [two_zpow_succ_eq_mul, ulp_eq]

/-- The rounded value of a rational in the normal range does not leave the binade
downwards. -/
theorem le_roundPos (q : ℚ) (hq : 0 < q) (hn : -1022 ≤ expOf q) :
    (2 : ℚ) ^ expC q ≤ roundPos q := by
  have hE : expC q = expOf q := max_eq_left hn
  unfold roundPos
  have h1 : (((2 : ℤ) ^ 52 : ℤ) : ℚ) ≤ q / ulp q := by
    rw [le_div_iff₀ (ulp_pos q), ulp_eq, ← two_zpow_eq_mul, hE]
    exact (expOf_spec q hq).1
  have h2 : (2 : ℤ) ^ 52 ≤ rne (q / ulp q) := le_rne_of_le h1
  have h3 : (((2 : ℤ) ^ 52 : ℤ) : ℚ) ≤ ((rne (q / ulp q) : ℤ) : ℚ) := by exact_mod_cast h2
  calc (2 : ℚ) ^ expC q = (((2 : ℤ) ^ 52 : ℤ) : ℚ) * ulp q := by
        rw [two_zpow_eq_mul, ulp_eq]
    _ ≤ (rne (q / ulp q) : ℚ) * ulp q := mul_le_mul_of_nonneg_right h3 (ulp_pos q).le

/-- Rounding is monotone on the positive rationals. -/
theorem roundPos_mono {p q : ℚ} (hp : 0 < p) (hpq : p ≤ q) : roundPos p ≤ roundPos q := by
  have hq : 0 < q := lt_of_lt_of_le hp hpq
  rcases lt_or_eq_of_le (expC_mono hp hpq) with hlt | heq
  · have hn : -1022 ≤ expOf q := by
      by_contra hcon
      push_neg at hcon
      have h1 : expC q = -1022 := max_eq_right hcon.le
      have := expC_ge p
      omega
    calc roundPos p ≤ (2 : ℚ) ^ (expC p + 1) := roundPos_le p hp
      _ ≤ (2 : ℚ) ^ expC q := two_zpow_le (by omega)
      _ ≤ roundPos q := le_roundPos q hq hn
  · have hu : ulp p = ulp q := by rw [ulp_eq, ulp_eq, heq]
    unfold roundPos
    rw [hu]
    apply mul_le_mul_of_nonneg_right _ (ulp_pos q).le
    have : rne (p / ulp q) ≤ rne (q / ulp q) :=
      rne_mono (div_le_div_of_nonneg_right hpq (ulp_pos q).le)
    exact_mod_cast this

/-! ### Doubles are fixed by rounding -/

theorem rep_zero : Rep 0 := ⟨0, 0, by norm_num, by norm_num, by simp⟩

theorem rep_neg {v : ℚ} (h : Rep v) : Rep (-v) := by
  obtain ⟨m, e, he, hm, rfl⟩ := h
  exact ⟨-m, e, he, by rwa [abs_neg], by push_cast; ring⟩

theorem rep_double {v : ℚ} (h : Rep v) : Rep (2 * v) := by
  obtain ⟨m, e, he, hm, rfl⟩ := h
  refine ⟨m, e + 1, by omega, hm, ?_⟩
  rw [zpow_add_one₀ (by norm_num : (2 : ℚ) ≠ 0)]; ring

/-- A positive double is a fixed point of rounding. -/
theorem roundPos_of_rep {v : ℚ} (h : Rep v) (hv : 0 < v) : roundPos v = v := by
  obtain ⟨m, e, he, hm, rfl⟩ := h
  have h2e : (0 : ℚ) < 2 ^ e := two_zpow_pos e
  have hmpos : 0 < m := by
    have : (0 : ℚ) < (m : ℚ) := by
      by_contra hcon
      push_neg at hcon
      have := mul_nonpos_of_nonpos_of_nonneg hcon h2e.le
      linarith
    exact_mod_cast this
  have hm53 : m < 2 ^ 53 := lt_of_le_of_lt (le_abs_self m) hm
  set v : ℚ := (m : ℚ) * 2 ^ e with hvdef
  -- the exponent of the binade is at most `e + 52`
  have hlt : v < (2 : ℚ) ^ (e + 53) := by
    have h1 : (m : ℚ) < (((2 : ℤ) ^ 53 : ℤ) : ℚ) := by exact_mod_cast hm53
    have h2 : (2 : ℚ) ^ (e + 53) = (((2 : ℤ) ^ 53 : ℤ) : ℚ) * 2 ^ e := by
      rw [zpow_add₀ (by norm_num : (2 : ℚ) ≠ 0)]; norm_num; ring
    rw [h2]
    exact mul_lt_mul_of_pos_right h1 h2e
  have hexp : expOf v < e + 53 := by
    have := lt_of_le_of_lt (expOf_spec v hv).1 hlt
    rwa [two_zpow_lt_iff] at this
  have hC : expC v - 52 ≤ e := by
    unfold expC
    have : Max.max (expOf v) (-1022) ≤ e + 52 := max_le (by omega) (by omega)
    omega
  -- so `v / ulp v` is an integer
  obtain ⟨k, hk⟩ : ∃ k : ℕ, e = (expC v - 52) + k := ⟨(e - (expC v - 52)).toNat, by omega⟩
  have hdiv : v / ulp v = ((m * 2 ^ k : ℤ) : ℚ) := by
    rw [div_eq_iff (ulp_pos v).ne', ulp_eq, hvdef]
    conv_lhs => rw [hk, zpow_add₀ (by norm_num : (2 : ℚ) ≠ 0), zpow_natCast]
    push_cast; ring
  unfold roundPos
  rw [hdiv, rne_intCast, ← hdiv]
  exact div_mul_cancel₀ v (ulp_pos v).ne'

/-- The result of rounding a positive rational is a double. -/
theorem rep_roundPos (q : ℚ) (hq : 0 < q) : Rep (roundPos q) := by
  have hk0 : (0 : ℤ) ≤ rne (q / ulp q) :=
    le_rne_of_le (by simpa using div_nonneg hq.le (ulp_pos q).le)
  have hk1 : rne (q / ulp q) ≤ (2 : ℤ) ^ 53 := by
    apply rne_le_of_le
    rw [div_le_iff₀ (ulp_pos q), ulp_eq, ← two_zpow_succ_eq_mul]
    exact (lt_pow_expC q hq).le
  have hge := expC_ge q
  rcases lt_or_eq_of_le hk1 with hlt | heq
  · refine ⟨rne (q / ulp q), expC q - 52, by omega, ?_, rfl⟩
    rw [abs_of_nonneg hk0]; exact hlt
  · refine ⟨2 ^ 52, expC q - 51, by omega, by norm_num, ?_⟩
    unfold roundPos
    rw [heq, ulp_eq]
    have : expC q - 51 = (expC q - 52) + 1 := by ring
    rw [this, zpow_add_one₀ (by norm_num : (2 : ℚ) ≠ 0)]
    push_cast; ring

/-! ### The cases of `round` -/

theorem round_zero : round 0 = fin 0 := by simp [round]

theorem round_pos_cases (q : ℚ) (hq : 0 < q) :
    (round q = posInf ∧ (2 : ℚ) ^ (1024 : ℕ) ≤ roundPos q) ∨
      (round q = fin (roundPos q) ∧ roundPos q < (2 : ℚ) ^ (1024 : ℕ)) := by
  unfold round
  rw [if_neg hq.ne', if_pos hq]
  split_ifs with h
  · exact Or.inl ⟨rfl, h⟩
  · exact Or.inr ⟨rfl, not_le.1 h⟩

theorem round_neg_cases (q : ℚ) (hq : q < 0) :
    (round q = negInf ∧ (2 : ℚ) ^ (1024 : ℕ) ≤ roundPos (-q)) ∨
      (round q = fin (-roundPos (-q)) ∧ roundPos (-q) < (2 : ℚ) ^ (1024 : ℕ)) := by
  unfold round
  rw [if_neg hq.ne, if_neg (not_lt.2 hq.le)]
  split_ifs with h
  · exact Or.inl ⟨rfl, h⟩
  · exact Or.inr ⟨rfl, not_le.1 h⟩

theorem round_ne_nan (q : ℚ) : round q ≠ nan := by
  rcases lt_trichotomy q 0 with h | h | h
  · rcases round_neg_cases q h with ⟨e, _⟩ | ⟨e, _⟩ <;> rw [e] <;> simp
  · subst h; rw [round_zero]; simp
  · rcases round_pos_cases q h with ⟨e, _⟩ | ⟨e, _⟩ <;> rw [e] <;> simp

/-- Rounding keeps the sign: a rational that is not negative rounds to `+Infinity` or to
a finite value that is not negative. -/
theorem round_nonneg (q : ℚ) (hq : 0 ≤ q) :
    round q = posInf ∨ ∃ v, round q = fin v ∧ 0 ≤ v := by
  rcases lt_or_eq_of_le hq with h | h
  · rcases round_pos_cases q h with ⟨e, _⟩ | ⟨e, _⟩
    · exact Or.inl e
    · exact Or.inr ⟨_, e, roundPos_nonneg q hq⟩
  · subst h; exact Or.inr ⟨0, round_zero, le_refl _⟩

theorem round_nonpos (q : ℚ) (hq : q ≤ 0) :
    round q = negInf ∨ ∃ v, round q = fin v ∧ v ≤ 0 := by
  rcases lt_or_eq_of_le hq with h | h
  · rcases round_neg_cases q h with ⟨e, _⟩ | ⟨e, _⟩
    · exact Or.inl e
    · exact Or.inr ⟨_, e, by
        have := roundPos_nonneg (-q) (by linarith)
        linarith⟩
  · subst h; exact Or.inr ⟨0, round_zero, le_refl _⟩

/-- Rounding is monotone: below a rational that rounds to a finite value, a rational
that is not negative rounds to a finite value that is not larger. -/
theorem round_mono_fin {p q v : ℚ} (hp : 0 ≤ p) (hpq : p ≤ q) (hq : round q = fin v) :
    ∃ u, round p = fin u ∧ 0 ≤ u ∧ u ≤ v := by
  rcases lt_or_eq_of_le hp with hp0 | hp0
  · have hq0 : 0 < q := lt_of_lt_of_le hp0 hpq
    have hmono := roundPos_mono hp0 hpq
    rcases round_pos_cases q hq0 with ⟨e, _⟩ | ⟨e, hlt⟩
    · rw [e] at hq; simp at hq
    · rw [e] at hq
      have hv : roundPos q = v := by simpa using hq
      rcases round_pos_cases p hp0 with ⟨_, hge⟩ | ⟨e', _⟩
      · exfalso; linarith
      · exact ⟨_, e', roundPos_nonneg p hp, by rw [← hv]; exact hmono⟩
  · subst hp0
    refine ⟨0, round_zero, le_refl _, ?_⟩
    rcases round_nonneg q hpq with e | ⟨w, e, hw⟩
    · rw [e] at hq; simp at hq
    · rw [e] at hq
      have : w = v := by simpa using hq
      rw [← this]; exact hw

/-- A double of magnitude below `2 ^ 1024` is a fixed point of `round`. -/
theorem round_of_rep {v : ℚ} (h : Rep v) (hv : |v| < (2 : ℚ) ^ (1024 : ℕ)) :
    round v = fin v := by
  rcases lt_trichotomy v 0 with h0 | h0 | h0
  · have hr := roundPos_of_rep (rep_neg h) (by linarith : 0 < -v)
    rcases round_neg_cases v h0 with ⟨_, hge⟩ | ⟨e, _⟩
    · rw [hr] at hge
      rw [abs_of_neg h0] at hv
      exfalso; linarith
    · rw [e, hr]; simp
  · subst h0; exact round_zero
  · have hr := roundPos_of_rep h h0
    rcases round_pos_cases v h0 with ⟨_, hge⟩ | ⟨e, _⟩
    · rw [hr] at hge
      rw [abs_of_pos h0] at hv
      exfalso; linarith
    · rw [e, hr]

/-- A finite result of `round` is a double. -/
theorem rep_of_round {q v : ℚ} (h : round q = fin v) : Rep v := by
  rcases lt_trichotomy q 0 with h0 | h0 | h0
  · rcases round_neg_cases q h0 with ⟨e, _⟩ | ⟨e, _⟩
    · rw [e] at h; simp at h
    · rw [e] at h
      have : -roundPos (-q) = v := by simpa using h
      rw [← this]
      exact rep_neg (rep_roundPos (-q) (by linarith))
  · subst h0
    rw [round_zero] at h
    have : (0 : ℚ) = v := by simpa using h
    rw [← this]; exact rep_zero
  · rcases round_pos_cases q h0 with ⟨e, _⟩ | ⟨e, _⟩
    · rw [e] at h; simp at h
    · rw [e] at h
      have : roundPos q = v := by simpa using h
      rw [← this]
      exact rep_roundPos q h0

/-- A finite result of `round` is a fixed point of `round`. -/
theorem round_round {q v : ℚ} (h : round q = fin v) : round v = fin v := by
  have hrep := rep_of_round h
  rcases lt_trichotomy q 0 with h0 | h0 | h0
  · rcases round_neg_cases q h0 with ⟨e, _⟩ | ⟨e, hlt⟩
    · rw [e] at h; simp at h
    · rw [e] at h
      have hv : -roundPos (-q) = v := by simpa using h
      apply round_of_rep hrep
      rw [← hv, abs_neg, abs_of_nonneg (roundPos_nonneg _ (by linarith))]
      exact hlt
  · subst h0
    rw [round_zero] at h
    have : (0 : ℚ) = v := by simpa using h
    rw [← this]; exact round_zero
  · rcases round_pos_cases q h0 with ⟨e, _⟩ | ⟨e, hlt⟩
    · rw [e] at h; simp at h
    · rw [e] at h
      have hv : roundPos q = v := by simpa using h
      apply round_of_rep hrep
      rw [← hv, abs_of_nonneg (roundPos_nonneg _ h0.le)]
      exact hlt

theorem round_one : round 1 = fin 1 :=
  round_of_rep ⟨1, 0, by norm_num, by norm_num, by simp⟩ (by norm_num)

/-! ### The gap between two doubles -/

/-- Every double is a multiple of the smallest subnormal, `2 ^ (-1074)`. -/
theorem rep_grid {v : ℚ} (h : Rep v) : ∃ n : ℤ, v = n * (2 : ℚ) ^ (-1074 : ℤ) := by
  obtain ⟨m, e, he, _, rfl⟩ := h
  obtain ⟨k, hk⟩ : ∃ k : ℕ, e = -1074 + k := ⟨(e + 1074).toNat, by omega⟩
  refine ⟨m * 2 ^ k, ?_⟩
  rw [hk, zpow_add₀ (by norm_num : (2 : ℚ) ≠ 0), zpow_natCast]
  push_cast; ring

/-- Two different doubles are at least `2 ^ (-1074)` apart. -/
theorem rep_gap {x y : ℚ} (hx : Rep x) (hy : Rep y) (h : x < y) :
    (2 : ℚ) ^ (-1074 : ℤ) ≤ y - x := by
  obtain ⟨n, rfl⟩ := rep_grid hx
  obtain ⟨k, rfl⟩ := rep_grid hy
  have hp := two_zpow_pos (-1074)
  have hnk : n < k := by
    have := (mul_lt_mul_right hp).1 h
    exact_mod_cast this
  have h1 : (1 : ℚ) ≤ (k : ℚ) - n := by
    have : (1 : ℤ) ≤ k - n := by omega
    exact_mod_cast this
  calc (2 : ℚ) ^ (-1074 : ℤ) = 1 * 2 ^ (-1074 : ℤ) := by ring
    _ ≤ ((k : ℚ) - n) * 2 ^ (-1074 : ℤ) := mul_le_mul_of_nonneg_right h1 hp.le
    _ = k * 2 ^ (-1074 : ℤ) - n * 2 ^ (-1074 : ℤ) := by ring

theorem round_min_subnormal : round ((2 : ℚ) ^ (-1074 : ℤ)) = fin ((2 : ℚ) ^ (-1074 : ℤ)) := by
  apply round_of_rep ⟨1, -1074, by norm_num, by norm_num, by simp⟩
  rw [abs_of_pos (two_zpow_pos _)]
  calc (2 : ℚ) ^ (-1074 : ℤ) ≤ 2 ^ (0 : ℤ) := two_zpow_le (by norm_num)
    _ < 2 ^ (1024 : ℕ) := by norm_num

/-- The difference of two different doubles does not round to zero: `y - x` is positive
as a number exactly when `x < y`. -/
theorem lt_zero_sub_iff {x y : ℚ} (hx : Rep x) (hy : Rep y) :
    lt (fin 0) (sub (fin y) (fin x)) = true ↔ x < y := by
  show lt (fin 0) (round (y - x)) = true ↔ x < y
  constructor
  · intro h
    by_contra hcon
    push_neg at hcon
    rcases round_nonpos (y - x) (by linarith) with e | ⟨v, e, hv⟩
    · rw [e] at h; simp [lt] at h
    · rw [e] at h
      simp only [lt, decide_eq_true_eq] at h
      linarith
  · intro h
    have hgap := rep_gap hx hy h
    rcases round_nonneg (y - x) (by linarith) with e | ⟨v, e, _⟩
    · rw [e]; rfl
    · obtain ⟨u, hu, _, huv⟩ := round_mono_fin (two_zpow_pos (-1074)).le hgap e
      rw [round_min_subnormal] at hu
      have hu' : (2 : ℚ) ^ (-1074 : ℤ) = u := by simpa using hu
      rw [e]
      simp only [lt, decide_eq_true_eq]
      have := two_zpow_pos (-1074)
      linarith

/-- The integer that `rne` picks is within 1/2 of its argument. -/
theorem rne_near (x : ℚ) : |(rne x : ℚ) - x| ≤ 1 / 2 := by
  have h1 : (⌊x⌋ : ℚ) ≤ x := Int.floor_le x
  have h2 : x < (⌊x⌋ : ℚ) + 1 := Int.lt_floor_add_one x
  unfold rne
  split_ifs with a b c
  · rw [abs_le]; constructor <;> linarith
  · push_cast; rw [abs_le]; constructor <;> linarith
  · have e : x - ⌊x⌋ = 1 / 2 := le_antisymm (not_lt.1 b) (not_lt.1 a)
    rw [abs_le]; constructor <;> linarith
  · have e : x - ⌊x⌋ = 1 / 2 := le_antisymm (not_lt.1 b) (not_lt.1 a)
    push_cast; rw [abs_le]; constructor <;> linarith

/-- Rounding is to nearest: the double picked for a positive rational is within half
a spacing of it. -/
theorem roundPos_near (q : ℚ) : |roundPos q - q| ≤ ulp q / 2 := by
  have hu := ulp_pos q
  have h := rne_near (q / ulp q)
  unfold roundPos
  have e : (rne (q / ulp q) : ℚ) * ulp q - q = ((rne (q / ulp q) : ℚ) - q / ulp q) * ulp q := by
    field_simp
  rw [e, abs_mul, abs_of_pos hu]
  calc |(rne (q / ulp q) : ℚ) - q / ulp q| * ulp q ≤ 1 / 2 * ulp q :=
        mul_le_mul_of_nonneg_right h hu.le
    _ = ulp q / 2 := by ring

end F64

/-! ## IoU -/

section
open F64

/-- The body of `iou` in terms of its named locals. -/
theorem iou_unfold (a b : Box) : iou a b = guardedDiv (interArea a b) (unionArea a b) := rfl

theorem sub_fin_fin (x y : ℚ) : F64.sub (F64.fin x) (F64.fin y) = F64.round (x - y) := rfl

theorem mathMax_zero_of_nonpos (q : ℚ) (hq : q ≤ 0) :
    F64.mathMax (F64.fin 0) (F64.round q) = F64.fin 0 := by
  rcases round_nonpos q hq with e | ⟨v, e, hv⟩
  · rw [e]; rfl
  · rw [e]; simp [F64.mathMax, hv]

theorem mathMax_zero_of_nonneg (q : ℚ) (hq : 0 ≤ q) :
    F64.mathMax (F64.fin 0) (F64.round q) = F64.round q := by
  rcases round_nonneg q hq with e | ⟨v, e, hv⟩
  · rw [e]; rfl
  · rw [e]; simp [F64.mathMax, hv]

theorem interW_of_nonpos (a b : Box) (h : min a.x2 b.x2 - max a.x1 b.x1 ≤ 0) :
    interW a b = F64.fin 0 := mathMax_zero_of_nonpos _ h

theorem interH_of_nonpos (a b : Box) (h : min a.y2 b.y2 - max a.y1 b.y1 ≤ 0) :
    interH a b = F64.fin 0 := mathMax_zero_of_nonpos _ h

theorem interW_of_nonneg (a b : Box) (h : 0 ≤ min a.x2 b.x2 - max a.x1 b.x1) :
    interW a b = F64.round (min a.x2 b.x2 - max a.x1 b.x1) := mathMax_zero_of_nonneg _ h

theorem interH_of_nonneg (a b : Box) (h : 0 ≤ min a.y2 b.y2 - max a.y1 b.y1) :
    interH a b = F64.round (min a.y2 b.y2 - max a.y1 b.y1) := mathMax_zero_of_nonneg _ h

/-- The clamped intersection width is `+Infinity` or a finite value that is not
negative. -/
theorem interW_cases (a b : Box) :
    interW a b = F64.posInf ∨ ∃ w, interW a b = F64.fin w ∧ 0 ≤ w := by
  rcases le_total (min a.x2 b.x2 - max a.x1 b.x1) 0 with h | h
  · exact Or.inr ⟨0, interW_of_nonpos a b h, le_refl _⟩
  · rw [interW_of_nonneg a b h]; exact round_nonneg _ h

theorem interH_cases (a b : Box) :
    interH a b = F64.posInf ∨ ∃ w, interH a b = F64.fin w ∧ 0 ≤ w := by
  rcases le_total (min a.y2 b.y2 - max a.y1 b.y1) 0 with h | h
  · exact Or.inr ⟨0, interH_of_nonpos a b h, le_refl _⟩
  · rw [interH_of_nonneg a b h]; exact round_nonneg _ h

theorem mul_fin_fin (x y : ℚ) : F64.mul (F64.fin x) (F64.fin y) = F64.round (x * y) := rfl

theorem add_fin_fin (x y : ℚ) : F64.add (F64.fin x) (F64.fin y) = F64.round (x + y) := rfl

theorem guardedDiv_zero_of_ne_nan (u : F64) (hu : u ≠ F64.nan) : guardedDiv (F64.fin 0) u = F64.fin 0 := by
  cases u with
  | nan => exact absurd rfl hu
  | posInf => rfl
  | negInf => rfl
  | fin q =>
    unfold guardedDiv
    by_cases h : q = 0
    · simp [F64.isZero, h]
    · simp [F64.isZero, h, F64.div, round_zero]

theorem guardedDiv_nan_right (i : F64) : guardedDiv i F64.nan = F64.nan := by
  cases i <;> rfl

theorem guardedDiv_zero_cases (u : F64) :
    guardedDiv (F64.fin 0) u = F64.fin 0 ∨ guardedDiv (F64.fin 0) u = F64.nan := by
  by_cases hu : u = F64.nan
  · subst hu; exact Or.inr rfl
  · exact Or.inl (guardedDiv_zero_of_ne_nan u hu)

/-- A zero intersection side makes the intersection area 0, or `NaN` when the other
side is infinite. -/
theorem interArea_cases_of_zero (a b : Box)
    (h : interW a b = F64.fin 0 ∨ interH a b = F64.fin 0) :
    interArea a b = F64.fin 0 ∨ interArea a b = F64.nan := by
  unfold interArea
  rcases h with h | h
  · rw [h]
    rcases interH_cases a b with e | ⟨w, e, _⟩
    · rw [e]; right; simp [F64.mul]
    · rw [e, mul_fin_fin, zero_mul, round_zero]; exact Or.inl rfl
  · rw [h]
    rcases interW_cases a b with e | ⟨w, e, _⟩
    · rw [e]; right; simp [F64.mul]
    · rw [e, mul_fin_fin, mul_zero, round_zero]; exact Or.inl rfl

theorem sub_nan_right (x : F64) : F64.sub x F64.nan = F64.nan := by cases x <;> rfl

theorem unionArea_of_inter_nan (a b : Box) (h : interArea a b = F64.nan) :
    unionArea a b = F64.nan := by
  unfold unionArea; rw [h, sub_nan_right]

/-- With intersection area 0 or `NaN` the result is 0 or `NaN`. -/
theorem iou_cases_of_inter (a b : Box)
    (h : interArea a b = F64.fin 0 ∨ interArea a b = F64.nan) :
    iou a b = F64.fin 0 ∨ iou a b = F64.nan := by
  rw [iou_unfold]
  rcases h with h | h
  · rw [h]; exact guardedDiv_zero_cases _
  · rw [unionArea_of_inter_nan a b h, guardedDiv_nan_right]; exact Or.inr rfl

theorem round_dom {p q : ℚ} (hp : 0 ≤ p) (hpq : p ≤ q) :
    F64.round q = F64.posInf ∨
      ∃ Q P, F64.round q = F64.fin Q ∧ F64.round p = F64.fin P ∧ 0 ≤ P ∧ P ≤ Q := by
  rcases round_nonneg q (le_trans hp hpq) with e | ⟨Q, e, _⟩
  · exact Or.inl e
  · obtain ⟨P, hP, h0, hle⟩ := round_mono_fin hp hpq e
    exact Or.inr ⟨Q, P, e, hP, h0, hle⟩

/-- The product of two sides dominates the product of two smaller sides, in double
arithmetic with its overflow. -/
theorem mul_dom {sw sh iw ih : F64}
    (hw : sw = F64.posInf ∨ ∃ W w, sw = F64.fin W ∧ iw = F64.fin w ∧ 0 ≤ w ∧ w ≤ W)
    (hh : sh = F64.posInf ∨ ∃ H h, sh = F64.fin H ∧ ih = F64.fin h ∧ 0 ≤ h ∧ h ≤ H)
    (ciw : iw = F64.posInf ∨ ∃ w, iw = F64.fin w ∧ 0 ≤ w)
    (cih : ih = F64.posInf ∨ ∃ h, ih = F64.fin h ∧ 0 ≤ h) :
    F64.mul iw ih = F64.fin 0 ∨ F64.mul iw ih = F64.nan ∨ F64.mul sw sh = F64.posInf ∨
      ∃ A i, F64.mul sw sh = F64.fin A ∧ F64.mul iw ih = F64.fin i ∧ 0 ≤ i ∧ i ≤ A := by
  rcases hw with rfl | ⟨W, w, rfl, rfl, hw0, hwW⟩
  · rcases hh with rfl | ⟨H, h, rfl, rfl, hh0, hhH⟩
    · exact Or.inr (Or.inr (Or.inl rfl))
    · rcases lt_or_eq_of_le (le_trans hh0 hhH) with hH | hH
      · right; right; left
        simp [F64.mul, hH.ne', hH]
      · have h0 : h = 0 := by linarith
        subst h0
        rcases ciw with rfl | ⟨w, rfl, _⟩
        · right; left; simp [F64.mul]
        · left; rw [mul_fin_fin, mul_zero, round_zero]
  · rcases hh with rfl | ⟨H, h, rfl, rfl, hh0, hhH⟩
    · rcases lt_or_eq_of_le (le_trans hw0 hwW) with hW | hW
      · right; right; left
        simp [F64.mul, hW.ne', hW]
      · have h0 : w = 0 := by linarith
        subst h0
        rcases cih with rfl | ⟨h, rfl, _⟩
        · right; left; simp [F64.mul]
        · left; rw [mul_fin_fin, zero_mul, round_zero]
    · rw [mul_fin_fin, mul_fin_fin]
      rcases round_dom (mul_nonneg hw0 hh0)
          (mul_le_mul hwW hhH hh0 (le_trans hw0 hwW)) with e | ⟨A, i, eA, ei, hi0, hiA⟩
      · exact Or.inr (Or.inr (Or.inl e))
      · exact Or.inr (Or.inr (Or.inr ⟨A, i, eA, ei, hi0, hiA⟩))

theorem sideW_dom_left (a b : Box) (h : 0 ≤ min a.x2 b.x2 - max a.x1 b.x1) :
    sideW a = F64.posInf ∨
      ∃ W w, sideW a = F64.fin W ∧ interW a b = F64.fin w ∧ 0 ≤ w ∧ w ≤ W := by
  rw [interW_of_nonneg a b h]
  exact round_dom h (by
    have h1 := min_le_left a.x2 b.x2
    have h2 := le_max_left a.x1 b.x1
    linarith)

theorem sideW_dom_right (a b : Box) (h : 0 ≤ min a.x2 b.x2 - max a.x1 b.x1) :
    sideW b = F64.posInf ∨
      ∃ W w, sideW b = F64.fin W ∧ interW a b = F64.fin w ∧ 0 ≤ w ∧ w ≤ W := by
  rw [interW_of_nonneg a b h]
  exact round_dom h (by
    have h1 := min_le_right a.x2 b.x2
    have h2 := le_max_right a.x1 b.x1
    linarith)

theorem sideH_dom_left (a b : Box) (h : 0 ≤ min a.y2 b.y2 - max a.y1 b.y1) :
    sideH a = F64.posInf ∨
      ∃ W w, sideH a = F64.fin W ∧ interH a b = F64.fin w ∧ 0 ≤ w ∧ w ≤ W := by
  rw [interH_of_nonneg a b h]
  exact round_dom h (by
    have h1 := min_le_left a.y2 b.y2
    have h2 := le_max_left a.y1 b.y1
    linarith)

theorem sideH_dom_right (a b : Box) (h : 0 ≤ min a.y2 b.y2 - max a.y1 b.y1) :
    sideH b = F64.posInf ∨
      ∃ W w, sideH b = F64.fin W ∧ interH a b = F64.fin w ∧ 0 ≤ w ∧ w ≤ W := by
  rw [interH_of_nonneg a b h]
  exact round_dom h (by
    have h1 := min_le_right a.y2 b.y2
    have h2 := le_max_right a.y1 b.y1
    linarith)

/-- Each box area dominates the intersection area: the intersection area is 0 or `NaN`,
or the box area is `+Infinity`, or both are finite with the intersection not larger. -/
theorem boxArea_dom (a b : Box) :
    interArea a b = F64.fin 0 ∨ interArea a b = F64.nan ∨
      ((boxArea a = F64.posInf ∨
          ∃ A i, boxArea a = F64.fin A ∧ interArea a b = F64.fin i ∧ 0 ≤ i ∧ i ≤ A) ∧
        (boxArea b = F64.posInf ∨
          ∃ B i, boxArea b = F64.fin B ∧ interArea a b = F64.fin i ∧ 0 ≤ i ∧ i ≤ B)) := by
  rcases le_or_lt (min a.x2 b.x2 - max a.x1 b.x1) 0 with hW | hW
  · rcases interArea_cases_of_zero a b (Or.inl (interW_of_nonpos a b hW)) with e | e
    · exact Or.inl e
    · exact Or.inr (Or.inl e)
  rcases le_or_lt (min a.y2 b.y2 - max a.y1 b.y1) 0 with hH | hH
  · rcases interArea_cases_of_zero a b (Or.inr (interH_of_nonpos a b hH)) with e | e
    · exact Or.inl e
    · exact Or.inr (Or.inl e)
  have ha := mul_dom (sideW_dom_left a b hW.le) (sideH_dom_left a b hH.le)
    (interW_cases a b) (interH_cases a b)
  have hb := mul_dom (sideW_dom_right a b hW.le) (sideH_dom_right a b hH.le)
    (interW_cases a b) (interH_cases a b)
  rcases ha with e | e | ha
  · exact Or.inl e
  · exact Or.inr (Or.inl e)
  rcases hb with e | e | hb
  · exact Or.inl e
  · exact Or.inr (Or.inl e)
  exact Or.inr (Or.inr ⟨ha, hb⟩)

theorem mul_eq_fin {x y : F64} {A : ℚ} (h : F64.mul x y = F64.fin A) :
    ∃ W H, x = F64.fin W ∧ y = F64.fin H ∧ F64.round (W * H) = F64.fin A := by
  cases x <;> cases y <;> simp only [F64.mul] at h <;>
    first
    | exact ⟨_, _, rfl, rfl, h⟩
    | exact F64.noConfusion h
    | split_ifs at h

theorem rep_of_mul {x y : F64} {A : ℚ} (h : F64.mul x y = F64.fin A) : Rep A := by
  obtain ⟨_, _, _, _, e⟩ := mul_eq_fin h
  exact rep_of_round e

/-- A positive double that rounds to a finite value rounds to itself. -/
theorem round_eq_of_rep_pos {v P : ℚ} (hr : Rep v) (hv : 0 < v) (h : F64.round v = F64.fin P) :
    P = v := by
  rcases round_pos_cases v hv with ⟨e, _⟩ | ⟨e, _⟩
  · rw [e] at h; simp at h
  · rw [e, roundPos_of_rep hr hv] at h
    have : v = P := by simpa using h
    exact this.symm

theorem sub_fin_ne_nan {x : F64} (hx : x ≠ F64.nan) (i : ℚ) : F64.sub x (F64.fin i) ≠ F64.nan := by
  cases x with
  | nan => exact absurd rfl hx
  | posInf => simp [F64.sub]
  | negInf => simp [F64.sub]
  | fin q => exact round_ne_nan _

theorem add_fin_ne_nan (A B : ℚ) : F64.add (F64.fin A) (F64.fin B) ≠ F64.nan := round_ne_nan _

theorem guardedDiv_posInf (i : ℚ) : guardedDiv (F64.fin i) F64.posInf = F64.fin 0 := rfl

theorem guardedDiv_fin_fin (i u : ℚ) (hu : u ≠ 0) :
    guardedDiv (F64.fin i) (F64.fin u) = F64.round (i / u) := by
  simp [guardedDiv, F64.isZero, hu, F64.div]

/-- The last steps of `iou` for finite areas `A`, `B` that dominate a positive finite
intersection area `i`. -/
theorem guardedDiv_unit_of_dom {A B i : ℚ} (hi : 0 < i) (hrep : Rep i) (hA : i ≤ A) (hB : i ≤ B) :
    ∃ r, guardedDiv (F64.fin i) (F64.sub (F64.add (F64.fin A) (F64.fin B)) (F64.fin i)) = F64.fin r ∧
      0 ≤ r ∧ r ≤ 1 := by
  rw [add_fin_fin]
  rcases round_dom (by linarith : (0 : ℚ) ≤ 2 * i) (by linarith : 2 * i ≤ A + B) with
    e | ⟨s, P, es, eP, _, hPs⟩
  · rw [e]
    exact ⟨0, rfl, le_refl _, by norm_num⟩
  · have hP : P = 2 * i := round_eq_of_rep_pos (rep_double hrep) (by linarith) eP
    rw [es, sub_fin_fin]
    rcases round_dom hi.le (by linarith : i ≤ s - i) with e | ⟨U, P', eU, eP', _, hPU⟩
    · rw [e]
      exact ⟨0, rfl, le_refl _, by norm_num⟩
    · have hP' : P' = i := round_eq_of_rep_pos hrep hi eP'
      have hU : 0 < U := by linarith
      rw [eU, guardedDiv_fin_fin i U hU.ne']
      obtain ⟨r, hr, h0, h1⟩ := round_mono_fin (div_nonneg hi.le hU.le)
        ((div_le_one hU).2 (by linarith)) round_one
      exact ⟨r, hr, h0, h1⟩

theorem interArea_cases (a b : Box) :
    interArea a b = F64.nan ∨ interArea a b = F64.posInf ∨
      ∃ i, interArea a b = F64.fin i ∧ 0 ≤ i := by
  unfold interArea
  rcases interW_cases a b with e | ⟨w, e, hw⟩ <;> rcases interH_cases a b with e' | ⟨h, e', hh⟩ <;>
    rw [e, e']
  · exact Or.inr (Or.inl rfl)
  · rcases lt_or_eq_of_le hh with h0 | h0
    · right; left; simp [F64.mul, h0.ne', h0]
    · left; subst h0; simp [F64.mul]
  · rcases lt_or_eq_of_le hw with h0 | h0
    · right; left; simp [F64.mul, h0.ne', h0]
    · left; subst h0; simp [F64.mul]
  · rw [mul_fin_fin]
    rcases round_nonneg (w * h) (mul_nonneg hw hh) with e2 | ⟨v, e2, hv⟩
    · exact Or.inr (Or.inl e2)
    · exact Or.inr (Or.inr ⟨v, e2, hv⟩)

/-- C1, as the code has it: for every pair of boxes with finite coordinates, malformed
boxes included, `iou` returns `NaN` or a number between 0 and 1. -/
theorem iou_nan_or_unit (boxA boxB : Box) :
    iou boxA boxB = F64.nan ∨ ∃ r, iou boxA boxB = F64.fin r ∧ 0 ≤ r ∧ r ≤ 1 := by
  have hzero : (iou boxA boxB = F64.fin 0 ∨ iou boxA boxB = F64.nan) →
      iou boxA boxB = F64.nan ∨ ∃ r, iou boxA boxB = F64.fin r ∧ 0 ≤ r ∧ r ≤ 1 := by
    rintro (e | e)
    · exact Or.inr ⟨0, e, le_refl _, by norm_num⟩
    · exact Or.inl e
  rcases boxArea_dom boxA boxB with e | e | ⟨ha, hb⟩
  · exact hzero (iou_cases_of_inter _ _ (Or.inl e))
  · exact hzero (iou_cases_of_inter _ _ (Or.inr e))
  rw [iou_unfold]
  unfold unionArea
  rcases ha with ea | ⟨A, i, ea, ei, hi0, hiA⟩
  · -- the area of the first box overflows
    have hsum : F64.add (boxArea boxA) (boxArea boxB) = F64.posInf := by
      rcases hb with eb | ⟨B, _, eb, _, _, _⟩ <;> rw [ea, eb] <;> rfl
    rw [hsum]
    rcases interArea_cases boxA boxB with e | e | ⟨i, e, _⟩ <;> rw [e]
    · exact Or.inl rfl
    · exact Or.inl rfl
    · exact Or.inr ⟨0, rfl, le_refl _, by norm_num⟩
  rcases hb with eb | ⟨B, i', eb, ei', _, hiB⟩
  · have hsum : F64.add (boxArea boxA) (boxArea boxB) = F64.posInf := by
      rw [ea, eb]; rfl
    rw [hsum, ei]
    exact Or.inr ⟨0, rfl, le_refl _, by norm_num⟩
  have hii : i' = i := by
    rw [ei] at ei'
    have : i = i' := by simpa using ei'
    exact this.symm
  subst hii
  rcases lt_or_eq_of_le hi0 with hpos | h0
  · rw [ea, eb, ei]
    exact Or.inr (guardedDiv_unit_of_dom hpos (rep_of_mul ei) hiA hiB)
  · subst h0
    have := iou_cases_of_inter boxA boxB (Or.inl ei)
    rw [iou_unfold] at this
    unfold unionArea at this
    exact hzero this

theorem interW_fin_of_sideW_fin (a b : Box) {W : ℚ} (h : sideW a = F64.fin W) :
    ∃ w, interW a b = F64.fin w ∧ 0 ≤ w := by
  rcases le_or_lt (min a.x2 b.x2 - max a.x1 b.x1) 0 with hW | hW
  · exact ⟨0, interW_of_nonpos a b hW, le_refl _⟩
  · rcases sideW_dom_left a b hW.le with e | ⟨_, w, _, e, hw, _⟩
    · rw [e] at h; simp at h
    · exact ⟨w, e, hw⟩

theorem interH_fin_of_sideH_fin (a b : Box) {H : ℚ} (h : sideH a = F64.fin H) :
    ∃ w, interH a b = F64.fin w ∧ 0 ≤ w := by
  rcases le_or_lt (min a.y2 b.y2 - max a.y1 b.y1) 0 with hW | hW
  · exact ⟨0, interH_of_nonpos a b hW, le_refl _⟩
  · rcases sideH_dom_left a b hW.le with e | ⟨_, w, _, e, hw, _⟩
    · rw [e] at h; simp at h
    · exact ⟨w, e, hw⟩

/-- When the area of the first box is finite, so is the intersection area. -/
theorem interArea_fin_of_boxArea_fin (a b : Box) {A : ℚ} (hA : boxArea a = F64.fin A) :
    ∃ i, interArea a b = F64.fin i ∧ 0 ≤ i := by
  obtain ⟨W, H, eW, eH, _⟩ := mul_eq_fin hA
  obtain ⟨w, ew, _⟩ := interW_fin_of_sideW_fin a b eW
  obtain ⟨h, eh, _⟩ := interH_fin_of_sideH_fin a b eH
  rcases boxArea_dom a b with e | e | ⟨ha, _⟩
  · exact ⟨0, e, le_refl _⟩
  · exfalso
    unfold interArea at e
    rw [ew, eh, mul_fin_fin] at e
    exact round_ne_nan _ e
  · rcases ha with e | ⟨_, i, _, ei, hi, _⟩
    · rw [e] at hA; simp at hA
    · exact ⟨i, ei, hi⟩

theorem unionArea_ne_nan_of_fin (a b : Box) {A B : ℚ} (hA : boxArea a = F64.fin A)
    (hB : boxArea b = F64.fin B) : unionArea a b ≠ F64.nan := by
  obtain ⟨i, ei, _⟩ := interArea_fin_of_boxArea_fin a b hA
  unfold unionArea
  rw [hA, hB, ei]
  exact sub_fin_ne_nan (add_fin_ne_nan A B) i

theorem guardedDiv_fin_ne_nan (i : ℚ) {u : F64} (hu : u ≠ F64.nan) : guardedDiv (F64.fin i) u ≠ F64.nan := by
  cases u with
  | nan => exact absurd rfl hu
  | posInf => simp [guardedDiv, F64.isZero, F64.div]
  | negInf => simp [guardedDiv, F64.isZero, F64.div]
  | fin q =>
    by_cases h : q = 0
    · simp [guardedDiv, F64.isZero, h]
    · rw [guardedDiv_fin_fin i q h]; exact round_ne_nan _

/-- When neither box area overflows, `iou` does not return `NaN`. -/
theorem iou_ne_nan_of_fin (a b : Box) {A B : ℚ} (hA : boxArea a = F64.fin A)
    (hB : boxArea b = F64.fin B) : iou a b ≠ F64.nan := by
  obtain ⟨i, ei, _⟩ := interArea_fin_of_boxArea_fin a b hA
  rw [iou_unfold, ei]
  exact guardedDiv_fin_ne_nan i (unionArea_ne_nan_of_fin a b hA hB)

/-- With a zero intersection side and finite box areas the result is 0. -/
theorem iou_zero_of_side_zero (a b : Box) {A B : ℚ} (hA : boxArea a = F64.fin A)
    (hB : boxArea b = F64.fin B) (h : interW a b = F64.fin 0 ∨ interH a b = F64.fin 0) :
    iou a b = F64.fin 0 := by
  rcases iou_cases_of_inter a b (interArea_cases_of_zero a b h) with e | e
  · exact e
  · exact absurd e (iou_ne_nan_of_fin a b hA hB)

theorem F64_add_comm (x y : F64) : F64.add x y = F64.add y x := by
  cases x <;> cases y <;> simp only [F64.add]
  rw [add_comm]

/-- C1, as the code has it: for every pair of boxes with finite coordinates, malformed
boxes included, `iou` returns `NaN` or a number `r` with `0 ≤ r ≤ 1`; and it returns
such a number, not `NaN`, whenever neither box area overflows, that is when
`boxAArea` and `boxBArea` are finite. -/
theorem iou_mem_unit_interval (boxA boxB : Box) :
    (iou boxA boxB = F64.nan ∨ ∃ r, iou boxA boxB = F64.fin r ∧ 0 ≤ r ∧ r ≤ 1) ∧
      ((boxArea boxA).isFinite = true → (boxArea boxB).isFinite = true →
        ∃ r, iou boxA boxB = F64.fin r ∧ 0 ≤ r ∧ r ≤ 1) := by
  refine ⟨iou_nan_or_unit boxA boxB, fun hA hB => ?_⟩
  cases eA : boxArea boxA with
  | fin A =>
    cases eB : boxArea boxB with
    | fin B =>
      rcases iou_nan_or_unit boxA boxB with e | e
      · exact absurd e (iou_ne_nan_of_fin boxA boxB eA eB)
      · exact e
    | nan => rw [eB] at hB; simp [F64.isFinite] at hB
    | posInf => rw [eB] at hB; simp [F64.isFinite] at hB
    | negInf => rw [eB] at hB; simp [F64.isFinite] at hB
  | nan => rw [eA] at hA; simp [F64.isFinite] at hA
  | posInf => rw [eA] at hA; simp [F64.isFinite] at hA
  | negInf => rw [eA] at hA; simp [F64.isFinite] at hA

/-- C1 on the boxes of scenarios A and B, (0,0)-(10,10) and (1,1)-(11,11): both areas
are finite and the IoU is a number between 0 and 1. -/
theorem iou_mem_unit_interval_witness :
    ((boxArea scenarioA).isFinite = true ∧ (boxArea scenarioB).isFinite = true) ∧
      ∃ r, iou scenarioA scenarioB = F64.fin r ∧ 0 ≤ r ∧ r ≤ 1 :=
  ⟨⟨by decide!, by decide!⟩,
    (iou_mem_unit_interval scenarioA scenarioB).2 (by decide!) (by decide!)⟩

/-- C1 as stated fails at the box (0,0)-(2^600,2^600) taken twice: both areas and the
intersection area overflow to `+Infinity`, the union is `Infinity - Infinity`, and `iou`
returns `NaN`. -/
theorem iou_overflow_nan :
    iou ⟨0, 0, 2 ^ 600, 2 ^ 600, 1, "a"⟩ ⟨0, 0, 2 ^ 600, 2 ^ 600, 1, "a"⟩ = F64.nan := by
  decide!

/-- C2, as the code has it: a box with `x1 < x2` and `y1 < y2` has IoU 1 with itself
when its area, as the code computes it, is finite, is not zero (no underflow) and is
below `2 ^ 1023`, so that the sum of the two areas does not overflow. -/
theorem iou_self (a : Box) (hx : a.x1 < a.x2) (hy : a.y1 < a.y2) (v : ℚ)
    (hv : boxArea a = F64.fin v) (h0 : v ≠ 0) (h1 : v < 2 ^ 1023) :
    iou a a = F64.fin 1 := by
  have hW : interW a a = sideW a := by
    have := interW_of_nonneg a a (by rw [min_self, max_self]; linarith)
    rw [min_self, max_self] at this
    exact this
  have hH : interH a a = sideH a := by
    have := interH_of_nonneg a a (by rw [min_self, max_self]; linarith)
    rw [min_self, max_self] at this
    exact this
  have hI : interArea a a = F64.fin v := by
    unfold interArea; rw [hW, hH]; exact hv
  have hrep : Rep v := rep_of_mul hv
  have hpos : 0 < v := by
    rcases interArea_cases a a with e | e | ⟨i, e, hi⟩
    · rw [hI] at e; simp at e
    · rw [hI] at e; simp at e
    · rw [hI] at e
      have : v = i := by simpa using e
      rw [← this] at hi
      exact lt_of_le_of_ne hi (Ne.symm h0)
  have h2 : F64.round (v + v) = F64.fin (v + v) := by
    have e : v + v = 2 * v := by ring
    rw [e]
    apply round_of_rep (rep_double hrep)
    rw [abs_of_pos (by linarith)]
    calc 2 * v < 2 * 2 ^ 1023 := by linarith
      _ = 2 ^ (1024 : ℕ) := by norm_num
  have h3 : F64.round (v + v - v) = F64.fin v := by
    have e : v + v - v = v := by ring
    rw [e]
    apply round_of_rep hrep
    rw [abs_of_pos hpos]
    calc v < 2 ^ 1023 := h1
      _ < 2 ^ (1024 : ℕ) := by norm_num
  rw [iou_unfold]
  unfold unionArea
  rw [hI, hv, add_fin_fin, h2, sub_fin_fin, h3, guardedDiv_fin_fin v v h0, div_self h0]
  exact round_one

/-- C2 at the box (0,0)-(10,10), whose area 100 is exact. -/
theorem iou_self_witness :
    (((0 : ℚ) < 10 ∧ (0 : ℚ) < 10) ∧
      boxArea ⟨0, 0, 10, 10, 9 / 10, "person"⟩ = F64.fin 100 ∧ (100 : ℚ) ≠ 0 ∧
        (100 : ℚ) < 2 ^ 1023) ∧
      iou ⟨0, 0, 10, 10, 9 / 10, "person"⟩ ⟨0, 0, 10, 10, 9 / 10, "person"⟩ = F64.fin 1 :=
  ⟨⟨⟨by norm_num, by norm_num⟩, by decide!, by norm_num, by norm_num⟩,
    iou_self ⟨0, 0, 10, 10, 9 / 10, "person"⟩ (by norm_num) (by norm_num) 100 (by decide!)
      (by norm_num) (by norm_num)⟩

/-- C2 as stated fails at the non-degenerate box (0,0)-(2^-600,2^-600): its area
underflows to 0, the `union === 0` guard fires and `iou` returns 0; at the box
(0,0)-(2^600,2^600) the area overflows and `iou` returns `NaN`. -/
theorem iou_self_underflow :
    ((0 : ℚ) < 1 / 2 ^ 600) ∧
      iou ⟨0, 0, 1 / 2 ^ 600, 1 / 2 ^ 600, 1, "a"⟩ ⟨0, 0, 1 / 2 ^ 600, 1 / 2 ^ 600, 1, "a"⟩ =
        F64.fin 0 ∧
      iou ⟨0, 0, 2 ^ 600, 2 ^ 600, 1, "b"⟩ ⟨0, 0, 2 ^ 600, 2 ^ 600, 1, "b"⟩ = F64.nan :=
  ⟨by positivity, by decide!, by decide!⟩

/-- C3: `iou` is symmetric in its two boxes, well-formed or not. -/
theorem iou_comm (a b : Box) : iou a b = iou b a := by
  have hw : interW a b = interW b a := by
    unfold interW; rw [min_comm, max_comm a.x1]
  have hh : interH a b = interH b a := by
    unfold interH; rw [min_comm, max_comm a.y1]
  have hi : interArea a b = interArea b a := by
    unfold interArea; rw [hw, hh]
  have hu : unionArea a b = unionArea b a := by
    unfold unionArea
    rw [hi, F64_add_comm]
  rw [iou_unfold, iou_unfold, hi, hu]

/-- C4, as the code has it: when the boxes are disjoint (the smaller `x2` is at most the
larger `x1`, or likewise in `y`), when either box has width or height at most 0, and
when the union area is 0, `iou` returns 0 or `NaN`, and it returns 0 whenever neither
box area overflows; with a union area of 0 it returns 0 in any case. -/
theorem iou_zero_of_disjoint_or_degenerate (a b : Box)
    (h : (min a.x2 b.x2 ≤ max a.x1 b.x1 ∨ min a.y2 b.y2 ≤ max a.y1 b.y1) ∨
      (a.x2 - a.x1 ≤ 0 ∨ a.y2 - a.y1 ≤ 0) ∨ (b.x2 - b.x1 ≤ 0 ∨ b.y2 - b.y1 ≤ 0) ∨
      (unionArea a b).isZero = true) :
    (iou a b = F64.fin 0 ∨ iou a b = F64.nan) ∧
      ((boxArea a).isFinite = true → (boxArea b).isFinite = true → iou a b = F64.fin 0) ∧
      ((unionArea a b).isZero = true → iou a b = F64.fin 0) := by
  have hguard : (unionArea a b).isZero = true → iou a b = F64.fin 0 := by
    intro hz
    rw [iou_unfold]; unfold guardedDiv; rw [if_pos hz]
  have hside : (interW a b = F64.fin 0 ∨ interH a b = F64.fin 0) →
      (iou a b = F64.fin 0 ∨ iou a b = F64.nan) ∧
      ((boxArea a).isFinite = true → (boxArea b).isFinite = true → iou a b = F64.fin 0) ∧
      ((unionArea a b).isZero = true → iou a b = F64.fin 0) := by
    intro hs
    refine ⟨iou_cases_of_inter a b (interArea_cases_of_zero a b hs), fun hA hB => ?_, hguard⟩
    cases eA : boxArea a with
    | fin A =>
      cases eB : boxArea b with
      | fin B => exact iou_zero_of_side_zero a b eA eB hs
      | nan => rw [eB] at hB; simp [F64.isFinite] at hB
      | posInf => rw [eB] at hB; simp [F64.isFinite] at hB
      | negInf => rw [eB] at hB; simp [F64.isFinite] at hB
    | nan => rw [eA] at hA; simp [F64.isFinite] at hA
    | posInf => rw [eA] at hA; simp [F64.isFinite] at hA
    | negInf => rw [eA] at hA; simp [F64.isFinite] at hA
  have h1 := min_le_left a.x2 b.x2
  have h2 := le_max_left a.x1 b.x1
  have h3 := min_le_left a.y2 b.y2
  have h4 := le_max_left a.y1 b.y1
  have h5 := min_le_right a.x2 b.x2
  have h6 := le_max_right a.x1 b.x1
  have h7 := min_le_right a.y2 b.y2
  have h8 := le_max_right a.y1 b.y1
  rcases h with (h | h) | (h | h) | (h | h) | h
  · exact hside (Or.inl (interW_of_nonpos a b (by linarith)))
  · exact hside (Or.inr (interH_of_nonpos a b (by linarith)))
  · exact hside (Or.inl (interW_of_nonpos a b (by linarith)))
  · exact hside (Or.inr (interH_of_nonpos a b (by linarith)))
  · exact hside (Or.inl (interW_of_nonpos a b (by linarith)))
  · exact hside (Or.inr (interH_of_nonpos a b (by linarith)))
  · exact ⟨Or.inl (hguard h), fun _ _ => hguard h, hguard⟩

/-- C4 at two boxes that are apart in `x`: (0,0)-(10,10) and (20,0)-(30,10). -/
theorem iou_zero_of_disjoint_or_degenerate_witness :
    (min (10 : ℚ) 30 ≤ max 0 20) ∧
      iou ⟨0, 0, 10, 10, 1, "a"⟩ ⟨20, 0, 30, 10, 1, "b"⟩ = F64.fin 0 :=
  ⟨by norm_num,
    ((iou_zero_of_disjoint_or_degenerate ⟨0, 0, 10, 10, 1, "a"⟩ ⟨20, 0, 30, 10, 1, "b"⟩
      (Or.inl (Or.inl (by norm_num)))).2.1 (by decide!) (by decide!))⟩

/-- C4 as stated fails at (0,0)-(2^600,2^600) and (2^600,0)-(0,2^600), the second of
width `-2^600 ≤ 0`: the areas are `+Infinity` and `-Infinity`, their sum is `NaN`, and
`iou` returns `NaN`, not 0. -/
theorem iou_degenerate_nan :
    ((0 : ℚ) - 2 ^ 600 ≤ 0) ∧
      iou ⟨0, 0, 2 ^ 600, 2 ^ 600, 1, "a"⟩ ⟨2 ^ 600, 0, 0, 2 ^ 600, 1, "b"⟩ = F64.nan :=
  ⟨by norm_num, by decide!⟩

end

/-! ## The steps of `update` -/

theorem newTracks_length (n fc : ℤ) (ds : List Box) : (newTracks n fc ds).length = ds.length := by
  induction ds generalizing n with
  | nil => rfl
  | cons d ds ih => simp [newTracks, ih]

theorem mem_newTracks {n fc : ℤ} {ds : List Box} {t : Track} (h : t ∈ newTracks n fc ds) :
    n ≤ t.id ∧ t.id < n + ds.length ∧ t.age = 0 ∧ t.hits = 1 ∧ t.lastSeenFrame = fc := by
  induction ds generalizing n with
  | nil => simp [newTracks] at h
  | cons d ds ih =>
    simp only [newTracks, List.mem_cons] at h
    rcases h with h | h
    · subst h; simp
    · have := ih h
      simp only [List.length_cons, Nat.cast_add, Nat.cast_one]
      omega

theorem newTracks_ids_pairwise (n fc : ℤ) (ds : List Box) :
    ((newTracks n fc ds).map Track.id).Pairwise (· < ·) := by
  induction ds generalizing n with
  | nil => simp [newTracks]
  | cons d ds ih =>
    simp only [newTracks, List.map_cons, List.pairwise_cons, List.mem_map]
    refine ⟨?_, ih _⟩
    rintro _ ⟨t, ht, rfl⟩
    have := (mem_newTracks ht).1
    omega

theorem createTracks_eq (s : SimpleTracker) (detections : List Box) (u : List Nat) :
    createTracks s detections u =
      { s with
        tracks := s.tracks ++ newTracks s._nextId s._frameCount (unmatchedBoxes detections u),
        _nextId := s._nextId + (unmatchedBoxes detections u).length } := by
  induction u generalizing s with
  | nil => simp [createTracks, unmatchedBoxes, newTracks]
  | cons j u ih =>
    have hstep : createTracks s detections (j :: u) =
        createTracks (match detections[j]? with
          | some det => s._createTrack det
          | none => s) detections u := rfl
    rw [hstep, ih]
    cases hj : detections[j]? with
    | none => simp [unmatchedBoxes, hj]
    | some det =>
      simp [unmatchedBoxes, hj, SimpleTracker._createTrack, newTracks]
      ring

theorem applyMatch_length (fc : ℤ) (dets : List Box) (ts : List Track) (m : Nat × Nat) :
    (applyMatch fc dets ts m).length = ts.length := by
  unfold applyMatch; split <;> simp

theorem applyMatches_length (fc : ℤ) (dets : List Box) (ts : List Track) (ms : List (Nat × Nat)) :
    (applyMatches fc dets ts ms).length = ts.length := by
  induction ms generalizing ts with
  | nil => rfl
  | cons m ms ih =>
    show (applyMatches fc dets (applyMatch fc dets ts m) ms).length = ts.length
    rw [ih, applyMatch_length]

theorem applyMatch_getElem?_ne (fc : ℤ) (dets : List Box) (ts : List Track) (m : Nat × Nat)
    (k : Nat) (h : m.1 ≠ k) : (applyMatch fc dets ts m)[k]? = ts[k]? := by
  unfold applyMatch; split
  · exact List.getElem?_modify_ne _ _ h
  · rfl

theorem applyMatch_getElem?_eq (fc : ℤ) (dets : List Box) (ts : List Track) (k j : Nat)
    (hj : j < dets.length) :
    (applyMatch fc dets ts (k, j))[k]? = ts[k]?.map (touchTrack fc dets[j]) := by
  unfold applyMatch
  simp [List.getElem?_eq_getElem hj]

/-- A track whose index is in no match is left as it was. -/
theorem applyMatches_getElem?_of_not_mem (fc : ℤ) (dets : List Box) (ts : List Track)
    (ms : List (Nat × Nat)) (k : Nat) (h : k ∉ ms.map Prod.fst) :
    (applyMatches fc dets ts ms)[k]? = ts[k]? := by
  induction ms generalizing ts with
  | nil => rfl
  | cons m ms ih =>
    simp only [List.map_cons, List.mem_cons, not_or] at h
    show (applyMatches fc dets (applyMatch fc dets ts m) ms)[k]? = ts[k]?
    rw [ih _ h.2, applyMatch_getElem?_ne _ _ _ _ _ (Ne.symm h.1)]

/-- A track matched to detection `j` is touched once with that detection, when no track
index occurs in two matches. -/
theorem applyMatches_getElem?_of_mem (fc : ℤ) (dets : List Box) (ts : List Track)
    (ms : List (Nat × Nat)) (k j : Nat) (hnd : (ms.map Prod.fst).Nodup)
    (hm : (k, j) ∈ ms) (hj : j < dets.length) :
    (applyMatches fc dets ts ms)[k]? = ts[k]?.map (touchTrack fc dets[j]) := by
  induction ms generalizing ts with
  | nil => simp at hm
  | cons m ms ih =>
    simp only [List.map_cons, List.nodup_cons] at hnd
    show (applyMatches fc dets (applyMatch fc dets ts m) ms)[k]? = _
    rcases List.mem_cons.1 hm with h | h
    · subst h
      rw [applyMatches_getElem?_of_not_mem _ _ _ _ _ hnd.1, applyMatch_getElem?_eq _ _ _ _ _ hj]
    · have hne : m.1 ≠ k := by
        rintro rfl
        exact hnd.1 (List.mem_map.2 ⟨(m.1, j), h, rfl⟩)
      rw [ih _ hnd.2 h, applyMatch_getElem?_ne _ _ _ _ _ hne]

/-- The matching loop moves indices from the unmatched sets into `matched`; it neither
loses nor duplicates one. -/
theorem greedyLoop_perm (thr : ℚ) (ps : List Pair) (s : MatchState) :
    ((greedyLoop thr ps s).matched.map Prod.fst ++ (greedyLoop thr ps s).unmatchedTracks).Perm
        (s.matched.map Prod.fst ++ s.unmatchedTracks) ∧
      ((greedyLoop thr ps s).matched.map Prod.snd ++
          (greedyLoop thr ps s).unmatchedDetections).Perm
        (s.matched.map Prod.snd ++ s.unmatchedDetections) := by
  induction ps generalizing s with
  | nil => exact ⟨List.Perm.refl _, List.Perm.refl _⟩
  | cons p ps ih =>
    unfold greedyLoop
    split_ifs with h1 h2
    · exact ⟨List.Perm.refl _, List.Perm.refl _⟩
    · obtain ⟨ia, ib⟩ := ih
        { matched := s.matched ++ [(p.i, p.j)],
          unmatchedTracks := s.unmatchedTracks.erase p.i,
          unmatchedDetections := s.unmatchedDetections.erase p.j }
      constructor
      · refine ia.trans ?_
        simp only [List.map_append, List.map_cons, List.map_nil, List.append_assoc,
          List.singleton_append]
        exact List.Perm.append_left _ (List.perm_cons_erase h2.1).symm
      · refine ib.trans ?_
        simp only [List.map_append, List.map_cons, List.map_nil, List.append_assoc,
          List.singleton_append]
        exact List.Perm.append_left _ (List.perm_cons_erase h2.2).symm
    · exact ih s

/-- After the matching pass every track index is either matched once or still unmatched,
and likewise every detection index. -/
theorem greedyMatch_perm (s : SimpleTracker) (dets : List Box) :
    ((greedyMatch s dets).matched.map Prod.fst ++ (greedyMatch s dets).unmatchedTracks).Perm
        (List.range s.tracks.length) ∧
      ((greedyMatch s dets).matched.map Prod.snd ++
          (greedyMatch s dets).unmatchedDetections).Perm (List.range dets.length) := by
  unfold greedyMatch
  split_ifs with h
  · exact greedyLoop_perm _ _ _
  · exact ⟨List.Perm.refl _, List.Perm.refl _⟩

theorem greedyMatch_fst_nodup (s : SimpleTracker) (dets : List Box) :
    ((greedyMatch s dets).matched.map Prod.fst).Nodup :=
  (List.nodup_append.1 ((greedyMatch_perm s dets).1.nodup_iff.2 (List.nodup_range _))).1

theorem greedyMatch_mem_lt (s : SimpleTracker) (dets : List Box) {m : Nat × Nat}
    (hm : m ∈ (greedyMatch s dets).matched) : m.1 < s.tracks.length ∧ m.2 < dets.length := by
  constructor
  · have : m.1 ∈ List.range s.tracks.length :=
      (greedyMatch_perm s dets).1.subset
        (List.mem_append_left _ (List.mem_map.2 ⟨m, hm, rfl⟩))
    exact List.mem_range.1 this
  · have : m.2 ∈ List.range dets.length :=
      (greedyMatch_perm s dets).2.subset
        (List.mem_append_left _ (List.mem_map.2 ⟨m, hm, rfl⟩))
    exact List.mem_range.1 this

theorem greedyMatch_nil (s : SimpleTracker) :
    greedyMatch s [] = { matched := [], unmatchedTracks := List.range s.tracks.length,
                         unmatchedDetections := [] } := by
  simp [greedyMatch]

theorem agedState_tracks (s : SimpleTracker) (dets : List Box) :
    (agedState s dets).tracks =
      (applyMatches (s._frameCount + 1) dets s.tracks (greedyMatch s dets).matched ++
        newTracks s._nextId (s._frameCount + 1)
          (unmatchedBoxes dets (greedyMatch s dets).unmatchedDetections)).map
        (ageTrack (s._frameCount + 1)) := by
  unfold agedState
  simp only [createTracks_eq]
  rfl

theorem agedState_nextId (s : SimpleTracker) (dets : List Box) :
    (agedState s dets)._nextId =
      s._nextId + (unmatchedBoxes dets (greedyMatch s dets).unmatchedDetections).length := by
  unfold agedState
  simp only [createTracks_eq]
  rfl

theorem agedState_frameCount (s : SimpleTracker) (dets : List Box) :
    (agedState s dets)._frameCount = s._frameCount + 1 := by
  unfold agedState
  simp only [createTracks_eq]

theorem agedState_maxAge (s : SimpleTracker) (dets : List Box) :
    (agedState s dets).maxAge = s.maxAge := by
  unfold agedState
  simp only [createTracks_eq]

theorem agedState_minHits (s : SimpleTracker) (dets : List Box) :
    (agedState s dets).minHits = s.minHits := by
  unfold agedState
  simp only [createTracks_eq]

theorem agedState_iouThreshold (s : SimpleTracker) (dets : List Box) :
    (agedState s dets).iouThreshold = s.iouThreshold := by
  unfold agedState
  simp only [createTracks_eq]

theorem update_tracks (s : SimpleTracker) (dets : List Box) :
    (s.update dets).1.tracks =
      (agedState s dets).tracks.filter (keepTrack (s._frameCount + 1) s.maxAge) := by
  simp only [SimpleTracker.update, SimpleTracker._removeStaleTracks, agedState_frameCount,
    agedState_maxAge]

theorem update_frameCount (s : SimpleTracker) (dets : List Box) :
    (s.update dets).1._frameCount = s._frameCount + 1 := by
  simp only [SimpleTracker.update, SimpleTracker._removeStaleTracks, agedState_frameCount]

theorem update_nextId (s : SimpleTracker) (dets : List Box) :
    (s.update dets).1._nextId = (agedState s dets)._nextId := rfl

theorem update_maxAge (s : SimpleTracker) (dets : List Box) :
    (s.update dets).1.maxAge = s.maxAge := by
  simp only [SimpleTracker.update, SimpleTracker._removeStaleTracks, agedState_maxAge]

theorem update_minHits (s : SimpleTracker) (dets : List Box) :
    (s.update dets).1.minHits = s.minHits := by
  simp only [SimpleTracker.update, SimpleTracker._removeStaleTracks, agedState_minHits]

theorem update_iouThreshold (s : SimpleTracker) (dets : List Box) :
    (s.update dets).1.iouThreshold = s.iouThreshold := by
  simp only [SimpleTracker.update, SimpleTracker._removeStaleTracks, agedState_iouThreshold]

theorem update_output (s : SimpleTracker) (dets : List Box) :
    (s.update dets).2 = (s.update dets).1.tracks.map (emit s.minHits) := by
  simp only [SimpleTracker.update, SimpleTracker._removeStaleTracks, agedState_minHits]

theorem run_append (s : SimpleTracker) (bs cs : List (List Box)) :
    run s (bs ++ cs) = run (run s bs) cs := by
  simp [run, List.foldl_append]

theorem run_concat (s : SimpleTracker) (bs : List (List Box)) (d : List Box) :
    run s (bs ++ [d]) = ((run s bs).update d).1 := by
  simp [run, List.foldl_append]

theorem run_cons (s : SimpleTracker) (bs : List (List Box)) (d : List Box) :
    run s (d :: bs) = run (s.update d).1 bs := rfl

/-! ## The invariant of reachable states -/

theorem touchRel_refl (fc : ℤ) (t : Track) : TouchRel fc t t := ⟨rfl, rfl, Or.inl rfl⟩

theorem touchRel_trans {fc : ℤ} {a b c : Track} (h1 : TouchRel fc a b) (h2 : TouchRel fc b c) :
    TouchRel fc a c := by
  obtain ⟨i1, a1, l1⟩ := h1
  obtain ⟨i2, a2, l2⟩ := h2
  refine ⟨i2.trans i1, a2.trans a1, ?_⟩
  rcases l2 with l2 | l2
  · rw [l2]; exact l1
  · exact Or.inr l2

theorem touchRel_touchTrack (fc : ℤ) (det : Box) (t : Track) :
    TouchRel fc t (touchTrack fc det t) := ⟨rfl, rfl, Or.inr rfl⟩

theorem applyMatch_rel (fc : ℤ) (dets : List Box) (ts : List Track) (m : Nat × Nat)
    (k : Nat) (t' : Track) (h : (applyMatch fc dets ts m)[k]? = some t') :
    ∃ t, ts[k]? = some t ∧ TouchRel fc t t' := by
  unfold applyMatch at h
  split at h
  · rw [List.getElem?_modify] at h
    cases hk : ts[k]? with
    | none => simp [hk] at h
    | some t =>
      refine ⟨t, rfl, ?_⟩
      simp only [hk, Option.map_eq_map, Option.map_some', Option.some.injEq] at h
      subst h
      split_ifs
      · exact touchRel_touchTrack _ _ _
      · exact touchRel_refl _ _
  · exact ⟨t', h, touchRel_refl _ _⟩

theorem applyMatches_rel (fc : ℤ) (dets : List Box) (ts : List Track) (ms : List (Nat × Nat))
    (k : Nat) (t' : Track) (h : (applyMatches fc dets ts ms)[k]? = some t') :
    ∃ t, ts[k]? = some t ∧ TouchRel fc t t' := by
  induction ms generalizing ts with
  | nil => exact ⟨t', h, touchRel_refl _ _⟩
  | cons m ms ih =>
    obtain ⟨t1, h1, r1⟩ := ih (applyMatch fc dets ts m) h
    obtain ⟨t, h0, r0⟩ := applyMatch_rel _ _ _ _ _ _ h1
    exact ⟨t, h0, touchRel_trans r0 r1⟩

theorem applyMatches_mem_rel {fc : ℤ} {dets : List Box} {ts : List Track}
    {ms : List (Nat × Nat)} {t' : Track} (h : t' ∈ applyMatches fc dets ts ms) :
    ∃ t ∈ ts, TouchRel fc t t' := by
  obtain ⟨k, hk, rfl⟩ := List.getElem_of_mem h
  obtain ⟨t, h0, r⟩ := applyMatches_rel fc dets ts ms k _ (List.getElem?_eq_getElem hk)
  exact ⟨t, List.getElem?_mem h0, r⟩

theorem applyMatches_map_id (fc : ℤ) (dets : List Box) (ts : List Track)
    (ms : List (Nat × Nat)) :
    (applyMatches fc dets ts ms).map Track.id = ts.map Track.id := by
  apply List.ext_getElem?
  intro k
  simp only [List.getElem?_map]
  cases h : (applyMatches fc dets ts ms)[k]? with
  | none =>
    have : ts.length ≤ k := by
      rw [← applyMatches_length fc dets ts ms]; exact List.getElem?_eq_none_iff.1 h
    rw [List.getElem?_eq_none_iff.2 this]
  | some t' =>
    obtain ⟨t, h0, r⟩ := applyMatches_rel _ _ _ _ _ _ h
    rw [h0]; simp [r.1]

theorem ageTrack_id (fc : ℤ) (t : Track) : (ageTrack fc t).id = t.id := by
  unfold ageTrack; split <;> rfl

theorem ageTrack_lastSeenFrame (fc : ℤ) (t : Track) :
    (ageTrack fc t).lastSeenFrame = t.lastSeenFrame := by
  unfold ageTrack; split <;> rfl

theorem ageTrack_bbox (fc : ℤ) (t : Track) : (ageTrack fc t).bbox = t.bbox := by
  unfold ageTrack; split <;> rfl

theorem ageTrack_hits (fc : ℤ) (t : Track) : (ageTrack fc t).hits = t.hits := by
  unfold ageTrack; split <;> rfl

theorem ageTrack_age_of_eq {fc : ℤ} {t : Track} (h : t.lastSeenFrame = fc) :
    (ageTrack fc t).age = 0 := by
  unfold ageTrack; rw [if_neg (not_not.2 h)]

theorem ageTrack_age_of_ne {fc : ℤ} {t : Track} (h : t.lastSeenFrame ≠ fc) :
    (ageTrack fc t).age = t.age + 1 := by
  unfold ageTrack; rw [if_pos h]

theorem agedState_map_id (s : SimpleTracker) (dets : List Box) :
    (agedState s dets).tracks.map Track.id =
      s.tracks.map Track.id ++
        (newTracks s._nextId (s._frameCount + 1)
          (unmatchedBoxes dets (greedyMatch s dets).unmatchedDetections)).map Track.id := by
  rw [agedState_tracks, List.map_map]
  have : Track.id ∘ ageTrack (s._frameCount + 1) = Track.id := by
    funext t; exact ageTrack_id _ _
  rw [this, List.map_append, applyMatches_map_id]

/-- Every track of the list before removal is an old track (possibly touched) or a new
one, after aging. -/
theorem mem_agedState {s : SimpleTracker} {dets : List Box} {t' : Track}
    (h : t' ∈ (agedState s dets).tracks) :
    (∃ t ∈ s.tracks, ∃ t1, TouchRel (s._frameCount + 1) t t1 ∧
        t' = ageTrack (s._frameCount + 1) t1) ∨
      (∃ t1 ∈ newTracks s._nextId (s._frameCount + 1)
          (unmatchedBoxes dets (greedyMatch s dets).unmatchedDetections),
        t' = ageTrack (s._frameCount + 1) t1) := by
  rw [agedState_tracks, List.mem_map] at h
  obtain ⟨t1, h1, rfl⟩ := h
  rcases List.mem_append.1 h1 with h1 | h1
  · obtain ⟨t, ht, r⟩ := applyMatches_mem_rel h1
    exact Or.inl ⟨t, ht, t1, r, rfl⟩
  · exact Or.inr ⟨t1, h1, rfl⟩

theorem inv_new (thr ma mh : ℚ) : Inv (SimpleTracker.new thr ma mh) := by
  refine ⟨?_, ?_, ?_⟩
  · simp [SimpleTracker.new]
  · simp [SimpleTracker.new]
  · intro t ht; simp [SimpleTracker.new] at ht

/-- The list before removal satisfies the invariant of the next state. -/
theorem inv_agedState {s : SimpleTracker} (hs : Inv s) (dets : List Box) :
    Inv (agedState s dets) := by
  obtain ⟨hp, hpos, hb⟩ := hs
  refine ⟨?_, ?_, ?_⟩
  · rw [agedState_map_id, List.pairwise_append]
    refine ⟨hp, newTracks_ids_pairwise _ _ _, ?_⟩
    intro a ha b hb'
    obtain ⟨t, ht, rfl⟩ := List.mem_map.1 ha
    obtain ⟨t2, ht2, rfl⟩ := List.mem_map.1 hb'
    have := (hb t ht).2.1
    have := (mem_newTracks ht2).1
    omega
  · rw [agedState_nextId]; omega
  · intro t' ht'
    rw [agedState_nextId, agedState_frameCount]
    rcases mem_agedState ht' with ⟨t, ht, t1, r, rfl⟩ | ⟨t1, h1, rfl⟩
    · obtain ⟨h0, h1, h2, h3⟩ := hb t ht
      obtain ⟨ri, ra, rl⟩ := r
      rw [ageTrack_id, ageTrack_lastSeenFrame, ri]
      refine ⟨h0, by omega, by omega, ?_⟩
      rcases rl with rl | rl
      · rw [ageTrack_age_of_ne (by omega), ra, rl]; omega
      · rw [ageTrack_age_of_eq rl, rl]; omega
    · obtain ⟨h0, h1, h2, h3, h4⟩ := mem_newTracks h1
      rw [ageTrack_id, ageTrack_lastSeenFrame, ageTrack_age_of_eq h4, h4]
      refine ⟨by omega, h1, le_refl _, by omega⟩

theorem update_tracks_sublist (s : SimpleTracker) (dets : List Box) :
    List.Sublist (s.update dets).1.tracks (agedState s dets).tracks := by
  rw [update_tracks]; exact List.filter_sublist _

theorem inv_update {s : SimpleTracker} (hs : Inv s) (dets : List Box) :
    Inv (s.update dets).1 := by
  obtain ⟨hp, hpos, hb⟩ := inv_agedState hs dets
  refine ⟨hp.sublist ((update_tracks_sublist s dets).map _), ?_, ?_⟩
  · rw [update_nextId]; exact hpos
  · intro t ht
    have := hb t ((update_tracks_sublist s dets).subset ht)
    rw [update_nextId, update_frameCount, ← agedState_frameCount s dets]
    exact this

theorem inv_run {s : SimpleTracker} (hs : Inv s) (batches : List (List Box)) :
    Inv (run s batches) := by
  induction batches generalizing s with
  | nil => exact hs
  | cons d ds ih => exact ih (inv_update hs d)

theorem inv_reachable (thr ma mh : ℚ) (batches : List (List Box)) :
    Inv (run (SimpleTracker.new thr ma mh) batches) :=
  inv_run (inv_new thr ma mh) batches

/-- Two live tracks of a state with the invariant that share an id are the same track. -/
theorem eq_of_id_eq {s : SimpleTracker} (hs : Inv s) {t u : Track} (ht : t ∈ s.tracks)
    (hu : u ∈ s.tracks) (h : t.id = u.id) : t = u := by
  have hnd : (s.tracks.map Track.id).Nodup := hs.1.imp (fun h => ne_of_lt h)
  exact List.inj_on_of_nodup_map hnd ht hu h

theorem update_nextId_le (s : SimpleTracker) (dets : List Box) :
    s._nextId ≤ (s.update dets).1._nextId := by
  rw [update_nextId, agedState_nextId]; omega

/-- One call: a track of the list before removal carries the id of an old track, or a
fresh id from `_nextId` on. -/
theorem agedState_id_cases {s : SimpleTracker} {dets : List Box} {t' : Track}
    (h : t' ∈ (agedState s dets).tracks) :
    (∃ t ∈ s.tracks, t.id = t'.id) ∨
      (s._nextId ≤ t'.id ∧ t'.id < (s.update dets).1._nextId) := by
  rcases mem_agedState h with ⟨t, ht, t1, r, rfl⟩ | ⟨t1, h1, rfl⟩
  · exact Or.inl ⟨t, ht, by rw [ageTrack_id, r.1]⟩
  · right
    rw [ageTrack_id, update_nextId, agedState_nextId]
    exact ⟨(mem_newTracks h1).1, (mem_newTracks h1).2.1⟩

theorem run_nextId_le (s : SimpleTracker) (more : List (List Box)) :
    s._nextId ≤ (run s more)._nextId := by
  induction more generalizing s with
  | nil => exact le_refl _
  | cons d ds ih => exact le_trans (update_nextId_le s d) (ih (s.update d).1)

/-- Any number of calls: a live track carries the id of a track that was live at the start,
or an id that had not been assigned then. -/
theorem run_id_cases (s : SimpleTracker) (more : List (List Box)) {t' : Track}
    (h : t' ∈ (run s more).tracks) :
    (∃ t ∈ s.tracks, t.id = t'.id) ∨ s._nextId ≤ t'.id := by
  induction more generalizing s with
  | nil => exact Or.inl ⟨t', h, rfl⟩
  | cons d ds ih =>
    rcases ih (s.update d).1 h with ⟨t1, h1, e1⟩ | h1
    · rcases agedState_id_cases ((update_tracks_sublist s d).subset h1) with ⟨t, ht, e⟩ | h2
      · exact Or.inl ⟨t, ht, e.trans e1⟩
      · right; rw [← e1]; exact h2.1
    · right; exact le_trans (update_nextId_le s d) h1

theorem newTracks_getElem? (n fc : ℤ) (ds : List Box) (k : Nat) :
    (newTracks n fc ds)[k]? =
      ds[k]?.map fun d => { id := n + k, bbox := d, age := 0, hits := 1, lastSeenFrame := fc } := by
  induction ds generalizing n k with
  | nil => simp [newTracks]
  | cons d ds ih =>
    cases k with
    | zero => simp [newTracks]
    | succ k =>
      simp only [newTracks, List.getElem?_cons_succ, ih, Nat.cast_add, Nat.cast_one]
      congr 1; funext d; congr 1; ring

/-- Positions of the list before removal: the first `tracks.length` hold the old tracks,
the others the tracks this call created. -/
theorem agedState_getElem_id (s : SimpleTracker) (dets : List Box) (k : Nat)
    (hk : k < (agedState s dets).tracks.length) :
    (∀ h : k < s.tracks.length, (agedState s dets).tracks[k].id = s.tracks[k].id) ∧
      (s.tracks.length ≤ k →
        (agedState s dets).tracks[k].id = s._nextId + (k - s.tracks.length : ℕ)) := by
  have hmap := agedState_map_id s dets
  have hget : ((agedState s dets).tracks.map Track.id)[k]? = some (agedState s dets).tracks[k].id := by
    simp [List.getElem?_eq_getElem hk]
  rw [hmap] at hget
  constructor
  · intro h
    rw [List.getElem?_append_left (by simpa using h)] at hget
    simpa [List.getElem?_eq_getElem h] using hget.symm
  · intro h
    rw [List.getElem?_append_right (by simpa using h), List.getElem?_map,
      newTracks_getElem?] at hget
    simp only [List.length_map, Option.map_map] at hget
    cases hd : (unmatchedBoxes dets (greedyMatch s dets).unmatchedDetections)[k - s.tracks.length]? with
    | none => simp [hd] at hget
    | some d => simpa [hd] using hget.symm

theorem agedState_id_lt {s : SimpleTracker} (hs : Inv s) (dets : List Box) {t : Track}
    (h : t ∈ (agedState s dets).tracks) : t.id < (s.update dets).1._nextId := by
  rw [update_nextId]; exact ((inv_agedState hs dets).2.2 t h).2.1

theorem run_maxAge (s : SimpleTracker) (bs : List (List Box)) : (run s bs).maxAge = s.maxAge := by
  induction bs generalizing s with
  | nil => rfl
  | cons d ds ih => rw [run_cons, ih, update_maxAge]

theorem run_minHits (s : SimpleTracker) (bs : List (List Box)) :
    (run s bs).minHits = s.minHits := by
  induction bs generalizing s with
  | nil => rfl
  | cons d ds ih => rw [run_cons, ih, update_minHits]

theorem run_frameCount (s : SimpleTracker) (bs : List (List Box)) :
    (run s bs)._frameCount = s._frameCount + bs.length := by
  induction bs generalizing s with
  | nil => simp [run]
  | cons d ds ih =>
    rw [run_cons, ih, update_frameCount, List.length_cons]
    push_cast; ring

theorem reached_maxAge (thr ma mh : ℚ) (bs : List (List Box)) :
    (reached thr ma mh bs).maxAge = ma := run_maxAge _ _

theorem reached_minHits (thr ma mh : ℚ) (bs : List (List Box)) :
    (reached thr ma mh bs).minHits = mh := run_minHits _ _

/-- C5: after `K` calls of `update` on a freshly constructed tracker, whatever the
configuration and the batches, `_frameCount` is `K`; each call adds exactly 1. -/
theorem frameCount_eq_calls (thr ma mh : ℚ) (batches : List (List Box)) :
    (reached thr ma mh batches)._frameCount = batches.length ∧
      ∀ (s : SimpleTracker) (d : List Box), (s.update d).1._frameCount = s._frameCount + 1 := by
  refine ⟨?_, update_frameCount⟩
  unfold reached
  rw [run_frameCount]; simp [SimpleTracker.new]

/-- C6: ids are never reused.  In a state reached from a fresh tracker the live tracks
have ids that increase strictly along the list (so they are pairwise distinct), are
positive and are below `_nextId`.  Over any further calls `_nextId` does not decrease,
and a track that is live afterwards either continues a track that is live now or has an
id of at least the present `_nextId`: the id of a removed track does not come back.
Within one call, position `k` of the list before removal keeps the id of old track `k`,
the `n`-th track created gets id `_nextId + n`, and all are below the new `_nextId`. -/
theorem ids_never_reused (thr ma mh : ℚ) (batches more : List (List Box)) (d : List Box) :
    ((reached thr ma mh batches).tracks.map Track.id).Pairwise (· < ·) ∧
    (∀ t ∈ (reached thr ma mh batches).tracks,
      0 < t.id ∧ t.id < (reached thr ma mh batches)._nextId) ∧
    (reached thr ma mh batches)._nextId ≤ (run (reached thr ma mh batches) more)._nextId ∧
    (∀ t' ∈ (run (reached thr ma mh batches) more).tracks,
      (∃ t ∈ (reached thr ma mh batches).tracks, t.id = t'.id) ∨
        (reached thr ma mh batches)._nextId ≤ t'.id) ∧
    ∀ (k : Nat) (hk : k < (agedState (reached thr ma mh batches) d).tracks.length),
      (∀ h : k < (reached thr ma mh batches).tracks.length,
        (agedState (reached thr ma mh batches) d).tracks[k].id =
          (reached thr ma mh batches).tracks[k].id) ∧
      ((reached thr ma mh batches).tracks.length ≤ k →
        (agedState (reached thr ma mh batches) d).tracks[k].id =
          (reached thr ma mh batches)._nextId +
            (k - (reached thr ma mh batches).tracks.length : ℕ)) ∧
      (agedState (reached thr ma mh batches) d).tracks[k].id <
        ((reached thr ma mh batches).update d).1._nextId := by
  have hinv : Inv (reached thr ma mh batches) := inv_reachable thr ma mh batches
  refine ⟨hinv.1, fun t ht => ⟨(hinv.2.2 t ht).1, (hinv.2.2 t ht).2.1⟩,
    run_nextId_le _ _, fun t' ht' => run_id_cases _ _ ht', ?_⟩
  intro k hk
  exact ⟨(agedState_getElem_id _ _ k hk).1, (agedState_getElem_id _ _ k hk).2,
    agedState_id_lt hinv d (List.getElem_mem _)⟩

/-! ## Aging and removal -/

theorem agedState_getElem? (s : SimpleTracker) (dets : List Box) (k : Nat) :
    (agedState s dets).tracks[k]? =
      ((applyMatches (s._frameCount + 1) dets s.tracks (greedyMatch s dets).matched ++
        newTracks s._nextId (s._frameCount + 1)
          (unmatchedBoxes dets (greedyMatch s dets).unmatchedDetections))[k]?).map
        (ageTrack (s._frameCount + 1)) := by
  rw [agedState_tracks, List.getElem?_map]

/-- An old track that the pass matched is last seen in the new frame. -/
theorem agedState_matched {s : SimpleTracker} {dets : List Box} {k : Nat}
    (hm : k ∈ matchedTracks s dets) (h : k < s.tracks.length) :
    ∃ j, ∃ hj : j < dets.length, (k, j) ∈ (greedyMatch s dets).matched ∧
      (agedState s dets).tracks[k]? =
        some (ageTrack (s._frameCount + 1)
          (touchTrack (s._frameCount + 1) dets[j] s.tracks[k])) := by
  obtain ⟨⟨k', j⟩, hmem, hk'⟩ := List.mem_map.1 hm
  simp only at hk'
  subst hk'
  have hj := (greedyMatch_mem_lt s dets hmem).2
  refine ⟨j, hj, hmem, ?_⟩
  rw [agedState_getElem?, List.getElem?_append_left (by rw [applyMatches_length]; exact h),
    applyMatches_getElem?_of_mem _ _ _ _ _ _ (greedyMatch_fst_nodup s dets) hmem hj,
    List.getElem?_eq_getElem h]
  rfl

/-- An old track that the pass did not match is only aged. -/
theorem agedState_unmatched {s : SimpleTracker} {dets : List Box} {k : Nat}
    (hm : k ∉ matchedTracks s dets) (h : k < s.tracks.length) :
    (agedState s dets).tracks[k]? = some (ageTrack (s._frameCount + 1) s.tracks[k]) := by
  rw [agedState_getElem?, List.getElem?_append_left (by rw [applyMatches_length]; exact h),
    applyMatches_getElem?_of_not_mem _ _ _ _ _ hm, List.getElem?_eq_getElem h]
  rfl

/-- A position past the old tracks holds a track created in this call. -/
theorem agedState_created {s : SimpleTracker} {dets : List Box} {k : Nat}
    (hk : k < (agedState s dets).tracks.length) (h : s.tracks.length ≤ k) :
    (agedState s dets).tracks[k].lastSeenFrame = s._frameCount + 1 := by
  have hget := agedState_getElem? s dets k
  rw [List.getElem?_eq_getElem hk,
    List.getElem?_append_right (by rw [applyMatches_length]; exact h)] at hget
  cases hn : (newTracks s._nextId (s._frameCount + 1)
      (unmatchedBoxes dets (greedyMatch s dets).unmatchedDetections))[k -
        (applyMatches (s._frameCount + 1) dets s.tracks
          (greedyMatch s dets).matched).length]? with
  | none => rw [hn] at hget; simp at hget
  | some t1 =>
    rw [hn] at hget
    simp only [Option.map_some', Option.some.injEq] at hget
    rw [hget, ageTrack_lastSeenFrame]
    exact (mem_newTracks (List.getElem?_mem hn)).2.2.2.2

/-- C7: in every state reached from a fresh tracker each live track has
`age = _frameCount - lastSeenFrame`, so its age is 0 exactly when it was last seen in the
current frame.  In the next call, on the list before removal (of which the live tracks
are a sublist): the track at position `k` has age 0 if and only if the matching pass
matched old track `k` or position `k` holds a track created in this call, and an old
track that was not matched has its age increased by exactly 1. -/
theorem age_eq_frames_since_seen (thr ma mh : ℚ) (batches : List (List Box)) (d : List Box) :
    (∀ t ∈ (reached thr ma mh batches).tracks,
      t.age = (reached thr ma mh batches)._frameCount - t.lastSeenFrame ∧
      (t.age = 0 ↔ t.lastSeenFrame = (reached thr ma mh batches)._frameCount)) ∧
    List.Sublist ((reached thr ma mh batches).update d).1.tracks
      (agedState (reached thr ma mh batches) d).tracks ∧
    ∀ (k : Nat) (hk : k < (agedState (reached thr ma mh batches) d).tracks.length),
      ((agedState (reached thr ma mh batches) d).tracks[k].age = 0 ↔
        (k ∈ matchedTracks (reached thr ma mh batches) d ∨
          (reached thr ma mh batches).tracks.length ≤ k)) ∧
      (∀ h : k < (reached thr ma mh batches).tracks.length,
        k ∉ matchedTracks (reached thr ma mh batches) d →
          (agedState (reached thr ma mh batches) d).tracks[k].age =
            (reached thr ma mh batches).tracks[k].age + 1) := by
  have hinv : Inv (reached thr ma mh batches) := inv_reachable thr ma mh batches
  have hinv' := inv_agedState hinv d
  refine ⟨fun t ht => ?_, update_tracks_sublist _ _, fun k hk => ?_⟩
  · have := (hinv.2.2 t ht).2.2.2
    exact ⟨this, by omega⟩
  · have hage := (hinv'.2.2 _ (List.getElem_mem hk)).2.2.2
    rw [agedState_frameCount] at hage
    have hunm : ∀ h : k < (reached thr ma mh batches).tracks.length,
        k ∉ matchedTracks (reached thr ma mh batches) d →
          (agedState (reached thr ma mh batches) d).tracks[k].age =
            (reached thr ma mh batches).tracks[k].age + 1 := by
      intro h hm
      have hget := agedState_unmatched hm h
      rw [List.getElem?_eq_getElem hk, Option.some.injEq] at hget
      have hls := (hinv.2.2 _ (List.getElem_mem h)).2.2.1
      rw [hget, ageTrack_age_of_ne (by omega)]
    refine ⟨⟨fun h0 => ?_, fun hor => ?_⟩, hunm⟩
    · by_contra hcon
      push_neg at hcon
      have h1 := hunm hcon.2 hcon.1
      have h2 := (hinv.2.2 _ (List.getElem_mem hcon.2)).2.2
      omega
    · rcases hor with hm | hge
      · by_cases h : k < (reached thr ma mh batches).tracks.length
        · obtain ⟨j, hj, _, hget⟩ := agedState_matched hm h
          rw [List.getElem?_eq_getElem hk, Option.some.injEq] at hget
          rw [hget]
          exact ageTrack_age_of_eq rfl
        · rw [hage, agedState_created hk (by omega)]; omega
      · rw [hage, agedState_created hk hge]; omega

/-- C8: in a call made in a reachable state, `update` removes exactly the tracks whose
age after the aging step exceeds `maxAge`: the live list is the list before removal
filtered by `age ≤ maxAge`; on that list `age = _frameCount - lastSeenFrame` (with the
new frame count); a track is dropped if and only if `maxAge < age`; and a track whose
age equals `maxAge` is kept. -/
theorem removed_iff_age_exceeds_maxAge (thr ma mh : ℚ) (batches : List (List Box))
    (d : List Box) :
    ((reached thr ma mh batches).update d).1.tracks =
      (agedState (reached thr ma mh batches) d).tracks.filter
        (fun t => decide ((t.age : ℚ) ≤ ma)) ∧
    ∀ t ∈ (agedState (reached thr ma mh batches) d).tracks,
      t.age = ((reached thr ma mh batches).update d).1._frameCount - t.lastSeenFrame ∧
      (t ∉ ((reached thr ma mh batches).update d).1.tracks ↔ ma < (t.age : ℚ)) ∧
      ((t.age : ℚ) = ma → t ∈ ((reached thr ma mh batches).update d).1.tracks) := by
  have hinv : Inv (reached thr ma mh batches) := inv_reachable thr ma mh batches
  have hinv' := inv_agedState hinv d
  have hage : ∀ t ∈ (agedState (reached thr ma mh batches) d).tracks,
      t.age = (reached thr ma mh batches)._frameCount + 1 - t.lastSeenFrame := by
    intro t ht
    have := (hinv'.2.2 t ht).2.2.2
    rwa [agedState_frameCount] at this
  have hfilter : ((reached thr ma mh batches).update d).1.tracks =
      (agedState (reached thr ma mh batches) d).tracks.filter
        (fun t => decide ((t.age : ℚ) ≤ ma)) := by
    rw [update_tracks, reached_maxAge]
    apply List.filter_congr
    intro t ht
    unfold keepTrack
    rw [hage t ht]
  refine ⟨hfilter, fun t ht => ⟨?_, ?_, ?_⟩⟩
  · rw [update_frameCount]; exact hage t ht
  · rw [hfilter, List.mem_filter, decide_eq_true_eq]
    constructor
    · intro h
      by_contra hle
      exact h ⟨ht, not_lt.1 hle⟩
    · intro h hmem
      exact absurd hmem.2 (not_le.2 h)
  · intro h
    rw [hfilter, List.mem_filter, decide_eq_true_eq]
    exact ⟨ht, h.le⟩

/-- C10: the list that `update` returns has one entry per track that is live after
removal, in the same order, with that track's id, bbox and age, and with `confirmed` true
if and only if `minHits ≤ hits`; this holds in every state, and tracks that are not
confirmed are emitted like the others. -/
theorem returned_list_spec (s : SimpleTracker) (d : List Box) :
    List.Forall₂
      (fun (t : Track) (o : Output) =>
        o.id = t.id ∧ o.bbox = t.bbox ∧ o.age = t.age ∧
          (o.confirmed = true ↔ s.minHits ≤ (t.hits : ℚ)))
      (s.update d).1.tracks (s.update d).2 := by
  rw [update_output, List.forall₂_map_right_iff]
  apply List.forall₂_same.2
  intro t _
  exact ⟨rfl, rfl, rfl, by simp [emit]⟩

/-! ## Calls without detections -/

theorem update_nil_tracks (s : SimpleTracker) :
    (s.update []).1.tracks =
      (s.tracks.map (ageTrack (s._frameCount + 1))).filter
        (keepTrack (s._frameCount + 1) s.maxAge) := by
  rw [update_tracks, agedState_tracks, greedyMatch_nil]
  simp [applyMatches, unmatchedBoxes, newTracks]

theorem update_nil_nextId (s : SimpleTracker) : (s.update []).1._nextId = s._nextId := by
  rw [update_nextId, agedState_nextId, greedyMatch_nil]
  simp [unmatchedBoxes]

theorem run_replicate_succ (s : SimpleTracker) (k : Nat) :
    run s (List.replicate (k + 1) []) = ((run s (List.replicate k [])).update []).1 := by
  rw [List.replicate_succ', run_concat]

/-- A track last seen in the current frame is still live, with age `k`, after `k` calls
without detections, as long as `k ≤ maxAge`. -/
theorem mem_run_empties {s : SimpleTracker} {t : Track} (ht : t ∈ s.tracks)
    (hseen : t.lastSeenFrame = s._frameCount) (hage : t.age = 0) (k : Nat)
    (hk : (k : ℚ) ≤ s.maxAge) :
    { t with age := (k : ℤ) } ∈ (run s (List.replicate k [])).tracks := by
  induction k with
  | zero =>
    have : ({ t with age := ((0 : ℕ) : ℤ) } : Track) = t := by
      cases t; simp only [Nat.cast_zero] at hage ⊢; simp_all
    rw [this]; exact ht
  | succ k ih =>
    have hk' : (k : ℚ) ≤ s.maxAge := by
      push_cast at hk; linarith
    have hmem := ih hk'
    rw [run_replicate_succ, update_nil_tracks, List.mem_filter, run_frameCount, run_maxAge]
    simp only [List.length_replicate]
    constructor
    · refine List.mem_map.2 ⟨_, hmem, ?_⟩
      unfold ageTrack
      rw [if_pos (by simp only; omega)]
      simp
    · unfold keepTrack
      simp only [decide_eq_true_eq]
      rw [hseen]
      push_cast at hk ⊢
      linarith

theorem outputs_length (s : SimpleTracker) (bs : List (List Box)) :
    (outputs s bs).length = bs.length := by
  induction bs generalizing s with
  | nil => rfl
  | cons d ds ih => simp [outputs, ih]

/-- The outputs of a sequence of calls, call by call. -/
theorem outputs_getElem? (s : SimpleTracker) (bs : List (List Box)) (i : Nat) :
    (outputs s bs)[i]? = bs[i]?.map fun d => ((run s (bs.take i)).update d).2 := by
  induction bs generalizing s i with
  | nil => simp [outputs]
  | cons d ds ih =>
    cases i with
    | zero => simp [outputs, run]
    | succ i =>
      simp only [outputs, List.getElem?_cons_succ, ih, List.take_succ_cons, run_cons]

theorem run_take_succ (s : SimpleTracker) (bs : List (List Box)) (i : Nat) (d : List Box)
    (h : bs[i]? = some d) :
    ((run s (bs.take i)).update d).1 = run s (bs.take (i + 1)) := by
  rw [List.take_succ, h, Option.toList, run_concat]

/-- The ids in the output of call number `i` are the ids of the tracks live after it. -/
theorem outputs_getD_map_id (s : SimpleTracker) (bs : List (List Box)) (i : Nat)
    (h : i < bs.length) :
    (outputs s bs).getD i [] = (run s (bs.take (i + 1))).tracks.map (emit s.minHits) := by
  rw [List.getD_eq_getElem?_getD, outputs_getElem?, List.getElem?_eq_getElem h]
  simp only [Option.map_some', Option.getD_some]
  rw [update_output, run_take_succ s bs i _ (List.getElem?_eq_getElem h), run_minHits]

/-- C9: take a state reached from a fresh tracker whose `maxAge` is the natural number
`m`, and a live track `t` that was last seen (matched or created) in the current frame.
Let the next `m + 1` calls carry no detection, followed by any calls `more`.  Then `t`
has age 0 now, the
output of call number `i` (counted from 0) contains `t` with age `i + 1` whenever
`i < m`, that is through the `m`-th empty call, and contains no entry with the id of `t`
whenever `m ≤ i`, that is from the `(m+1)`-th empty call on. -/
theorem unmatched_track_lifetime (thr mh : ℚ) (m : ℕ) (batches more : List (List Box))
    (t : Track) (i : ℕ) (ht : t ∈ (reached thr (m : ℚ) mh batches).tracks)
    (hseen : t.lastSeenFrame = (reached thr (m : ℚ) mh batches)._frameCount) :
    t.age = 0 ∧
    (i < m → emit mh { t with age := (i : ℤ) + 1 } ∈
      (outputs (reached thr (m : ℚ) mh batches) (List.replicate (m + 1) [] ++ more)).getD i []) ∧
    (m ≤ i → t.id ∉
      ((outputs (reached thr (m : ℚ) mh batches)
        (List.replicate (m + 1) [] ++ more)).getD i []).map Output.id) := by
  have hinv : Inv (reached thr (m : ℚ) mh batches) := inv_reachable thr _ mh batches
  have hma := reached_maxAge thr (m : ℚ) mh batches
  have hmh := reached_minHits thr (m : ℚ) mh batches
  have hage : t.age = 0 := by
    have := (hinv.2.2 t ht).2.2.2
    omega
  refine ⟨hage, ?_, ?_⟩
  · intro hi
    have hlen : i < (List.replicate (m + 1) ([] : List Box) ++ more).length := by
      simp only [List.length_append, List.length_replicate]; omega
    rw [outputs_getD_map_id _ _ _ hlen, hmh]
    have htake : (List.replicate (m + 1) ([] : List Box) ++ more).take (i + 1) =
        List.replicate (i + 1) [] := by
      rw [List.take_append_of_le_length (by simp only [List.length_replicate]; omega),
        List.take_replicate, min_eq_left (by omega)]
    rw [htake]
    have hmem := mem_run_empties ht hseen hage (i + 1)
      (by rw [hma]; exact_mod_cast hi)
    have := List.mem_map_of_mem (emit mh) hmem
    simpa using this
  · intro hi
    by_cases hlen : i < (List.replicate (m + 1) ([] : List Box) ++ more).length
    · rw [outputs_getD_map_id _ _ _ hlen, List.map_map]
      have htake : (List.replicate (m + 1) ([] : List Box) ++ more).take (i + 1) =
          List.replicate (m + 1) [] ++ more.take (i - m) := by
        rw [List.take_append_eq_append_take, List.take_replicate,
          min_eq_right (by omega), List.length_replicate]
        congr 2; omega
      rw [htake, run_append]
      intro hmem
      obtain ⟨t', ht', hid⟩ := List.mem_map.1 hmem
      have hid' : t'.id = t.id := hid
      -- the state after the `m + 1` empty calls holds no track with the id of `t`
      have hgone : ∀ u ∈ (run (reached thr (m : ℚ) mh batches)
          (List.replicate (m + 1) [])).tracks, u.id ≠ t.id := by
        intro u hu hue
        rw [run_replicate_succ, update_nil_tracks, List.mem_filter, run_frameCount,
          run_maxAge, hma] at hu
        obtain ⟨hu1, hu2⟩ := hu
        obtain ⟨v, hv, rfl⟩ := List.mem_map.1 hu1
        rw [ageTrack_id] at hue
        have hvm := mem_run_empties ht hseen hage m (by rw [hma])
        have hinvm : Inv (run (reached thr (m : ℚ) mh batches) (List.replicate m [])) :=
          inv_run hinv _
        have hv' := eq_of_id_eq hinvm hv hvm hue
        unfold keepTrack at hu2
        rw [ageTrack_lastSeenFrame, hv'] at hu2
        simp only [decide_eq_true_eq, List.length_replicate, hseen] at hu2
        push_cast at hu2
        linarith
      rcases run_id_cases _ _ ht' with ⟨u, hu, hue⟩ | hge
      · exact hgone u hu (hue.trans hid')
      · have h1 := (hinv.2.2 t ht).2.1
        have h2 := run_nextId_le (reached thr (m : ℚ) mh batches) (List.replicate (m + 1) [])
        omega
    · have hnone : (outputs (reached thr (m : ℚ) mh batches)
          (List.replicate (m + 1) [] ++ more))[i]? = none := by
        rw [List.getElem?_eq_none_iff, outputs_length]; omega
      rw [List.getD_eq_getElem?_getD, hnone]
      simp

/-- C9 on scenario C: default configuration, one detection, then a shifted one, then 31
calls without detections.  The track (id 1) is in the output of the 30th empty call with
age 30 and is not in the output of the 31st. -/
theorem unmatched_track_lifetime_witness :
    ((⟨1, ⟨1, 1, 11, 11, 17 / 20, "person"⟩, 0, 2, 2⟩ : Track) ∈
        (reached defaultIouThreshold ((30 : ℕ) : ℚ) 1
          [[⟨0, 0, 10, 10, 9 / 10, "person"⟩], [⟨1, 1, 11, 11, 17 / 20, "person"⟩]]).tracks ∧
      (2 : ℤ) = (reached defaultIouThreshold ((30 : ℕ) : ℚ) 1
          [[⟨0, 0, 10, 10, 9 / 10, "person"⟩], [⟨1, 1, 11, 11, 17 / 20, "person"⟩]])._frameCount) ∧
    (⟨1, ⟨1, 1, 11, 11, 17 / 20, "person"⟩, true, 30⟩ : Output) ∈
      (outputs (reached defaultIouThreshold ((30 : ℕ) : ℚ) 1
          [[⟨0, 0, 10, 10, 9 / 10, "person"⟩], [⟨1, 1, 11, 11, 17 / 20, "person"⟩]])
        (List.replicate (30 + 1) [] ++ [])).getD 29 [] ∧
    (1 : ℤ) ∉
      ((outputs (reached defaultIouThreshold ((30 : ℕ) : ℚ) 1
          [[⟨0, 0, 10, 10, 9 / 10, "person"⟩], [⟨1, 1, 11, 11, 17 / 20, "person"⟩]])
        (List.replicate (30 + 1) [] ++ [])).getD 30 []).map Output.id :=
  ⟨⟨by decide!, by decide!⟩,
    (unmatched_track_lifetime defaultIouThreshold 1 30
      [[⟨0, 0, 10, 10, 9 / 10, "person"⟩], [⟨1, 1, 11, 11, 17 / 20, "person"⟩]] []
      ⟨1, ⟨1, 1, 11, 11, 17 / 20, "person"⟩, 0, 2, 2⟩ 29 (by decide!) (by decide!)).2.1
      (by decide),
    (unmatched_track_lifetime defaultIouThreshold 1 30
      [[⟨0, 0, 10, 10, 9 / 10, "person"⟩], [⟨1, 1, 11, 11, 17 / 20, "person"⟩]] []
      ⟨1, ⟨1, 1, 11, 11, 17 / 20, "person"⟩, 0, 2, 2⟩ 30 (by decide!) (by decide!)).2.2
      (le_refl _)⟩

/-! ## The matching pass -/

/-- The operator `<=` on numbers is transitive. -/
theorem f64_le_trans {x y z : F64} (h1 : F64.le x y = true) (h2 : F64.le y z = true) :
    F64.le x z = true := by
  cases x <;> cases y <;> cases z <;> simp [F64.le] at h1 h2 ⊢
  exact le_trans h1 h2

/-- A number at or above the threshold does not pass the test `val < threshold`. -/
theorem f64_lt_false_of_le {x : F64} {t : ℚ} (h : F64.le (F64.fin t) x = true) :
    F64.lt x (F64.fin t) = false := by
  cases x <;> simp [F64.le, F64.lt] at h ⊢
  exact h

/-- A number that does not pass the test `val < threshold` is `NaN` or is at or above
the threshold. -/
theorem f64_nan_or_le_of_lt_false {x : F64} {t : ℚ} (h : F64.lt x (F64.fin t) = false) :
    x = F64.nan ∨ F64.le (F64.fin t) x = true := by
  cases x <;> simp [F64.le, F64.lt] at h ⊢
  exact h

/-- Of two numbers, one cannot be both strictly below and at or above the other. -/
theorem f64_le_false_of_lt {x y : F64} (h : F64.lt x y = true) : F64.le y x = false := by
  cases x <;> cases y <;> simp [F64.le, F64.lt] at h ⊢
  exact h

/-- A finite value of the last line of `iou` is a double. -/
theorem rep_of_guardedDiv {i u : F64} {v : ℚ} (h : guardedDiv i u = F64.fin v) : F64.Rep v := by
  unfold guardedDiv at h
  split_ifs at h with hz
  · have : v = 0 := by simpa using h.symm
    rw [this]; exact F64.rep_zero
  · cases i <;> cases u <;> simp only [F64.div] at h
    all_goals first
      | exact F64.noConfusion h
      | (have : v = 0 := by simpa using h.symm
         rw [this]; exact F64.rep_zero)
      | (split_ifs at h
         exact F64.rep_of_round h)
      | split_ifs at h

/-- A finite value of `iou` is a double. -/
theorem rep_of_iou {a b : Box} {v : ℚ} (h : iou a b = F64.fin v) : F64.Rep v := by
  rw [iou_unfold] at h
  exact rep_of_guardedDiv h

/-- A value of `iou` that is not `NaN` is a finite double. -/
theorem iou_fin_of_ne_nan {a b : Box} (h : iou a b ≠ F64.nan) :
    ∃ q, iou a b = F64.fin q ∧ F64.Rep q := by
  rcases iou_nan_or_unit a b with e | ⟨r, e, _⟩
  · exact absurd e h
  · exact ⟨r, e, rep_of_iou e⟩

/-- The cells of the list `pairs`: one for each track index and detection index, carrying
the IoU of the two boxes. -/
theorem mem_allPairs (ts : List Track) (ds : List Box) (p : Pair) :
    p ∈ allPairs (iouMatrix ts ds) ↔
      ∃ (hi : p.i < ts.length) (hj : p.j < ds.length), p.val = iou ts[p.i].bbox ds[p.j] := by
  unfold allPairs iouMatrix
  simp only [List.mem_flatMap, List.mem_map, Prod.exists, List.mk_mem_enum_iff_getElem?,
    List.getElem?_map]
  constructor
  · rintro ⟨i, row, hrow, j, v, hv, rfl⟩
    cases hti : ts[i]? with
    | none => simp [hti] at hrow
    | some t =>
      simp only [hti, Option.map_some', Option.some.injEq] at hrow
      subst hrow
      rw [List.getElem?_map] at hv
      cases hdj : ds[j]? with
      | none => simp [hdj] at hv
      | some d =>
        simp only [hdj, Option.map_some', Option.some.injEq] at hv
        subst hv
        obtain ⟨hi, hti'⟩ := List.getElem?_eq_some.1 hti
        obtain ⟨hj, hdj'⟩ := List.getElem?_eq_some.1 hdj
        exact ⟨hi, hj, by simp [hti', hdj']⟩
  · rintro ⟨hi, hj, hv⟩
    refine ⟨p.i, ds.map (fun d => iou ts[p.i].bbox d), ?_, p.j, p.val, ?_, rfl⟩
    · simp [List.getElem?_eq_getElem hi]
    · simp [List.getElem?_eq_getElem hj, hv]

/-- Sorting permutes the list. -/
theorem mem_sortPairs (ps : List Pair) (p : Pair) : p ∈ sortPairs ps ↔ p ∈ ps :=
  (List.perm_insertionSort _ ps).mem_iff

/-- Inserting into a list depends on the order only through the comparisons with the
elements of the list. -/
theorem orderedInsert_congr {α : Type} (r r' : α → α → Prop) [DecidableRel r]
    [DecidableRel r'] (a : α) (l : List α) (h : ∀ b ∈ l, (r a b ↔ r' a b)) :
    l.orderedInsert r a = l.orderedInsert r' a := by
  induction l with
  | nil => rfl
  | cons b l ih =>
    have hb := h b (List.mem_cons_self _ _)
    have ih' := ih (fun c hc => h c (List.mem_cons_of_mem _ hc))
    simp only [List.orderedInsert]
    by_cases hr : r a b
    · rw [if_pos hr, if_pos (hb.1 hr)]
    · rw [if_neg hr, if_neg (fun h' => hr (hb.2 h')), ih']

/-- Insertion sort depends on the order only through the comparisons between elements of
the list. -/
theorem insertionSort_congr {α : Type} (r r' : α → α → Prop) [DecidableRel r]
    [DecidableRel r'] (l : List α) (h : ∀ a ∈ l, ∀ b ∈ l, (r a b ↔ r' a b)) :
    l.insertionSort r = l.insertionSort r' := by
  induction l with
  | nil => rfl
  | cons a l ih =>
    have ih' := ih (fun x hx y hy => h x (List.mem_cons_of_mem _ hx) y (List.mem_cons_of_mem _ hy))
    simp only [List.insertionSort]
    rw [ih']
    apply orderedInsert_congr
    intro b hb
    exact h a (List.mem_cons_self _ _) b
      (List.mem_cons_of_mem _ ((List.perm_insertionSort r' l).mem_iff.1 hb))

/-- Between two finite cells the comparator returns a number above 0 exactly when the
second cell is the larger one: the difference of two distinct doubles does not round to
0. -/
theorem cmpPairs_pos_iff {a b : Pair} {x y : ℚ} (ha : a.val = F64.fin x) (hx : F64.Rep x)
    (hb : b.val = F64.fin y) (hy : F64.Rep y) :
    F64.lt (F64.fin 0) (cmpPairs a b) = true ↔ x < y := by
  unfold cmpPairs
  rw [ha, hb]
  exact F64.lt_zero_sub_iff hx hy

/-- While every cell is a finite double, the sort driven by the comparator is the stable
sort by descending value. -/
theorem sortPairs_eq_stable (ps : List Pair)
    (hfin : ∀ p ∈ ps, ∃ q, p.val = F64.fin q ∧ F64.Rep q) :
    sortPairs ps = ps.insertionSort (fun a b => b.val.toRat ≤ a.val.toRat) := by
  unfold sortPairs
  apply insertionSort_congr
  intro a ha b hb
  obtain ⟨x, ex, hx⟩ := hfin a ha
  obtain ⟨y, ey, hy⟩ := hfin b hb
  have key := cmpPairs_pos_iff ex hx ey hy
  rw [ex, ey]
  simp only [F64.toRat]
  constructor
  · intro h
    by_contra hcon
    have : F64.lt (F64.fin 0) (cmpPairs a b) = true := key.2 (not_le.1 hcon)
    rw [h] at this
    exact Bool.noConfusion this
  · intro h
    cases hlt : F64.lt (F64.fin 0) (cmpPairs a b) with
    | false => rfl
    | true => exact absurd (key.1 hlt) (not_lt.2 h)

/-- While every cell is a finite double, the sorted list is in descending order of
`val`. -/
theorem sortPairs_sorted (ps : List Pair)
    (hfin : ∀ p ∈ ps, ∃ q, p.val = F64.fin q ∧ F64.Rep q) :
    (sortPairs ps).Pairwise (fun a b => F64.le b.val a.val = true) := by
  haveI : IsTotal Pair (fun a b => b.val.toRat ≤ a.val.toRat) :=
    ⟨fun a b => le_total b.val.toRat a.val.toRat⟩
  haveI : IsTrans Pair (fun a b => b.val.toRat ≤ a.val.toRat) :=
    ⟨fun _ _ _ h1 h2 => le_trans h2 h1⟩
  have hcongr := sortPairs_eq_stable ps hfin
  have hs : (ps.insertionSort (fun a b => b.val.toRat ≤ a.val.toRat)).Pairwise
      (fun a b => b.val.toRat ≤ a.val.toRat) :=
    List.sorted_insertionSort (fun (a b : Pair) => b.val.toRat ≤ a.val.toRat) ps
  rw [hcongr]
  refine List.Pairwise.imp_of_mem ?_ hs
  intro a b ha hb hab
  obtain ⟨x, ex, _⟩ := hfin a ((List.perm_insertionSort _ ps).mem_iff.1 ha)
  obtain ⟨y, ey, _⟩ := hfin b ((List.perm_insertionSort _ ps).mem_iff.1 hb)
  rw [ex, ey] at hab ⊢
  simpa [F64.le, F64.toRat] using hab

/-- While no IoU of the tracks against the batch is `NaN`, every cell of `pairs` is a
finite double. -/
theorem allPairs_fin (ts : List Track) (ds : List Box)
    (hnan : ∀ (i : Nat) (hi : i < ts.length) (j : Nat) (hj : j < ds.length),
      iou ts[i].bbox ds[j] ≠ F64.nan) :
    ∀ p ∈ allPairs (iouMatrix ts ds), ∃ q, p.val = F64.fin q ∧ F64.Rep q := by
  intro p hp
  rw [mem_allPairs] at hp
  obtain ⟨hi, hj, hval⟩ := hp
  rw [hval]
  exact iou_fin_of_ne_nan (hnan p.i hi p.j hj)

/-- The loop only appends to `matched`. -/
theorem greedyLoop_matched_mono (thr : ℚ) (ps : List Pair) (s : MatchState) {m : Nat × Nat}
    (hm : m ∈ s.matched) : m ∈ (greedyLoop thr ps s).matched := by
  induction ps generalizing s with
  | nil => exact hm
  | cons p ps ih =>
    unfold greedyLoop
    split_ifs with h1 h2
    · exact hm
    · exact ih _ (List.mem_append_left _ hm)
    · exact ih s hm

/-- The loop only deletes from the two unmatched sets. -/
theorem greedyLoop_unmatched_sub (thr : ℚ) (ps : List Pair) (s : MatchState) :
    (∀ i ∈ (greedyLoop thr ps s).unmatchedTracks, i ∈ s.unmatchedTracks) ∧
      ∀ j ∈ (greedyLoop thr ps s).unmatchedDetections, j ∈ s.unmatchedDetections := by
  induction ps generalizing s with
  | nil => exact ⟨fun _ h => h, fun _ h => h⟩
  | cons p ps ih =>
    unfold greedyLoop
    split_ifs with h1 h2
    · exact ⟨fun _ h => h, fun _ h => h⟩
    · obtain ⟨ia, ib⟩ := ih
        { matched := s.matched ++ [(p.i, p.j)],
          unmatchedTracks := s.unmatchedTracks.erase p.i,
          unmatchedDetections := s.unmatchedDetections.erase p.j }
      exact ⟨fun i h => List.mem_of_mem_erase (ia i h), fun j h => List.mem_of_mem_erase (ib j h)⟩
    · exact ih s

/-- Every match the loop adds comes from a cell of the list for which the test
`val < iouThreshold` is false. -/
theorem greedyLoop_matched_origin (thr : ℚ) (ps : List Pair) (s : MatchState) {m : Nat × Nat}
    (hm : m ∈ (greedyLoop thr ps s).matched) :
    m ∈ s.matched ∨ ∃ p ∈ ps, (p.i, p.j) = m ∧ F64.lt p.val (F64.fin thr) = false := by
  induction ps generalizing s with
  | nil => exact Or.inl hm
  | cons p ps ih =>
    unfold greedyLoop at hm
    split_ifs at hm with h1 h2
    · exact Or.inl hm
    · rcases ih _ hm with h | ⟨q, hq, e, hv⟩
      · rcases List.mem_append.1 h with h | h
        · exact Or.inl h
        · rw [List.mem_singleton] at h
          exact Or.inr ⟨p, List.mem_cons_self _ _, h.symm, Bool.eq_false_iff.2 h1⟩
      · exact Or.inr ⟨q, List.mem_cons_of_mem _ hq, e, hv⟩
    · rcases ih s hm with h | ⟨q, hq, e, hv⟩
      · exact Or.inl h
      · exact Or.inr ⟨q, List.mem_cons_of_mem _ hq, e, hv⟩

/-- On a list in descending order the loop leaves no cell at or above the threshold with
both its track and its detection unmatched. -/
theorem greedyLoop_maximal (thr : ℚ) (ps : List Pair) (s : MatchState)
    (hsort : ps.Pairwise (fun a b => F64.le b.val a.val = true))
    (hnd : s.unmatchedTracks.Nodup) {q : Pair} (hq : q ∈ ps)
    (hv : F64.le (F64.fin thr) q.val = true) :
    ¬ (q.i ∈ (greedyLoop thr ps s).unmatchedTracks ∧
        q.j ∈ (greedyLoop thr ps s).unmatchedDetections) := by
  induction ps generalizing s with
  | nil => simp at hq
  | cons p ps ih =>
    rw [List.pairwise_cons] at hsort
    have hpv : F64.le (F64.fin thr) p.val = true := by
      rcases List.mem_cons.1 hq with rfl | h
      · exact hv
      · exact f64_le_trans hv (hsort.1 q h)
    unfold greedyLoop
    rw [if_neg (by rw [f64_lt_false_of_le hpv]; exact Bool.false_ne_true)]
    split_ifs with h2
    · rcases List.mem_cons.1 hq with rfl | h
      · intro hcon
        have := (greedyLoop_unmatched_sub thr ps _).1 _ hcon.1
        exact (List.Nodup.not_mem_erase hnd) this
      · exact ih _ hsort.2 (hnd.erase _) h
    · rcases List.mem_cons.1 hq with rfl | h
      · intro hcon
        exact h2 ⟨(greedyLoop_unmatched_sub thr ps s).1 _ hcon.1,
          (greedyLoop_unmatched_sub thr ps s).2 _ hcon.2⟩
      · exact ih s hsort.2 hnd h

/-- On a list in descending order the loop matches a cell that is at or above the
threshold, whose track and detection are unmatched, and that is strictly above every
other cell of its row and of its column. -/
theorem greedyLoop_dominant (thr : ℚ) (ps : List Pair) (s : MatchState)
    (hsort : ps.Pairwise (fun a b => F64.le b.val a.val = true)) {p : Pair} (hp : p ∈ ps)
    (hv : F64.le (F64.fin thr) p.val = true) (hi : p.i ∈ s.unmatchedTracks)
    (hj : p.j ∈ s.unmatchedDetections)
    (hdom : ∀ q ∈ ps, (q.i = p.i ∨ q.j = p.j) → ¬ (q.i = p.i ∧ q.j = p.j) →
      F64.lt q.val p.val = true) :
    (p.i, p.j) ∈ (greedyLoop thr ps s).matched := by
  induction ps generalizing s with
  | nil => simp at hp
  | cons q ps ih =>
    rw [List.pairwise_cons] at hsort
    unfold greedyLoop
    by_cases hsame : q.i = p.i ∧ q.j = p.j
    · have hqv : F64.le (F64.fin thr) q.val = true := by
        rcases List.mem_cons.1 hp with rfl | h
        · exact hv
        · exact f64_le_trans hv (hsort.1 p h)
      rw [if_neg (by rw [f64_lt_false_of_le hqv]; exact Bool.false_ne_true),
        if_pos (by rw [hsame.1, hsame.2]; exact ⟨hi, hj⟩)]
      apply greedyLoop_matched_mono
      rw [hsame.1, hsame.2]
      exact List.mem_append_right _ (List.mem_singleton_self _)
    · have hpt : p ∈ ps := by
        rcases List.mem_cons.1 hp with rfl | h
        · exact absurd ⟨rfl, rfl⟩ hsame
        · exact h
      have hle : F64.le p.val q.val = true := hsort.1 p hpt
      have hne : ¬ (q.i = p.i ∨ q.j = p.j) := by
        intro hor
        have h1 := f64_le_false_of_lt (hdom q (List.mem_cons_self _ _) hor hsame)
        rw [hle] at h1
        exact Bool.noConfusion h1
      push_neg at hne
      rw [if_neg (by rw [f64_lt_false_of_le (f64_le_trans hv hle)]; exact Bool.false_ne_true)]
      have hdom' : ∀ r ∈ ps, (r.i = p.i ∨ r.j = p.j) → ¬ (r.i = p.i ∧ r.j = p.j) →
          F64.lt r.val p.val = true := fun r hr => hdom r (List.mem_cons_of_mem _ hr)
      split_ifs with h2
      · exact ih _ hsort.2 hpt ((List.mem_erase_of_ne (Ne.symm hne.1)).2 hi)
          ((List.mem_erase_of_ne (Ne.symm hne.2)).2 hj) hdom'
      · exact ih s hsort.2 hpt hi hj hdom'

theorem greedyMatch_snd_nodup (s : SimpleTracker) (dets : List Box) :
    ((greedyMatch s dets).matched.map Prod.snd).Nodup :=
  (List.nodup_append.1 ((greedyMatch_perm s dets).2.nodup_iff.2 (List.nodup_range _))).1

/-- A matched track index is no longer in the set of unmatched tracks, and likewise for a
matched detection index. -/
theorem greedyMatch_matched_not_unmatched (s : SimpleTracker) (dets : List Box)
    {m : Nat × Nat} (hm : m ∈ (greedyMatch s dets).matched) :
    m.1 ∉ (greedyMatch s dets).unmatchedTracks ∧
      m.2 ∉ (greedyMatch s dets).unmatchedDetections := by
  have h1 := (List.nodup_append.1
    ((greedyMatch_perm s dets).1.nodup_iff.2 (List.nodup_range _))).2.2
  have h2 := (List.nodup_append.1
    ((greedyMatch_perm s dets).2.nodup_iff.2 (List.nodup_range _))).2.2
  exact ⟨fun h => h1 (List.mem_map.2 ⟨m, hm, rfl⟩) h,
    fun h => h2 (List.mem_map.2 ⟨m, hm, rfl⟩) h⟩

/-- Every match of the pass is a cell of the IoU matrix for which the test
`val < iouThreshold` is false. -/
theorem greedyMatch_matched_iou (s : SimpleTracker) (dets : List Box) {m : Nat × Nat}
    (hm : m ∈ (greedyMatch s dets).matched) :
    ∃ (hi : m.1 < s.tracks.length) (hj : m.2 < dets.length),
      F64.lt (iou s.tracks[m.1].bbox dets[m.2]) (F64.fin s.iouThreshold) = false := by
  unfold greedyMatch at hm
  split_ifs at hm with h
  · rcases greedyLoop_matched_origin _ _ _ hm with h0 | ⟨p, hp, e, hv⟩
    · simp at h0
    · rw [mem_sortPairs, mem_allPairs] at hp
      obtain ⟨hi, hj, hval⟩ := hp
      subst e
      exact ⟨hi, hj, by rw [← hval]; exact hv⟩
  · simp at hm

/-- C11, as the code has it: in every state and for every batch, the matches of the
greedy pass are one-to-one: no track index occurs in two matches and no detection index
occurs in two matches; every index is in range; and for every matched pair the test
`iou < iouThreshold` of the loop is false, that is, its IoU is at least `iouThreshold`
or is `NaN`. -/
theorem greedy_matches_one_to_one (s : SimpleTracker) (d : List Box) :
    ((greedyMatch s d).matched.map Prod.fst).Nodup ∧
    ((greedyMatch s d).matched.map Prod.snd).Nodup ∧
    ∀ m ∈ (greedyMatch s d).matched,
      ∃ (hi : m.1 < s.tracks.length) (hj : m.2 < d.length),
        F64.lt (iou s.tracks[m.1].bbox d[m.2]) (F64.fin s.iouThreshold) = false ∧
        (iou s.tracks[m.1].bbox d[m.2] = F64.nan ∨
          F64.le (F64.fin s.iouThreshold) (iou s.tracks[m.1].bbox d[m.2]) = true) := by
  refine ⟨greedyMatch_fst_nodup s d, greedyMatch_snd_nodup s d, fun m hm => ?_⟩
  obtain ⟨hi, hj, h⟩ := greedyMatch_matched_iou s d hm
  exact ⟨hi, hj, h, f64_nan_or_le_of_lt_false h⟩

/-- C11 as stated fails for the default tracker that holds one track with the box
(0,0)-(2^600,2^600) and receives that box again: the IoU is `NaN`, the test
`NaN < 0.3` is false, and the pair is matched although its IoU is not at least the
threshold. -/
theorem greedy_matches_nan_pair :
    (greedyMatch (reached defaultIouThreshold 30 1 [[⟨0, 0, 2 ^ 600, 2 ^ 600, 1, "a"⟩]])
        [⟨0, 0, 2 ^ 600, 2 ^ 600, 1, "a"⟩]).matched = [(0, 0)] ∧
      (reached defaultIouThreshold 30 1 [[⟨0, 0, 2 ^ 600, 2 ^ 600, 1, "a"⟩]]).tracks =
        [⟨1, ⟨0, 0, 2 ^ 600, 2 ^ 600, 1, "a"⟩, 0, 1, 1⟩] ∧
      iou ⟨0, 0, 2 ^ 600, 2 ^ 600, 1, "a"⟩ ⟨0, 0, 2 ^ 600, 2 ^ 600, 1, "a"⟩ = F64.nan ∧
      F64.le (F64.fin defaultIouThreshold)
        (iou ⟨0, 0, 2 ^ 600, 2 ^ 600, 1, "a"⟩ ⟨0, 0, 2 ^ 600, 2 ^ 600, 1, "a"⟩) = false :=
  ⟨by decide!, by decide!, by decide!, by decide!⟩

/-- C16, as the code has it: greedy matching is maximal while no IoU is `NaN`.  In every
state and for every batch such that no IoU of a track against a detection of the batch
is `NaN`, after the pass there is no track index `i` and detection index `j`, both still
unmatched, with `iou tracks[i].bbox detections[j] ≥ iouThreshold`. -/
theorem greedy_maximal (s : SimpleTracker) (d : List Box)
    (hnan : ∀ (i : Nat) (hi : i < s.tracks.length) (j : Nat) (hj : j < d.length),
      iou s.tracks[i].bbox d[j] ≠ F64.nan) :
    ¬ ∃ (i j : Nat) (hi : i < s.tracks.length) (hj : j < d.length),
      i ∈ (greedyMatch s d).unmatchedTracks ∧ j ∈ (greedyMatch s d).unmatchedDetections ∧
        F64.le (F64.fin s.iouThreshold) (iou s.tracks[i].bbox d[j]) = true := by
  rintro ⟨i, j, hi, hj, hiu, hju, hv⟩
  have hp : (⟨i, j, iou s.tracks[i].bbox d[j]⟩ : Pair) ∈
      sortPairs (allPairs (iouMatrix s.tracks d)) := by
    rw [mem_sortPairs, mem_allPairs]
    exact ⟨hi, hj, rfl⟩
  unfold greedyMatch at hiu hju
  rw [if_pos ⟨by omega, by omega⟩] at hiu hju
  exact greedyLoop_maximal s.iouThreshold _ _
    (sortPairs_sorted _ (allPairs_fin s.tracks d hnan)) (List.nodup_range _) hp hv ⟨hiu, hju⟩

/-- C16 on the tracks of `gapBoxes` and the batch `gapDetections`: no IoU is `NaN`
(they are 1, 1/3, 1/3 and 0, rounded), the pass matches track 0 to detection 0, and the
pair left over, track 1 and detection 1, has IoU 0. -/
theorem greedy_maximal_witness :
    (∀ (i : Nat) (hi : i < gapState.tracks.length) (j : Nat) (hj : j < gapDetections.length),
      iou gapState.tracks[i].bbox gapDetections[j] ≠ F64.nan) ∧
    (greedyMatch gapState gapDetections).unmatchedTracks = [1] ∧
    (greedyMatch gapState gapDetections).unmatchedDetections = [1] ∧
    ¬ ∃ (i j : Nat) (hi : i < gapState.tracks.length) (hj : j < gapDetections.length),
      i ∈ (greedyMatch gapState gapDetections).unmatchedTracks ∧
        j ∈ (greedyMatch gapState gapDetections).unmatchedDetections ∧
        F64.le (F64.fin gapState.iouThreshold)
          (iou gapState.tracks[i].bbox gapDetections[j]) = true :=
  ⟨by decide!, by decide!, by decide!, greedy_maximal gapState gapDetections (by decide!)⟩

/-- C16 as stated fails for the tracks (0,0)-(2^600,2^600) and (0,0)-(10,10) with the
batch (0,0)-(10,10), (0,0)-(2^600,2^600).  The IoU matrix is `[[0, NaN], [1, 0]]`, so
`pairs` holds the values 0, `NaN`, 1, 0 in this order; the comparator returns `NaN` for
the first two neighbours and -1 for the last two, never a number above 0, and the sort
leaves the list as it is.  The loop breaks at the first cell, of IoU 0, and nothing is
matched, although track 1 and detection 0 have IoU 1 ≥ 0.3. -/
theorem greedy_maximal_nan :
    iouMatrix hugeState.tracks hugeDetections =
        [[F64.fin 0, F64.nan], [F64.fin 1, F64.fin 0]] ∧
      (sortPairs (allPairs (iouMatrix hugeState.tracks hugeDetections))).map Pair.val =
        [F64.fin 0, F64.nan, F64.fin 1, F64.fin 0] ∧
      (greedyMatch hugeState hugeDetections).matched = [] ∧
      ∃ (hi : 1 < hugeState.tracks.length) (hj : 0 < hugeDetections.length),
        1 ∈ (greedyMatch hugeState hugeDetections).unmatchedTracks ∧
          0 ∈ (greedyMatch hugeState hugeDetections).unmatchedDetections ∧
          F64.le (F64.fin hugeState.iouThreshold)
            (iou hugeState.tracks[1].bbox hugeDetections[0]) = true :=
  ⟨by decide!, by decide!, by decide!, by decide!⟩

/-- C20, as the code has it: a locally dominant pair is matched while no IoU is `NaN`.
In every state and for every batch such that no IoU of a track against a detection of
the batch is `NaN`, if the IoU of track `i` and detection `j`, as `iou` computes it, is
at least `iouThreshold` and is strictly greater than the IoU of every other pair with
track `i` and of every other pair with detection `j`, then the greedy pass matches track
`i` to detection `j`. -/
theorem dominant_pair_matched (s : SimpleTracker) (d : List Box) (i j : Nat)
    (hi : i < s.tracks.length) (hj : j < d.length)
    (hnan : ∀ (i' : Nat) (hi' : i' < s.tracks.length) (j' : Nat) (hj' : j' < d.length),
      iou s.tracks[i'].bbox d[j'] ≠ F64.nan)
    (hthr : F64.le (F64.fin s.iouThreshold) (iou s.tracks[i].bbox d[j]) = true)
    (hrow : ∀ (j' : Nat) (hj' : j' < d.length), j' ≠ j →
      F64.lt (iou s.tracks[i].bbox d[j']) (iou s.tracks[i].bbox d[j]) = true)
    (hcol : ∀ (i' : Nat) (hi' : i' < s.tracks.length), i' ≠ i →
      F64.lt (iou s.tracks[i'].bbox d[j]) (iou s.tracks[i].bbox d[j]) = true) :
    (i, j) ∈ (greedyMatch s d).matched := by
  have hp : (⟨i, j, iou s.tracks[i].bbox d[j]⟩ : Pair) ∈
      sortPairs (allPairs (iouMatrix s.tracks d)) := by
    rw [mem_sortPairs, mem_allPairs]
    exact ⟨hi, hj, rfl⟩
  unfold greedyMatch
  rw [if_pos ⟨by omega, by omega⟩]
  refine greedyLoop_dominant s.iouThreshold _ _
    (sortPairs_sorted _ (allPairs_fin s.tracks d hnan)) hp hthr
    (List.mem_range.2 hi) (List.mem_range.2 hj) ?_
  rintro ⟨qi, qj, qv⟩ hq hor hnot
  rw [mem_sortPairs, mem_allPairs] at hq
  obtain ⟨hqi, hqj, hval⟩ := hq
  simp only at hqi hqj hval hor hnot ⊢
  rw [hval]
  rcases hor with h | h
  · subst h
    exact hrow qj hqj (fun e => hnot ⟨rfl, e⟩)
  · subst h
    exact hcol qi hqi (fun e => hnot ⟨e, rfl⟩)

/-- C20 on the tracks of `gapBoxes` and the batch `gapDetections`: no IoU is `NaN`, track
0 and detection 0 have IoU 1, the other pairs with track 0 or detection 0 have the IoU
1/3 rounded, and the pass matches track 0 to detection 0. -/
theorem dominant_pair_matched_witness :
    ∃ (hi : 0 < gapState.tracks.length) (hj : 0 < gapDetections.length),
      ((∀ (i' : Nat) (hi' : i' < gapState.tracks.length) (j' : Nat)
          (hj' : j' < gapDetections.length),
          iou gapState.tracks[i'].bbox gapDetections[j'] ≠ F64.nan) ∧
        F64.le (F64.fin gapState.iouThreshold)
          (iou gapState.tracks[0].bbox gapDetections[0]) = true ∧
        (∀ (j' : Nat) (hj' : j' < gapDetections.length), j' ≠ 0 →
          F64.lt (iou gapState.tracks[0].bbox gapDetections[j'])
            (iou gapState.tracks[0].bbox gapDetections[0]) = true) ∧
        (∀ (i' : Nat) (hi' : i' < gapState.tracks.length), i' ≠ 0 →
          F64.lt (iou gapState.tracks[i'].bbox gapDetections[0])
            (iou gapState.tracks[0].bbox gapDetections[0]) = true)) ∧
      (0, 0) ∈ (greedyMatch gapState gapDetections).matched :=
  ⟨by decide!, by decide!, ⟨by decide!, by decide!, by decide!, by decide!⟩,
    dominant_pair_matched gapState gapDetections 0 0 (by decide!) (by decide!) (by decide!)
      (by decide!) (by decide!) (by decide!)⟩

/-- Two pairs whose exact quotients differ can have the same IoU in double arithmetic.
Against the track (0,0)-(2^30,2^30), the detections (0,0)-(2^30+1,2^30+1) and
(0,0)-(2^30+2,2^30) have the exact quotients `2^60 / (2^60 + 2^31 + 1)` and
`2^60 / (2^60 + 2^31)`, but the area of the first rounds to `2^60 + 2^31` and the two
computed IoUs are equal; the stable sort keeps the row-major order and the pass matches
the track to the first detection. -/
theorem iou_rounding_tie :
    iou ⟨0, 0, 2 ^ 30, 2 ^ 30, 1, "a"⟩ ⟨0, 0, 2 ^ 30 + 1, 2 ^ 30 + 1, 1, "b"⟩ =
        iou ⟨0, 0, 2 ^ 30, 2 ^ 30, 1, "a"⟩ ⟨0, 0, 2 ^ 30 + 2, 2 ^ 30, 1, "c"⟩ ∧
      ((2 : ℚ) ^ 60 / (2 ^ 60 + 2 ^ 31 + 1) < 2 ^ 60 / (2 ^ 60 + 2 ^ 31)) ∧
      (greedyMatch (reached defaultIouThreshold 30 1 [[⟨0, 0, 2 ^ 30, 2 ^ 30, 1, "a"⟩]])
        [⟨0, 0, 2 ^ 30 + 1, 2 ^ 30 + 1, 1, "b"⟩, ⟨0, 0, 2 ^ 30 + 2, 2 ^ 30, 1, "c"⟩]).matched =
        [(0, 0)] :=
  ⟨by decide!, by norm_num, by decide!⟩

/-- C20 as stated fails for the tracks (0,0)-(2^700,2^700) and (0,0)-(4,4) with the
batch (0,0)-(4,4), (0,0)-(2^700,2^700).  Track 1 and detection 0 have IoU 1, which is at
least 0.3 and strictly above the IoU 0 of the other pair of track 1 and the IoU 0 of
the other pair of detection 0; but track 0 and detection 1 have the IoU `NaN`, `pairs`
holds the values 0, `NaN`, 1, 0, the sort leaves it so, and the loop breaks at the
first cell: track 1 is not matched to detection 0. -/
theorem dominant_pair_unmatched_nan :
    ∃ (s : SimpleTracker) (d : List Box) (hi : 1 < s.tracks.length) (hj : 0 < d.length),
      s = reached defaultIouThreshold 30 1
        [[⟨0, 0, 2 ^ 700, 2 ^ 700, 1, "a"⟩, ⟨0, 0, 4, 4, 1, "b"⟩]] ∧
      d = [⟨0, 0, 4, 4, 1, "b"⟩, ⟨0, 0, 2 ^ 700, 2 ^ 700, 1, "a"⟩] ∧
      iouMatrix s.tracks d = [[F64.fin 0, F64.nan], [F64.fin 1, F64.fin 0]] ∧
      F64.le (F64.fin s.iouThreshold) (iou s.tracks[1].bbox d[0]) = true ∧
      (∀ (j' : Nat) (hj' : j' < d.length), j' ≠ 0 →
        F64.lt (iou s.tracks[1].bbox d[j']) (iou s.tracks[1].bbox d[0]) = true) ∧
      (∀ (i' : Nat) (hi' : i' < s.tracks.length), i' ≠ 1 →
        F64.lt (iou s.tracks[i'].bbox d[0]) (iou s.tracks[1].bbox d[0]) = true) ∧
      (1, 0) ∉ (greedyMatch s d).matched :=
  ⟨reached defaultIouThreshold 30 1
      [[⟨0, 0, 2 ^ 700, 2 ^ 700, 1, "a"⟩, ⟨0, 0, 4, 4, 1, "b"⟩]],
    [⟨0, 0, 4, 4, 1, "b"⟩, ⟨0, 0, 2 ^ 700, 2 ^ 700, 1, "a"⟩], by decide!, by decide!, rfl, rfl,
    by decide!, by decide!, by decide!, by decide!, by decide!⟩

/-! ## Matched and created tracks -/

theorem greedyMatch_unmatchedDetections_lt (s : SimpleTracker) (dets : List Box) {j : Nat}
    (hj : j ∈ (greedyMatch s dets).unmatchedDetections) : j < dets.length :=
  List.mem_range.1 ((greedyMatch_perm s dets).2.subset (List.mem_append_right _ hj))

theorem unmatchedBoxes_length (dets : List Box) (u : List Nat) (h : ∀ j ∈ u, j < dets.length) :
    (unmatchedBoxes dets u).length = u.length := by
  induction u with
  | nil => rfl
  | cons j u ih =>
    have hj : j < dets.length := h j (List.mem_cons_self _ _)
    have := ih (fun k hk => h k (List.mem_cons_of_mem _ hk))
    simp only [unmatchedBoxes, List.filterMap_cons, List.getElem?_eq_getElem hj,
      List.length_cons] at this ⊢
    rw [this]

/-- Looking up all the indices of a list, in order, gives the list back. -/
theorem unmatchedBoxes_range (dets : List Box) :
    unmatchedBoxes dets (List.range dets.length) = dets := by
  unfold unmatchedBoxes
  induction dets with
  | nil => rfl
  | cons a ds ih =>
    rw [List.length_cons, List.range_succ_eq_map, List.filterMap_cons]
    simp only [List.getElem?_cons_zero, List.filterMap_map]
    congr 1
    have key : ((fun j => (a :: ds)[j]?) ∘ Nat.succ) = fun j => ds[j]? := by
      funext j; simp
    rw [key]; exact ih

/-- The number of tracks before removal: the old ones and one for each unmatched
detection. -/
theorem agedState_length (s : SimpleTracker) (dets : List Box) :
    (agedState s dets).tracks.length =
      s.tracks.length + (greedyMatch s dets).unmatchedDetections.length := by
  rw [agedState_tracks, List.length_map, List.length_append, applyMatches_length,
    newTracks_length,
    unmatchedBoxes_length _ _ (fun j hj => greedyMatch_unmatchedDetections_lt s dets hj)]

/-- The track matched to detection `j`, after the aging loop. -/
theorem agedState_matched_pair (s : SimpleTracker) (dets : List Box) {k j : Nat}
    (hm : (k, j) ∈ (greedyMatch s dets).matched) (hk : k < s.tracks.length)
    (hj : j < dets.length) :
    (agedState s dets).tracks[k]? =
      some { id := s.tracks[k].id, bbox := dets[j], age := 0, hits := s.tracks[k].hits + 1,
             lastSeenFrame := s._frameCount + 1 } := by
  rw [agedState_getElem?, List.getElem?_append_left (by rw [applyMatches_length]; exact hk),
    applyMatches_getElem?_of_mem _ _ _ _ _ _ (greedyMatch_fst_nodup s dets) hm hj,
    List.getElem?_eq_getElem hk]
  simp [ageTrack, touchTrack]

/-- A track last seen in the new frame passes the filter when `maxAge` is not negative. -/
theorem mem_update_of_seen {s : SimpleTracker} {dets : List Box} {t : Track}
    (ht : t ∈ (agedState s dets).tracks) (hseen : t.lastSeenFrame = s._frameCount + 1)
    (hma : 0 ≤ s.maxAge) : t ∈ (s.update dets).1.tracks := by
  rw [update_tracks, List.mem_filter]
  refine ⟨ht, ?_⟩
  unfold keepTrack
  rw [hseen, sub_self]
  simpa using hma

/-- C12: a track that the greedy pass matches to detection `j` keeps its id, takes the
box of that detection, has its hits increased by exactly 1, is last seen in the new
frame and has age 0; no track is created for detection `j`, since the tracks created
are one for each index still in `unmatchedDetections` and `j` is not among them; and
with `maxAge ≥ 0` the track is live after the call.  This holds in every state, so in
every reachable one. -/
theorem matched_track_updated (s : SimpleTracker) (d : List Box) (k j : Nat)
    (hm : (k, j) ∈ (greedyMatch s d).matched) :
    ∃ (hk : k < s.tracks.length) (hj : j < d.length),
      (agedState s d).tracks[k]? =
        some { id := s.tracks[k].id, bbox := d[j], age := 0, hits := s.tracks[k].hits + 1,
               lastSeenFrame := (s.update d).1._frameCount } ∧
      j ∉ (greedyMatch s d).unmatchedDetections ∧
      (agedState s d).tracks.length =
        s.tracks.length + (greedyMatch s d).unmatchedDetections.length ∧
      (0 ≤ s.maxAge →
        ({ id := s.tracks[k].id, bbox := d[j], age := 0, hits := s.tracks[k].hits + 1,
           lastSeenFrame := (s.update d).1._frameCount } : Track) ∈ (s.update d).1.tracks) := by
  obtain ⟨hk, hj⟩ := greedyMatch_mem_lt s d hm
  have hget := agedState_matched_pair s d hm hk hj
  refine ⟨hk, hj, ?_, (greedyMatch_matched_not_unmatched s d hm).2, agedState_length s d, ?_⟩
  · rw [update_frameCount]; exact hget
  · intro hma
    rw [update_frameCount]
    exact mem_update_of_seen (List.getElem?_mem hget) rfl hma

/-- C12 on scenario B: after `[(0,0)-(10,10)]` the batch `[(1,1)-(11,11)]` is matched to
track 0 (IoU 81/119, rounded to a double, threshold 0.3); the output is the single track
with id 1, the new box, hits 2 and age 0, and no track is created. -/
theorem matched_track_updated_witness :
    ((0, 0) ∈ (greedyMatch scenarioAState [scenarioB]).matched) ∧
    (iou scenarioA scenarioB = F64.round (81 / 119) ∧
      (scenarioAState.update [scenarioB]).1.tracks = [⟨1, scenarioB, 0, 2, 2⟩] ∧
      (scenarioAState.update [scenarioB]).2 = [⟨1, scenarioB, true, 0⟩]) ∧
    ∃ (hk : 0 < scenarioAState.tracks.length) (hj : 0 < [scenarioB].length),
      (agedState scenarioAState [scenarioB]).tracks[0]? =
        some { id := scenarioAState.tracks[0].id, bbox := [scenarioB][0], age := 0,
               hits := scenarioAState.tracks[0].hits + 1,
               lastSeenFrame := (scenarioAState.update [scenarioB]).1._frameCount } ∧
      0 ∉ (greedyMatch scenarioAState [scenarioB]).unmatchedDetections ∧
      (agedState scenarioAState [scenarioB]).tracks.length =
        scenarioAState.tracks.length +
          (greedyMatch scenarioAState [scenarioB]).unmatchedDetections.length ∧
      (0 ≤ scenarioAState.maxAge →
        ({ id := scenarioAState.tracks[0].id, bbox := [scenarioB][0], age := 0,
           hits := scenarioAState.tracks[0].hits + 1,
           lastSeenFrame := (scenarioAState.update [scenarioB]).1._frameCount } : Track) ∈
          (scenarioAState.update [scenarioB]).1.tracks) :=
  ⟨by decide!, ⟨by decide!, by decide!, by decide!⟩,
    matched_track_updated scenarioAState [scenarioB] 0 0 (by decide!)⟩

/-- C17: greedy matching is not globally optimal.  There are a state reached from the
default tracker (threshold 0.3) and a batch for which some one-to-one assignment `alt`,
all of whose pairs have IoU at least the threshold, has strictly more pairs than the
greedy pass finds: with tracks (0,0)-(10,10) and (5,0)-(15,10) and detections
(0,0)-(10,10) and (-5,0)-(5,10) the pass matches only track 0 with detection 0 (IoU 1),
while track 0 with detection 1 and track 1 with detection 0 (IoU 1/3 each, rounded to
a double) is an assignment of two pairs.  In the output track 2 has aged and a new track 3 holds the
second detection. -/
theorem greedy_not_optimal :
    ∃ (batches : List (List Box)) (d : List Box) (alt : List (Nat × Nat)),
      (alt.map Prod.fst).Nodup ∧ (alt.map Prod.snd).Nodup ∧
      (∀ m ∈ alt, ∃ (hi : m.1 < (reached defaultIouThreshold 30 1 batches).tracks.length)
        (hj : m.2 < d.length),
          F64.le (F64.fin (reached defaultIouThreshold 30 1 batches).iouThreshold)
            (iou (reached defaultIouThreshold 30 1 batches).tracks[m.1].bbox d[m.2]) = true) ∧
      (greedyMatch (reached defaultIouThreshold 30 1 batches) d).matched.length < alt.length ∧
      (greedyMatch (reached defaultIouThreshold 30 1 batches) d).matched = [(0, 0)] ∧
      alt = [(0, 1), (1, 0)] ∧
      ((reached defaultIouThreshold 30 1 batches).update d).2 =
        [⟨1, ⟨0, 0, 10, 10, 1, "a"⟩, true, 0⟩, ⟨2, ⟨5, 0, 15, 10, 1, "b"⟩, true, 1⟩,
          ⟨3, ⟨-5, 0, 5, 10, 1, "c"⟩, true, 0⟩] :=
  ⟨[gapBoxes], gapDetections, [(0, 1), (1, 0)], by decide, by decide, by decide!, by decide!,
    by decide!, rfl, by decide!⟩

/-! ## First detections -/

theorem ageTrack_of_fresh {fc : ℤ} {t : Track} (h1 : t.lastSeenFrame = fc) (h2 : t.age = 0) :
    ageTrack fc t = t := by
  unfold ageTrack
  rw [if_neg (not_not.2 h1)]
  cases t
  simp only at h2
  simp [h2]

theorem map_ageTrack_newTracks (n fc : ℤ) (ds : List Box) :
    (newTracks n fc ds).map (ageTrack fc) = newTracks n fc ds := by
  conv_rhs => rw [← List.map_id (newTracks n fc ds)]
  apply List.map_congr_left
  intro t ht
  have := mem_newTracks ht
  rw [ageTrack_of_fresh this.2.2.2.2 this.2.2.1]; rfl

theorem filter_keepTrack_newTracks (n fc : ℤ) (ma : ℚ) (hma : 0 ≤ ma) (ds : List Box) :
    (newTracks n fc ds).filter (keepTrack fc ma) = newTracks n fc ds := by
  apply List.filter_eq_self.2
  intro t ht
  unfold keepTrack
  rw [(mem_newTracks ht).2.2.2.2, sub_self]
  simpa using hma

theorem greedyMatch_of_no_tracks (s : SimpleTracker) (dets : List Box) (h0 : s.tracks = []) :
    greedyMatch s dets =
      { matched := [], unmatchedTracks := [],
        unmatchedDetections := List.range dets.length } := by
  simp [greedyMatch, h0]

/-- With no live track every detection of the batch becomes a track. -/
theorem update_tracks_of_no_tracks (s : SimpleTracker) (dets : List Box) (h0 : s.tracks = [])
    (hma : 0 ≤ s.maxAge) :
    (s.update dets).1.tracks = newTracks s._nextId (s._frameCount + 1) dets := by
  rw [update_tracks, agedState_tracks, greedyMatch_of_no_tracks s dets h0, h0]
  simp only [applyMatches, List.foldl_nil, List.nil_append, unmatchedBoxes_range]
  rw [map_ageTrack_newTracks, filter_keepTrack_newTracks _ _ _ hma]

theorem update_nextId_of_no_tracks (s : SimpleTracker) (dets : List Box) (h0 : s.tracks = []) :
    (s.update dets).1._nextId = s._nextId + dets.length := by
  rw [update_nextId, agedState_nextId, greedyMatch_of_no_tracks s dets h0]
  simp only [unmatchedBoxes_range]

/-- C13: in a state with no live track and `maxAge ≥ 0`, a call with `N` detections
creates exactly `N` tracks: `_nextId` grows by `N`, the live list and the output have
`N` entries, and entry `i` (from 0) is the track with id `_nextId + i`, the box of
detection `i`, age 0, hits 1, last seen in the new frame, emitted with
`confirmed = (1 ≥ minHits)`. -/
theorem first_detections_become_tracks (s : SimpleTracker) (d : List Box)
    (h0 : s.tracks = []) (hma : 0 ≤ s.maxAge) :
    (s.update d).1._nextId = s._nextId + d.length ∧
    (s.update d).1.tracks.length = d.length ∧
    (s.update d).2.length = d.length ∧
    ∀ (i : Nat) (hi : i < d.length),
      (s.update d).1.tracks[i]? =
        some { id := s._nextId + i, bbox := d[i], age := 0, hits := 1,
               lastSeenFrame := s._frameCount + 1 } ∧
      (s.update d).2[i]? =
        some { id := s._nextId + i, bbox := d[i], confirmed := decide (s.minHits ≤ 1),
               age := 0 } := by
  have ht := update_tracks_of_no_tracks s d h0 hma
  have hget : ∀ (i : Nat) (hi : i < d.length), (s.update d).1.tracks[i]? =
      some { id := s._nextId + i, bbox := d[i], age := 0, hits := 1,
             lastSeenFrame := s._frameCount + 1 } := by
    intro i hi
    rw [ht, newTracks_getElem?, List.getElem?_eq_getElem hi]; rfl
  refine ⟨update_nextId_of_no_tracks s d h0, by rw [ht, newTracks_length],
    by rw [update_output, List.length_map, ht, newTracks_length], fun i hi => ⟨hget i hi, ?_⟩⟩
  rw [update_output, List.getElem?_map, hget i hi]
  simp [emit]

/-- C13 on scenario E: the default tracker and two boxes that do not overlap give ids 1
and 2, both confirmed, both with age 0. -/
theorem first_detections_become_tracks_witness :
    (SimpleTracker.newDefault.tracks = [] ∧ 0 ≤ SimpleTracker.newDefault.maxAge) ∧
    (SimpleTracker.newDefault.update [scenarioA]).2 = [⟨1, scenarioA, true, 0⟩] ∧
    (SimpleTracker.newDefault.update
        [scenarioA, ⟨20, 20, 30, 30, 4 / 5, "car"⟩]).2[0]? =
      some ⟨1, scenarioA, true, 0⟩ ∧
    (SimpleTracker.newDefault.update
        [scenarioA, ⟨20, 20, 30, 30, 4 / 5, "car"⟩]).2[1]? =
      some ⟨2, ⟨20, 20, 30, 30, 4 / 5, "car"⟩, true, 0⟩ ∧
    (SimpleTracker.newDefault.update
        [scenarioA, ⟨20, 20, 30, 30, 4 / 5, "car"⟩]).1._nextId = 3 :=
  ⟨⟨rfl, by decide!⟩, by decide!,
    ((first_detections_become_tracks SimpleTracker.newDefault
      [scenarioA, ⟨20, 20, 30, 30, 4 / 5, "car"⟩] rfl (by decide!)).2.2.2 0 (by decide)).2,
    ((first_detections_become_tracks SimpleTracker.newDefault
      [scenarioA, ⟨20, 20, 30, 30, 4 / 5, "car"⟩] rfl (by decide!)).2.2.2 1 (by decide)).2,
    (first_detections_become_tracks SimpleTracker.newDefault
      [scenarioA, ⟨20, 20, 30, 30, 4 / 5, "car"⟩] rfl (by decide!)).1⟩

/-! ## Construction -/

/-- C14, as the code has it: an invalid configuration is not rejected at construction.
For every options object the constructor checks none of the three values and returns a
tracker that stores them as given, negative or zero values included, and that stores the
defaults 0.3, 30 and 1 for missing ones, with no tracks, `_nextId = 1` and
`_frameCount = 0`; without an argument all three defaults are taken.  What the
constructor does reject is the argument `null`, with a `TypeError`. -/
theorem construct_stores_options :
    (∀ thr ma mh : Option ℚ,
      SimpleTracker.construct (OptionsArg.object thr ma mh) =
        Except.ok { iouThreshold := thr.getD defaultIouThreshold, maxAge := ma.getD 30,
                    minHits := mh.getD 1, tracks := [], _nextId := 1, _frameCount := 0 }) ∧
      (∀ thr ma mh : ℚ,
        SimpleTracker.construct (OptionsArg.object (some thr) (some ma) (some mh)) =
          Except.ok { iouThreshold := thr, maxAge := ma, minHits := mh, tracks := [],
                      _nextId := 1, _frameCount := 0 }) ∧
      SimpleTracker.construct OptionsArg.undefined =
        Except.ok { iouThreshold := defaultIouThreshold, maxAge := 30, minHits := 1,
                    tracks := [], _nextId := 1, _frameCount := 0 } ∧
      SimpleTracker.construct OptionsArg.null = Except.error "TypeError" :=
  ⟨fun _ _ _ => rfl, fun _ _ _ => rfl, rfl, rfl⟩

/-- C14 fails at `{ iouThreshold: -1, maxAge: -1, minHits: 0 }`: the constructor does not
fail, it returns a tracker holding these values, and that tracker drops the track of a
detection in the call that creates it. -/
theorem construct_invalid_accepted :
    SimpleTracker.construct (OptionsArg.object (some (-1)) (some (-1)) (some 0)) =
        Except.ok { iouThreshold := -1, maxAge := -1, minHits := 0, tracks := [],
                    _nextId := 1, _frameCount := 0 } ∧
      (∀ e : String,
        SimpleTracker.construct (OptionsArg.object (some (-1)) (some (-1)) (some 0)) ≠
          Except.error e) ∧
      ((SimpleTracker.new (-1) (-1) 0).update [scenarioA]).2 = [] :=
  ⟨rfl, fun _ h => Except.noConfusion h, by decide!⟩

/-- The literal `0.3` is the number 3/10 rounded to a double. -/
theorem defaultIouThreshold_eq : F64.round (3 / 10) = F64.fin defaultIouThreshold := by
  decide!

/-! ## The clamped reference -/

/-- For a box with `x1 ≤ x2` and `y1 ≤ y2` clamping changes nothing. -/
theorem clampedArea_of_wellFormed (a : Box) (hx : a.x1 ≤ a.x2) (hy : a.y1 ≤ a.y2) :
    clampedArea a = boxArea a := by
  unfold clampedArea boxArea sideW sideH
  rw [sub_fin_fin, sub_fin_fin, mathMax_zero_of_nonneg _ (by linarith),
    mathMax_zero_of_nonneg _ (by linarith)]

/-- A box whose unclamped area is finite has a finite clamped area. -/
theorem clampedArea_fin_of_boxArea_fin (a : Box) {A : ℚ} (h : boxArea a = F64.fin A) :
    ∃ C, clampedArea a = F64.fin C := by
  obtain ⟨W, H, eW, eH, e⟩ := mul_eq_fin h
  unfold clampedArea
  rw [eW, eH]
  show ∃ C, F64.round (max 0 W * max 0 H) = F64.fin C
  by_cases hW : 0 ≤ W
  · by_cases hH : 0 ≤ H
    · rw [max_eq_right hW, max_eq_right hH]
      exact ⟨A, e⟩
    · rw [max_eq_left (le_of_not_le hH), mul_zero]
      exact ⟨0, F64.round_zero⟩
  · rw [max_eq_left (le_of_not_le hW), zero_mul]
    exact ⟨0, F64.round_zero⟩

/-- With finite unclamped areas and an empty intersection the reference is 0. -/
theorem iouClamped_zero_of_side_zero (a b : Box) {A B : ℚ} (hA : boxArea a = F64.fin A)
    (hB : boxArea b = F64.fin B) (h : interW a b = F64.fin 0 ∨ interH a b = F64.fin 0) :
    iouClamped a b = F64.fin 0 := by
  obtain ⟨i, ei, _⟩ := interArea_fin_of_boxArea_fin a b hA
  have hi : interArea a b = F64.fin 0 := by
    rcases interArea_cases_of_zero a b h with e | e
    · exact e
    · rw [ei] at e; exact F64.noConfusion e
  obtain ⟨CA, eA⟩ := clampedArea_fin_of_boxArea_fin a hA
  obtain ⟨CB, eB⟩ := clampedArea_fin_of_boxArea_fin b hB
  unfold iouClamped
  rw [hi, eA, eB]
  exact guardedDiv_zero_of_ne_nan _ (sub_fin_ne_nan (add_fin_ne_nan CA CB) 0)

/-- C15, as the code has it: `iou` equals the reference in which the width and height of
each box are clamped at 0 before its area is computed whenever both boxes are
well-formed (`x1 ≤ x2` and `y1 ≤ y2`) or neither unclamped box area overflows, that is
both `boxAArea` and `boxBArea` are finite; this covers malformed boxes of finite
area. -/
theorem iou_eq_iouClamped (a b : Box)
    (h : (a.x1 ≤ a.x2 ∧ a.y1 ≤ a.y2 ∧ b.x1 ≤ b.x2 ∧ b.y1 ≤ b.y2) ∨
      ((boxArea a).isFinite = true ∧ (boxArea b).isFinite = true)) :
    iou a b = iouClamped a b := by
  have hwf : (a.x1 ≤ a.x2 ∧ a.y1 ≤ a.y2 ∧ b.x1 ≤ b.x2 ∧ b.y1 ≤ b.y2) →
      iou a b = iouClamped a b := by
    rintro ⟨h1, h2, h3, h4⟩
    rw [iou_unfold]
    unfold iouClamped unionArea
    rw [clampedArea_of_wellFormed a h1 h2, clampedArea_of_wellFormed b h3 h4]
  rcases h with h | ⟨hA, hB⟩
  · exact hwf h
  · cases eA : boxArea a with
    | fin A =>
      cases eB : boxArea b with
      | fin B =>
        have h1 := min_le_left a.x2 b.x2
        have h2 := le_max_left a.x1 b.x1
        have h3 := min_le_left a.y2 b.y2
        have h4 := le_max_left a.y1 b.y1
        have h5 := min_le_right a.x2 b.x2
        have h6 := le_max_right a.x1 b.x1
        have h7 := min_le_right a.y2 b.y2
        have h8 := le_max_right a.y1 b.y1
        have hzero : (interW a b = F64.fin 0 ∨ interH a b = F64.fin 0) →
            iou a b = iouClamped a b := fun hs => by
          rw [iou_zero_of_side_zero a b eA eB hs, iouClamped_zero_of_side_zero a b eA eB hs]
        by_cases c1 : a.x1 ≤ a.x2
        · by_cases c2 : a.y1 ≤ a.y2
          · by_cases c3 : b.x1 ≤ b.x2
            · by_cases c4 : b.y1 ≤ b.y2
              · exact hwf ⟨c1, c2, c3, c4⟩
              · exact hzero (Or.inr (interH_of_nonpos a b (by linarith)))
            · exact hzero (Or.inl (interW_of_nonpos a b (by linarith)))
          · exact hzero (Or.inr (interH_of_nonpos a b (by linarith)))
        · exact hzero (Or.inl (interW_of_nonpos a b (by linarith)))
      | nan => rw [eB] at hB; simp [F64.isFinite] at hB
      | posInf => rw [eB] at hB; simp [F64.isFinite] at hB
      | negInf => rw [eB] at hB; simp [F64.isFinite] at hB
    | nan => rw [eA] at hA; simp [F64.isFinite] at hA
    | posInf => rw [eA] at hA; simp [F64.isFinite] at hA
    | negInf => rw [eA] at hA; simp [F64.isFinite] at hA

/-- C15 at the malformed box (10,0)-(0,10), of width -10, against (0,0)-(10,10): both
unclamped areas are finite (-100 and 100), and `iou` and the reference are both 0. -/
theorem iou_eq_iouClamped_witness :
    ((boxArea ⟨10, 0, 0, 10, 1, "a"⟩).isFinite = true ∧
        (boxArea ⟨0, 0, 10, 10, 1, "b"⟩).isFinite = true) ∧
      boxArea ⟨10, 0, 0, 10, 1, "a"⟩ = F64.fin (-100) ∧
      iouClamped ⟨10, 0, 0, 10, 1, "a"⟩ ⟨0, 0, 10, 10, 1, "b"⟩ = F64.fin 0 ∧
      iou ⟨10, 0, 0, 10, 1, "a"⟩ ⟨0, 0, 10, 10, 1, "b"⟩ =
        iouClamped ⟨10, 0, 0, 10, 1, "a"⟩ ⟨0, 0, 10, 10, 1, "b"⟩ :=
  ⟨⟨by decide!, by decide!⟩, by decide!, by decide!,
    iou_eq_iouClamped ⟨10, 0, 0, 10, 1, "a"⟩ ⟨0, 0, 10, 10, 1, "b"⟩
      (Or.inr ⟨by decide!, by decide!⟩)⟩

/-- C15 as stated fails at (0,0)-(2^601,2^601) and (2^601,0)-(0,2^601), the second of
width `-2^601`: the unclamped areas are `+Infinity` and `-Infinity`, their sum is `NaN`
and `iou` returns `NaN`; the reference clamps the second width to 0, its denominator is
`Infinity + 0 - 0`, and it gives 0. -/
theorem iou_ne_iouClamped :
    iou ⟨0, 0, 2 ^ 601, 2 ^ 601, 1, "a"⟩ ⟨2 ^ 601, 0, 0, 2 ^ 601, 1, "b"⟩ = F64.nan ∧
      iouClamped ⟨0, 0, 2 ^ 601, 2 ^ 601, 1, "a"⟩ ⟨2 ^ 601, 0, 0, 2 ^ 601, 1, "b"⟩ =
        F64.fin 0 ∧
      iou ⟨0, 0, 2 ^ 601, 2 ^ 601, 1, "a"⟩ ⟨2 ^ 601, 0, 0, 2 ^ 601, 1, "b"⟩ ≠
        iouClamped ⟨0, 0, 2 ^ 601, 2 ^ 601, 1, "a"⟩ ⟨2 ^ 601, 0, 0, 2 ^ 601, 1, "b"⟩ :=
  ⟨by decide!, by decide!, by decide!⟩

/-! ## A call without detections -/

theorem update_nil_eq_of_no_tracks (s : SimpleTracker) (h0 : s.tracks = []) :
    s.update [] = ({ s with _frameCount := s._frameCount + 1 }, []) := by
  have h1 : (s.update []).1.tracks = [] := by rw [update_nil_tracks, h0]; rfl
  have h2 : (s.update []).2 = [] := by rw [update_output, h1]; rfl
  have h3 : (s.update []).1 = { s with _frameCount := s._frameCount + 1 } := by
    have e1 := update_nil_nextId s
    have e2 := update_frameCount s []
    have e3 := update_maxAge s []
    have e4 := update_minHits s []
    have e5 := update_iouThreshold s []
    cases hs : (s.update []).1
    rw [hs] at h1 e1 e2 e3 e4 e5
    simp only at h1 e1 e2 e3 e4 e5
    subst h1 e1 e2 e3 e4 e5
    cases s
    simp only at h0
    subst h0
    rfl
  exact Prod.ext h3 h2

/-- No track of a reachable state is stamped with the frame after the current one. -/
theorem reached_lastSeenFrame_ne (thr ma mh : ℚ) (batches : List (List Box)) {t : Track}
    (ht : t ∈ (reached thr ma mh batches).tracks) :
    t.lastSeenFrame ≠ (reached thr ma mh batches)._frameCount + 1 := by
  have hinv : Inv (reached thr ma mh batches) := inv_reachable thr ma mh batches
  have := (hinv.2.2 t ht).2.2.1
  omega

/-- C18: in every state `update []` leaves `_nextId` unchanged and creates no track (the
ids after the call are a sublist of the ids before), and with no live tracks the call
returns the empty list and changes nothing but `_frameCount`; and in every state
reachable from a fresh tracker by `update` calls, every track that survives `update []`
keeps its id, bbox, hits and lastSeenFrame and has its age increased by exactly 1. -/
theorem update_nil_spec (s : SimpleTracker) (thr ma mh : ℚ) (batches : List (List Box)) :
    (s.update []).1._nextId = s._nextId ∧
    List.Sublist ((s.update []).1.tracks.map Track.id) (s.tracks.map Track.id) ∧
    (s.tracks = [] → s.update [] = ({ s with _frameCount := s._frameCount + 1 }, [])) ∧
    (((reached thr ma mh batches).update []).1.tracks.length ≤
      (reached thr ma mh batches).tracks.length) ∧
    (∀ t' ∈ ((reached thr ma mh batches).update []).1.tracks,
      ∃ t ∈ (reached thr ma mh batches).tracks,
        t'.id = t.id ∧ t'.bbox = t.bbox ∧ t'.hits = t.hits ∧
          t'.lastSeenFrame = t.lastSeenFrame ∧ t'.age = t.age + 1) := by
  refine ⟨update_nil_nextId s, ?_, update_nil_eq_of_no_tracks s, ?_, ?_⟩
  · rw [update_nil_tracks]
    have h0 : List.Sublist
        ((s.tracks.map (ageTrack (s._frameCount + 1))).filter
          (keepTrack (s._frameCount + 1) s.maxAge))
        (s.tracks.map (ageTrack (s._frameCount + 1))) := List.filter_sublist _
    have h := h0.map Track.id
    have e : (s.tracks.map (ageTrack (s._frameCount + 1))).map Track.id =
        s.tracks.map Track.id := by
      rw [List.map_map]
      apply List.map_congr_left
      intro t _
      exact ageTrack_id _ _
    rwa [e] at h
  · rw [update_nil_tracks]
    calc ((List.map (ageTrack ((reached thr ma mh batches)._frameCount + 1))
            (reached thr ma mh batches).tracks).filter
              (keepTrack ((reached thr ma mh batches)._frameCount + 1)
                (reached thr ma mh batches).maxAge)).length
        ≤ (List.map (ageTrack ((reached thr ma mh batches)._frameCount + 1))
            (reached thr ma mh batches).tracks).length := List.length_filter_le _ _
      _ = (reached thr ma mh batches).tracks.length := List.length_map _ _
  · intro t' ht'
    rw [update_nil_tracks, List.mem_filter, List.mem_map] at ht'
    obtain ⟨⟨t, ht, rfl⟩, _⟩ := ht'
    exact ⟨t, ht, ageTrack_id _ _, ageTrack_bbox _ _, ageTrack_hits _ _,
      ageTrack_lastSeenFrame _ _,
      ageTrack_age_of_ne (reached_lastSeenFrame_ne thr ma mh batches ht)⟩

/-- C18 on the state after scenario A: `update []` keeps the track, with age 1 instead
of 0, and leaves `_nextId` at 2. -/
theorem update_nil_spec_witness :
    scenarioAState.tracks = [⟨1, scenarioA, 0, 1, 1⟩] ∧
      (scenarioAState.update []).1.tracks = [⟨1, scenarioA, 1, 1, 1⟩] ∧
      (scenarioAState.update []).1._nextId = scenarioAState._nextId :=
  ⟨by decide!, by decide!,
    (update_nil_spec scenarioAState defaultIouThreshold 30 1 [[scenarioA]]).1⟩

/-! ## Every detection is used once -/

theorem filter_modify_perm (p : Track → Bool) (f : Track → Track) (ts : List Track) (k : Nat)
    (hk : k < ts.length) (h1 : p ts[k] = false) (h2 : p (f ts[k]) = true) :
    ((ts.modify f k).filter p).Perm (f ts[k] :: ts.filter p) := by
  have e2 : ts = ts.take k ++ ts[k] :: ts.drop (k + 1) := by
    rw [List.getElem_cons_drop, List.take_append_drop]
  have e3 : ts.filter p = (ts.take k).filter p ++ (ts.drop (k + 1)).filter p := by
    have := congrArg (List.filter p) e2
    rw [List.filter_append, List.filter_cons_of_neg (by simp [h1])] at this
    exact this
  rw [List.modify_eq_take_cons_drop hk, List.filter_append, List.filter_cons_of_pos h2, e3]
  exact List.perm_middle

theorem unmatchedBoxes_cons_of_lt (dets : List Box) (j : Nat) (u : List Nat)
    (hj : j < dets.length) : unmatchedBoxes dets (j :: u) = dets[j] :: unmatchedBoxes dets u := by
  simp [unmatchedBoxes, List.getElem?_eq_getElem hj]

theorem unmatchedBoxes_append (dets : List Box) (u v : List Nat) :
    unmatchedBoxes dets (u ++ v) = unmatchedBoxes dets u ++ unmatchedBoxes dets v := by
  simp [unmatchedBoxes, List.filterMap_append]

/-- The tracks stamped with the current frame after the loop over `matches` are those
stamped before and one for each match, with the box of the matched detection. -/
theorem applyMatches_seen_perm (fc : ℤ) (dets : List Box) (ts : List Track)
    (ms : List (Nat × Nat)) (hnd : (ms.map Prod.fst).Nodup)
    (hr : ∀ m ∈ ms, m.1 < ts.length ∧ m.2 < dets.length)
    (hold : ∀ m ∈ ms, ∀ h : m.1 < ts.length, seenIn fc ts[m.1] = false) :
    (((applyMatches fc dets ts ms).filter (seenIn fc)).map Track.bbox).Perm
      ((ts.filter (seenIn fc)).map Track.bbox ++ unmatchedBoxes dets (ms.map Prod.snd)) := by
  induction ms generalizing ts with
  | nil => simp [applyMatches, unmatchedBoxes]
  | cons m ms ih =>
    obtain ⟨k, j⟩ := m
    simp only [List.map_cons, List.nodup_cons] at hnd
    obtain ⟨hk, hj⟩ := hr (k, j) (List.mem_cons_self _ _)
    have hstep : applyMatch fc dets ts (k, j) = ts.modify (touchTrack fc dets[j]) k := by
      simp [applyMatch, List.getElem?_eq_getElem hj]
    have hne : ∀ m ∈ ms, m.1 ≠ k := by
      intro m hm e
      exact hnd.1 (List.mem_map.2 ⟨m, hm, e⟩)
    show (((applyMatches fc dets (applyMatch fc dets ts (k, j)) ms).filter (seenIn fc)).map
      Track.bbox).Perm _
    rw [hstep]
    have hlen : (ts.modify (touchTrack fc dets[j]) k).length = ts.length := List.length_modify _ _ _
    have ih' := ih (ts.modify (touchTrack fc dets[j]) k) hnd.2
      (fun m hm => by
        rw [hlen]; exact hr m (List.mem_cons_of_mem _ hm))
      (fun m hm h => by
        rw [List.getElem_modify_ne _ _ (Ne.symm (hne m hm))]
        exact hold m (List.mem_cons_of_mem _ hm) (by rw [hlen] at h; exact h))
    refine ih'.trans ?_
    have hA := filter_modify_perm (seenIn fc) (touchTrack fc dets[j]) ts k hk
      (hold (k, j) (List.mem_cons_self _ _) hk) (by simp [seenIn, touchTrack])
    have hj' : j < dets.length := hj
    rw [List.map_cons, unmatchedBoxes_cons_of_lt dets j _ hj']
    refine ((hA.map Track.bbox).append_right _).trans ?_
    simp only [List.map_cons, List.cons_append]
    exact List.perm_middle.symm

theorem newTracks_map_bbox (n fc : ℤ) (ds : List Box) :
    (newTracks n fc ds).map Track.bbox = ds := by
  induction ds generalizing n with
  | nil => rfl
  | cons d ds ih => simp [newTracks, ih]

theorem filter_seenIn_newTracks (n fc : ℤ) (ds : List Box) :
    (newTracks n fc ds).filter (seenIn fc) = newTracks n fc ds := by
  apply List.filter_eq_self.2
  intro t ht
  simp [seenIn, (mem_newTracks ht).2.2.2.2]

/-- In a state with the invariant and `maxAge ≥ 0`, the live tracks with age 0 after a
call are the tracks stamped with the new frame before removal. -/
theorem update_age_zero_eq_seen {s : SimpleTracker} (hs : Inv s) (dets : List Box)
    (hma : 0 ≤ s.maxAge) :
    (s.update dets).1.tracks.filter (fun t => decide (t.age = 0)) =
      (agedState s dets).tracks.filter (seenIn (s._frameCount + 1)) := by
  rw [update_tracks, List.filter_filter]
  apply List.filter_congr
  intro t ht
  have hage := ((inv_agedState hs dets).2.2 t ht).2.2.2
  rw [agedState_frameCount] at hage
  unfold keepTrack seenIn
  by_cases h : t.lastSeenFrame = s._frameCount + 1
  · have h0 : t.age = 0 := by omega
    rw [h, sub_self]
    simp [h0, hma]
  · have h0 : t.age ≠ 0 := by omega
    simp [h0, h]

/-- The boxes of the tracks stamped with the new frame are the detections of the batch,
each once. -/
theorem agedState_seen_bbox_perm {s : SimpleTracker} (hs : Inv s) (dets : List Box) :
    (((agedState s dets).tracks.filter (seenIn (s._frameCount + 1))).map Track.bbox).Perm
      dets := by
  have hcomp : seenIn (s._frameCount + 1) ∘ ageTrack (s._frameCount + 1) =
      seenIn (s._frameCount + 1) := by
    funext t
    simp [seenIn, ageTrack_lastSeenFrame]
  have hbb : Track.bbox ∘ ageTrack (s._frameCount + 1) = Track.bbox := by
    funext t
    exact ageTrack_bbox _ _
  rw [agedState_tracks, List.filter_map, hcomp, List.map_map, hbb, List.filter_append,
    List.map_append, filter_seenIn_newTracks, newTracks_map_bbox]
  have hold : ∀ t ∈ s.tracks, seenIn (s._frameCount + 1) t = false := by
    intro t ht
    have := (hs.2.2 t ht).2.2.1
    simp only [seenIn, decide_eq_false_iff_not]
    omega
  have hperm := applyMatches_seen_perm (s._frameCount + 1) dets s.tracks
    (greedyMatch s dets).matched (greedyMatch_fst_nodup s dets)
    (fun m hm => greedyMatch_mem_lt s dets hm)
    (fun m _ h => hold _ (List.getElem_mem h))
  have hnil : s.tracks.filter (seenIn (s._frameCount + 1)) = [] :=
    List.filter_eq_nil_iff.2 (fun t ht => by simp [hold t ht])
  rw [hnil, List.map_nil, List.nil_append] at hperm
  refine (hperm.append_right _).trans ?_
  rw [← unmatchedBoxes_append]
  have h2 := (greedyMatch_perm s dets).2
  have h3 : (unmatchedBoxes dets ((greedyMatch s dets).matched.map Prod.snd ++
      (greedyMatch s dets).unmatchedDetections)).Perm
      (unmatchedBoxes dets (List.range dets.length)) := h2.filterMap _
  rw [unmatchedBoxes_range] at h3
  exact h3

/-- C19: every detection is accounted for exactly once.  In a state reached from a fresh
tracker with `maxAge ≥ 0`, for a batch of `N` detections, the output of `update` has
exactly `N` entries with age 0, and the boxes of these entries are a permutation of the
batch: each detection is the box of one matched track or of one new track. -/
theorem every_detection_accounted_once (thr ma mh : ℚ) (batches : List (List Box))
    (d : List Box) (hma : 0 ≤ ma) :
    ((((reached thr ma mh batches).update d).2.filter
        (fun o => decide (o.age = 0))).map Output.bbox).Perm d ∧
      (((reached thr ma mh batches).update d).2.filter
        (fun o => decide (o.age = 0))).length = d.length := by
  have hinv : Inv (reached thr ma mh batches) := inv_reachable thr ma mh batches
  have hma' : 0 ≤ (reached thr ma mh batches).maxAge := by
    rw [reached_maxAge]; exact hma
  have hc : (fun (o : Output) => decide (o.age = 0)) ∘
      emit (reached thr ma mh batches).minHits = fun t => decide (t.age = 0) := rfl
  have hb : Output.bbox ∘ emit (reached thr ma mh batches).minHits = Track.bbox := rfl
  have hperm : ((((reached thr ma mh batches).update d).2.filter
      (fun o => decide (o.age = 0))).map Output.bbox).Perm d := by
    rw [update_output, List.filter_map, hc, List.map_map, hb,
      update_age_zero_eq_seen hinv d hma']
    exact agedState_seen_bbox_perm hinv d
  refine ⟨hperm, ?_⟩
  have := hperm.length_eq
  rwa [List.length_map] at this

/-- C19 on the state `gapState` (tracks 1 and 2) and the batch `gapDetections`: the
first detection is the new box of track 1, the second is the box of the new track 3,
and track 2, which has aged, is the only other entry. -/
theorem every_detection_accounted_once_witness :
    ((0 : ℚ) ≤ 30) ∧
    ((((reached defaultIouThreshold 30 1 [gapBoxes]).update gapDetections).2.filter
        (fun o => decide (o.age = 0))).map Output.bbox).Perm gapDetections ∧
    (((reached defaultIouThreshold 30 1 [gapBoxes]).update gapDetections).2.filter
        (fun o => decide (o.age = 0))).length = gapDetections.length :=
  ⟨by norm_num,
    every_detection_accounted_once defaultIouThreshold 30 1 [gapBoxes] gapDetections (by norm_num)⟩

end Tracker
